import Mathlib

/-! Huffman-Encoding: a shallow embedding of `src/huffmanEncoding.cpp`.

The program has two paths, `-huff` (compress) and `-unhuff` (decompress).
Both are embedded below as pure functions over lists of bytes.

Conventions of the embedding.

* A byte (an `unsigned char`, or the bit pattern of a `char`) is a `Nat` below 256.
* A `std::string` is a `List Char`.
* An `int` is an `Int`; the 4-byte image written to and read from a file is
  computed by `intBytes` and `bytesInt`.  Arithmetic on counts is exact: signed
  overflow is undefined behaviour in C++ and does not occur for inputs shorter
  than 2^31 - 1 bytes.  A table read from a file can hold any counts: what is
  proved of the weights of the tree is proved for tables whose counts are not
  negative and add up to less than 2^31, for which no sum leaves the range of
  `int`.
* A `node*` is a value of the inductive type `node`; `node.null` is `nullptr`.
* The two implementation-defined choices the program depends on, the signedness
  of `char` (the iteration order of `map<char, int>`) and the byte order of
  `int`, are the fields of `Platform`.
* `std::priority_queue` belongs to the standard library.  The order in which it
  hands out nodes of equal count is that of the library at hand; `pqPush`,
  `pqTop` and `pqPop` fix one such order, and the program is embedded a second
  time over any queue (`PriorityQueue`), for what depends on that order.
* Locals that the source reads before it has assigned them (`ch` in the
  `-unhuff` loop, the read buffers when the file is truncated) start from the
  values of an `Indet` record, over which the theorems quantify.
-/

namespace Huffman

/-! ## Platform, constants -/

/-- The implementation-defined choices of the C++ platform. -/
structure Platform where
  /-- Whether plain `char` is a signed type. -/
  charSigned : Bool
  /-- Whether `int` is stored least significant byte first. -/
  littleEndian : Bool
deriving DecidableEq, Repr

/-- The usual x86-64 Linux target: signed `char`, little-endian `int`. -/
def x86_64 : Platform := ⟨true, true⟩

/-- Line 221: `int magicNum = 312341`. -/
def magicNum : Int := 312341

/-- Line 223: `char eofChar = 13`. -/
def eofChar : Nat := 13

/-- The value of a `char` with bit pattern `b`, as `operator<` on `char` sees it. -/
def charVal (P : Platform) (b : Nat) : Int :=
  if P.charSigned && decide (128 ≤ b) then (b : Int) - 256 else (b : Int)

/-- The four bytes that `write((char*)&n, sizeof(int))` puts in the file. -/
def intBytes (P : Platform) (n : Int) : List Nat :=
  let u := (n % 4294967296).toNat
  let le := [u % 256, u / 256 % 256, u / 65536 % 256, u / 16777216 % 256]
  if P.littleEndian then le else le.reverse

/-- The `int` whose object representation is the four bytes `bs`. -/
def bytesInt (P : Platform) (bs : List Nat) : Int :=
  let le := if P.littleEndian then bs else bs.reverse
  let u : Nat := le.getD 0 0 + 256 * le.getD 1 0 + 65536 * le.getD 2 0 + 16777216 * le.getD 3 0
  if u < 2147483648 then (u : Int) else (u : Int) - 4294967296

/-! ## Maps

`std::map` is an association list.  `charMap` is iterated, so it is kept in key
order; the two code tables are only ever searched, so they keep insertion
order, which the program cannot observe. -/

/-- `map::find`: the value stored under `k`, if any. -/
def tblFind {κ ν : Type} [DecidableEq κ] : List (κ × ν) → κ → Option ν
  | [], _ => none
  | (k', v) :: rest, k => if k = k' then some v else tblFind rest k

/-- `map::insert` on a table that is never iterated: no effect when the key is present. -/
def tblInsert {κ ν : Type} [DecidableEq κ] (m : List (κ × ν)) (k : κ) (v : ν) : List (κ × ν) :=
  match tblFind m k with
  | some _ => m
  | none => m ++ [(k, v)]

/-- `map<char, string>::operator[]`: the stored string, a default-constructed
empty string being inserted first when the key is absent. -/
def tblIndex (m : List (Nat × List Char)) (k : Nat) : List Char × List (Nat × List Char) :=
  match tblFind m k with
  | some v => (v, m)
  | none => ([], m ++ [(k, [])])

/-- The contents of `map<char, int> charMap`, in iteration order. -/
abbrev CharMap := List (Nat × Int)

/-- `charMap.insert(pair<char, int>(k, v))`: ordered insertion, no effect when
the key is present. -/
def mapInsert (P : Platform) : CharMap → Nat → Int → CharMap
  | [], k, v => [(k, v)]
  | (k', v') :: rest, k, v =>
    if k = k' then (k', v') :: rest
    else if charVal P k < charVal P k' then (k, v) :: (k', v') :: rest
    else (k', v') :: mapInsert P rest k v

/-- Lines 261-262: `(*itr).second = (*itr).second + 1` at `itr = charMap.find(ch)`. -/
def mapIncr : CharMap → Nat → CharMap
  | [], _ => []
  | (k', v') :: rest, k =>
    if k = k' then (k', v' + 1) :: rest else (k', v') :: mapIncr rest k

/-- Lines 255-263: the body of the frequency scan for one character. -/
def countChar (P : Platform) (charMap : CharMap) (ch : Nat) : CharMap :=
  match tblFind charMap ch with
  | none => mapInsert P charMap ch 1
  | some _ => mapIncr charMap ch

/-- Lines 251-267: the frequency scan, then the insertion of the EOF character. -/
def buildCharMap (P : Platform) (input : List Nat) : CharMap :=
  mapInsert P (input.foldl (countChar P) []) eofChar 1

/-! ## Tree nodes and the priority queue -/

/-- A `node*`: either `nullptr` or a pointer to a `node` struct (lines 48-73). -/
inductive node where
  | null : node
  | mk (count : Int) (c : Nat) (left right : node) : node
deriving DecidableEq, Repr

/-- The field `count` of the node pointed to. -/
def node.count : node → Int
  | .null => 0
  | .mk count _ _ _ => count

/-- The field `c` of the node pointed to. -/
def node.c : node → Nat
  | .null => 0
  | .mk _ c _ _ => c

/-- Lines 62-72: the constructor `node(lptr, rptr)`.  The sum of line 70 is
taken in `Int`: it is the sum the program computes as long as it stays within
the range of `int`. -/
def node.new (lptr rptr : node) : node :=
  let count : Int := if lptr ≠ .null ∧ rptr ≠ .null then lptr.count + rptr.count else 0
  .mk count 0 lptr rptr

/-- Lines 276-278: `p = new node(); p->c = c; p->count = count`. -/
def newLeaf (c : Nat) (count : Int) : node :=
  match node.new .null .null with
  | .mk _ _ l r => .mk count c l r
  | .null => .null

/-- Lines 87-89: `cmp_node::operator()`. -/
def cmp_node (a b : node) : Bool := decide (a.count > b.count)

/-- Modelled from the spec: `std::priority_queue<node*, vector<node*>, cmp_node>::push`,
which belongs to the standard library and is not in the repository.  The
queue is the list of its elements in the order they will be popped: lowest
count first and, among equal counts, the element pushed earlier first (the
tie-break of section 4.2 of the specification). -/
def pqPush : List node → node → List node
  | [], p => [p]
  | x :: xs, p => if cmp_node x p then p :: x :: xs else x :: pqPush xs p

/-- Modelled from the spec: `priority_queue::top`. -/
def pqTop (n : List node) : node := n.headD .null

/-- Modelled from the spec: `priority_queue::pop`. -/
def pqPop (n : List node) : List node := n.tail

/-- Lines 274-282 (and 476-487): one leaf per entry of `charMap`, pushed in
iteration order.  Returned with the queue is the last value of `p`. -/
def pushLeaves (charMap : CharMap) (n : List node) (p : node) : List node × node :=
  charMap.foldl (fun np kv => (pqPush np.1 (newLeaf kv.1 kv.2), newLeaf kv.1 kv.2)) (n, p)

/-- Lines 287-295 (and 493-501): the merge loop; the result is the final value
of `p`.  Every iteration shortens the queue by one, so `n.length` iterations
of fuel are enough. -/
def mergeLoop : Nat → List node → node → node
  | 0, _, p => p
  | fuel + 1, n, p =>
    if n.length > 1 then
      let n1 := pqTop n
      let n' := pqPop n
      let n2 := pqTop n'
      let n'' := pqPop n'
      let p' := node.new n1 n2
      mergeLoop fuel (pqPush n'' p') p'
    else p

/-- Lines 274-295: the tree built from `charMap`.  With an empty `charMap` the
source leaves `p` unassigned; the embedding starts it at `nullptr`. -/
def buildTree (charMap : CharMap) : node :=
  let np := pushLeaves charMap [] .null
  mergeLoop np.1.length np.1 np.2

/-! ## Code tables -/

/-- Lines 131-144: `encodeData`. -/
def encodeData : node → List Char → List (Nat × List Char) → List (Nat × List Char)
  | .null, _, myMap => myMap
  | .mk _ c left right, str, myMap =>
    let myMap1 := if c ≠ 0 then tblInsert myMap c str else myMap
    let myMap2 := encodeData left (str ++ ['0']) myMap1
    encodeData right (str ++ ['1']) myMap2

/-- Lines 156-169: `dencodeData`. -/
def dencodeData : node → List Char → List (List Char × Nat) → List (List Char × Nat)
  | .null, _, myMap => myMap
  | .mk _ c left right, str, myMap =>
    let myMap1 := if c ≠ 0 then tblInsert myMap str c else myMap
    let myMap2 := dencodeData left (str ++ ['0']) myMap1
    dencodeData right (str ++ ['1']) myMap2

/-! ## Bits and bytes -/

/-- Lines 103-119: `convertToByte`.  The source indexes `codeString[7]` down to
`codeString[0]` whatever the length of the string; a position at or past the
end reads as the terminating NUL.  Past the terminating NUL the read is
undefined behaviour in C++: on an argument of fewer than 7 characters the
value below is one the program may return, not the one it must. -/
def convertToByte (codeString : List Char) : Nat :=
  (List.range 8).foldl
    (fun number k =>
      let i := 7 - k
      if codeString.getD i (Char.ofNat 0) = '1' then number ||| (1 <<< (7 - i)) else number)
    0

/-- The call `std::to_string(output[i])` of line 190. -/
def to_string (n : Nat) : List Char := Nat.toDigits 10 n

/-- Lines 180-194: `byteToString`. -/
def byteToString (theByte : Nat) : List Char :=
  let output : List Nat := (List.range 8).map (fun i => (theByte >>> i) &&& 1)
  (List.range 8).foldl (fun theString k => theString ++ to_string (output.getD (7 - k) 0)) []

/-! ## The `-huff` path -/

/-- Lines 305-307: `encodCountString = encodCountString + encodeTable[ch]` over
the input; `operator[]` may add entries to `encodeTable`. -/
def countPass (encodeTable : List (Nat × List Char)) (input : List Nat) :
    List Char × List (Nat × List Char) :=
  input.foldl
    (fun se ch => ((se.1 ++ (tblIndex se.2 ch).1), (tblIndex se.2 ch).2))
    ([], encodeTable)

/-- Lines 308-310: `'d'` is appended until the size is a multiple of 8. -/
def padD (encodCountString : List Char) : List Char :=
  encodCountString ++ List.replicate ((8 - encodCountString.length % 8) % 8) 'd'

/-- Lines 409-411 and 427-429: `"0"` is appended while the size is below 8. -/
def padZero (s : List Char) : List Char :=
  s ++ List.replicate (8 - s.length) '0'

/-- The state of the payload writer: the pending string `encodString`, the
bytes written to `outputFile` after the frequency entries, and the arguments
`convertToByte` has been called with, in call order. -/
structure Packer where
  encodString : List Char
  out : List Nat
  calls : List (List Char)
deriving DecidableEq, Repr

/-- The pair `myByte = convertToByte(s); outputFile.write(&myByte, 1)`, after
which `encodString` is `rest`. -/
def Packer.emit (st : Packer) (s rest : List Char) : Packer :=
  ⟨rest, st.out ++ [convertToByte s], st.calls ++ [s]⟩

/-- Lines 351-360: whole bytes are written from the front of `encodString`
while it holds 8 characters or more. -/
def flushLoop : Nat → Packer → Packer
  | 0, st => st
  | fuel + 1, st =>
    if st.encodString.length ≥ 8 then
      flushLoop fuel (st.emit (st.encodString.take 8) (st.encodString.drop 8))
    else st

/-- Lines 376-390 and 418-434: the least `i < code.size()` with
`encodString.size() + code.substr(0, i).size() == 8`, where the loop breaks. -/
def splitAt8 (encodString code : List Char) : Option Nat :=
  (List.range code.length).find? (fun i => encodString.length + (code.take i).length = 8)

/-- Lines 344-394: the body of the content loop for the character `ch`.  The
`find` of line 346 succeeds, line 306 having indexed the table with every
character of the input. -/
def packChar (encodeTable : List (Nat × List Char)) (st : Packer) (ch : Nat) : Packer :=
  let chEncode := (tblFind encodeTable ch).getD []
  let st := flushLoop st.encodString.length st
  if st.encodString.length + chEncode.length ≤ 8 then
    let encodString := st.encodString ++ chEncode
    if encodString.length = 8 then st.emit encodString []
    else { st with encodString := encodString }
  else
    match splitAt8 st.encodString chEncode with
    | some i => st.emit (st.encodString ++ chEncode.take i) (chEncode.drop i)
    | none => st

/-- Lines 398-435: the EOF codeword and the padding.  In the first two branches
the source assigns the sum of two sizes to `encodString`, which makes it the
one-character string holding that value. -/
def packEof (encodeTable : List (Nat × List Char)) (st : Packer) : Packer :=
  let eofString := (tblIndex encodeTable eofChar).1
  if st.encodString.length + eofString.length = 8 then
    let encodString := [Char.ofNat (st.encodString.length + eofString.length)]
    st.emit encodString encodString
  else if st.encodString.length + eofString.length < 8 then
    let encodString := padZero [Char.ofNat (st.encodString.length + eofString.length)]
    st.emit encodString encodString
  else
    match splitAt8 st.encodString eofString with
    | some i =>
      let encodString := st.encodString ++ eofString.take i
      let str3 := padZero (eofString.drop i)
      (st.emit encodString encodString).emit str3 encodString
    | none => st

/-- Line 299: the table `encodeData` derives from the tree of the input. -/
def encodeTableOf (P : Platform) (input : List Nat) : List (Nat × List Char) :=
  encodeData (buildTree (buildCharMap P input)) [] []

/-- Lines 239, 268, 311: the value of `numByteComp` when the guard of line 315
tests it. -/
def numByteComp (P : Platform) (input : List Nat) : Nat :=
  8 + (buildCharMap P input).length * 5 +
    (padD (countPass (encodeTableOf P input) input).1).length / 8

/-- The table `encodeTable` as the lines after 307 find it: what `encodeData`
derived, with the entries the indexing of line 306 has added. -/
def codeTable (P : Platform) (input : List Nat) : List (Nat × List Char) :=
  (countPass (encodeTableOf P input) input).2

/-- Lines 338-394: the state of the payload writer when the content loop ends. -/
def contentState (P : Platform) (input : List Nat) : Packer :=
  input.foldl (packChar (codeTable P input)) ⟨[], [], []⟩

/-- Line 398: `string eofString = encodeTable[eofChar]`. -/
def eofString (P : Platform) (input : List Nat) : List Char :=
  (tblIndex (codeTable P input) eofChar).1

/-- Lines 338-435: the final state of the payload writer. -/
def packAll (P : Platform) (input : List Nat) : Packer :=
  packEof (codeTable P input) (contentState P input)

/-- Lines 324-336: the magic number, the number of entries, the entries. -/
def headerBytes (P : Platform) (charMap : CharMap) : List Nat :=
  intBytes P magicNum ++ intBytes P (charMap.length : Int) ++
    charMap.flatMap (fun kv => kv.1 :: intBytes P kv.2)

/-- What the `-huff` path does to the destination file. -/
inductive EncodeResult where
  /-- Line 317: `File will not compress`; the destination is never opened. -/
  | abandoned : EncodeResult
  /-- The bytes of the destination file. -/
  | written (bytes : List Nat) : EncodeResult
deriving DecidableEq, Repr

/-- Lines 235-440: the `-huff` path on the bytes of the source file. -/
def encode (P : Platform) (input : List Nat) : EncodeResult :=
  let numByteOrig := input.length
  if numByteComp P input > numByteOrig then .abandoned
  else .written (headerBytes P (buildCharMap P input) ++ (packAll P input).out)

/-! ## The `-unhuff` path -/

/-- An input file stream: the bytes not yet consumed, and whether no read has
failed so far. -/
structure IStream where
  data : List Nat
  good : Bool
deriving DecidableEq, Repr

/-- The call `read((char*)&x, n)` where `buf` is the `n`-byte object `x`: the
bytes available overwrite the front of `buf`; a short read fails the stream,
and every read on a failed stream stores nothing. -/
def IStream.read (s : IStream) (n : Nat) (buf : List Nat) : List Nat × IStream :=
  if s.good then
    if n ≤ s.data.length then (s.data.take n, ⟨s.data.drop n, true⟩)
    else (s.data ++ buf.drop s.data.length, ⟨[], false⟩)
  else (buf, s)

/-- The initial contents of the locals the `-unhuff` path reads from the file
into, and of `ch`, none of which the source initialises. -/
structure Indet where
  firstNum : List Nat
  numLets : List Nat
  chaa : Nat
  freqq : List Nat
  ch : Nat
deriving DecidableEq, Repr

/-- Lines 469-473: the loop that reads `numLets` entries into `charMap`. -/
def readEntries (P : Platform) : Nat → IStream → Nat → List Nat → CharMap → CharMap × IStream
  | 0, s, _, _, charMap => (charMap, s)
  | k + 1, s, chaa, freqq, charMap =>
    let r1 := s.read 1 [chaa]
    let chaa := r1.1.headD chaa
    let r2 := r1.2.read 4 freqq
    readEntries P k r2.2 chaa r2.1 (mapInsert P charMap chaa (bytesInt P r2.1))

/-- The variables of the unpacking loop: `ch`, `readingString`, and the bytes
sent to `finalFile` so far. -/
structure Unpacker where
  ch : Nat
  readingString : List Char
  out : List Nat
deriving DecidableEq, Repr

/-- Lines 524-536: the `for` loop over the characters of `byteString`, from the
character at hand to the last, with its `break`. -/
def scanBits (dencodeTable : List (List Char × Nat)) : List Char → Unpacker → Unpacker
  | [], st => st
  | b :: rest, st =>
    let readingString := st.readingString ++ [b]
    match tblFind dencodeTable readingString with
    | some ch =>
      if ch = eofChar then ⟨ch, readingString, st.out⟩
      else scanBits dencodeTable rest ⟨ch, [], st.out ++ [ch]⟩
    | none => scanBits dencodeTable rest { st with readingString := readingString }

/-- Lines 522-547: the `while (ch != eofChar)` loop.  The result is the content
of the destination file when the loop ends within `fuel` iterations. -/
def unpackLoop (dencodeTable : List (List Char × Nat)) :
    Nat → IStream → Nat → Unpacker → Option (List Nat)
  | 0, _, _, _ => none
  | fuel + 1, s, myByte, st =>
    if st.ch = eofChar then some st.out
    else
      let st' := scanBits dencodeTable (byteToString myByte) st
      if st'.ch = eofChar then some st'.out
      else
        let r := s.read 1 [myByte]
        unpackLoop dencodeTable fuel r.2 (r.1.headD myByte) st'

/-- Lines 514-547: the first byte is read, then the loop runs. -/
def unpack (dencodeTable : List (List Char × Nat)) (ch : Nat) (fuel : Nat) (s : IStream) :
    Option (List Nat) :=
  let r := s.read 1 [0]
  unpackLoop dencodeTable fuel r.2 (r.1.headD 0) ⟨ch, [], []⟩

/-- What the `-unhuff` path does to the destination file. -/
inductive DecodeResult where
  /-- Line 461: `Input file was not Huffman Endoded.`; the destination is never opened. -/
  | notEncoded : DecodeResult
  /-- The bytes of the destination file. -/
  | output (bytes : List Nat) : DecodeResult
deriving DecidableEq, Repr

/-- Lines 465-505: the frequency table parsed from the stream after the magic
number, and the stream positioned at the payload. -/
def readCharMap (P : Platform) (g : Indet) (s : IStream) : CharMap × IStream :=
  let r := s.read 4 g.numLets
  readEntries P (bytesInt P r.1).toNat r.2 g.chaa g.freqq []

/-- Lines 446-552: the `-unhuff` path on the bytes of the source file; `none`
when the unpacking loop is still running after `fuel` iterations. -/
def decode (P : Platform) (g : Indet) (fuel : Nat) (container : List Nat) :
    Option DecodeResult :=
  let r := IStream.read ⟨container, true⟩ 4 g.firstNum
  if bytesInt P r.1 ≠ magicNum then some .notEncoded
  else
    let cs := readCharMap P g r.2
    let dencodeTable := dencodeData (buildTree cs.1) [] []
    (unpack dencodeTable g.ch fuel cs.2).map DecodeResult.output

/-! ## Notions used to state the properties -/

/-- The nodes of a tree that carry a character (`c != '\0'`), each with the
path from the root that leads to it (`'0'` for left, `'1'` for right, after
the path `str` of the root itself), in the order `encodeData` and
`dencodeData` visit them. -/
def labels : node → List Char → List (List Char × Nat)
  | .null, _ => []
  | .mk _ c left right, str =>
    (if c ≠ 0 then [(str, c)] else []) ++ labels left (str ++ ['0']) ++
      labels right (str ++ ['1'])

/-- The leaves of a tree from left to right, each as the pair of its
character and its count. -/
def leafList : node → List (Nat × Int)
  | .null => []
  | .mk count c left right =>
    if left = .null ∧ right = .null then [(c, count)] else leafList left ++ leafList right

/-- A tree as the program builds them: a leaf made by `newLeaf`, or a node made
by `node.new` from two such trees. -/
inductive Proper : node → Prop where
  | leaf (c : Nat) (count : Int) : Proper (newLeaf c count)
  | inner (l r : node) : Proper l → Proper r → Proper (node.new l r)

/-- The entries of a `charMap` stand in strictly increasing `char` order. -/
def SortedMap (P : Platform) (m : CharMap) : Prop :=
  m.Pairwise (fun a b => charVal P a.1 < charVal P b.1)

/-- The payload writer has put out the bitstream `bits`: the bits of the bytes
written, then the pending string, are `bits`. -/
def PackInv (st : Packer) (bits : List Char) : Prop :=
  st.out.flatMap byteToString ++ st.encodString = bits

/-- The byte whose bits, most significant first, are the characters of `chunk`
(`'1'` for a set bit), missing low bits being zero. -/
def specByte (chunk : List Char) : Nat :=
  (padZero chunk).foldl (fun acc b => 2 * acc + (if b = '1' then 1 else 0)) 0

/-- Recursion behind `specPack`; the bitstream shrinks by 8 at every step. -/
def specPackAux : Nat → List Char → List Nat
  | 0, _ => []
  | fuel + 1, bits =>
    if bits = [] then [] else specByte (bits.take 8) :: specPackAux fuel (bits.drop 8)

/-- The packer contract of section 4.4: the bitstream grouped into 8-bit bytes,
most significant bit first, the trailing partial byte padded with zero bits. -/
def specPack (bits : List Char) : List Nat := specPackAux bits.length bits

/-- The bitstream `codeword(b1) ++ ... ++ codeword(bn) ++ codeword(13)` for
the table that `encodeData` derives from the input. -/
def specBitstream (P : Platform) (input : List Nat) : List Char :=
  input.flatMap (fun b => (tblFind (encodeTableOf P input) b).getD []) ++
    (tblFind (encodeTableOf P input) eofChar).getD []

/-! ## Notions used to state the further properties -/

/-- The 8-character string of the bits of `b`, most significant bit first:
the character at position `k` is `'1'` when bit `7 - k` of `b` is set. -/
def specBits (b : Nat) : List Char :=
  (List.range 8).map (fun k => if b / 2 ^ (7 - k) % 2 = 1 then '1' else '0')

/-- Lines 456-473: the value of `charMap` when the `-unhuff` path reaches line
476, for a file that has passed the magic check. -/
def decodeCharMap (P : Platform) (g : Indet) (container : List Nat) : CharMap :=
  (readCharMap P g (IStream.read ⟨container, true⟩ 4 g.firstNum).2).1

/-- Lines 522-547: the stream, `myByte` and the loop variables after at most
`k` iterations of the `while` loop (fewer when the loop has ended before). -/
def unpackRun (dencodeTable : List (List Char × Nat)) :
    Nat → IStream → Nat → Unpacker → IStream × Nat × Unpacker
  | 0, s, myByte, st => (s, myByte, st)
  | k + 1, s, myByte, st =>
    if st.ch = eofChar then (s, myByte, st)
    else
      let st' := scanBits dencodeTable (byteToString myByte) st
      if st'.ch = eofChar then (s, myByte, st')
      else
        let r := s.read 1 [myByte]
        unpackRun dencodeTable k r.2 (r.1.headD myByte) st'

/-- Lines 446-547: the bytes the `-unhuff` path has sent to `finalFile` when
the loop has made `k` iterations or has ended before, whether or not it ever
ends; nothing when the magic check fails. -/
def emitted (P : Platform) (g : Indet) (k : Nat) (container : List Nat) : List Nat :=
  let r := IStream.read ⟨container, true⟩ 4 g.firstNum
  if bytesInt P r.1 ≠ magicNum then []
  else
    let cs := readCharMap P g r.2
    let dencodeTable := dencodeData (buildTree cs.1) [] []
    let r1 := cs.2.read 1 [0]
    (unpackRun dencodeTable k r1.2 (r1.1.headD 0) ⟨g.ch, [], []⟩).2.2.out

/-- The field `left` of the node pointed to. -/
def node.left : node → node
  | .null => .null
  | .mk _ _ left _ => left

/-- The field `right` of the node pointed to. -/
def node.right : node → node
  | .null => .null
  | .mk _ _ _ right => right

/-- The nodes of a tree that are not leaves (that have a child), root first. -/
def internalNodes : node → List node
  | .null => []
  | .mk count c left right =>
    if left = .null ∧ right = .null then []
    else .mk count c left right :: (internalNodes left ++ internalNodes right)

/-! ## Notions used to state optimality -/

/-- The leaves of a tree from left to right, each as the pair of its character
and its depth, the root standing at depth `d`. -/
def leafDepths : node → Nat → List (Nat × Nat)
  | .null, _ => []
  | .mk _ c left right, d =>
    if left = .null ∧ right = .null then [(c, d)]
    else leafDepths left (d + 1) ++ leafDepths right (d + 1)

/-- The depth of the leaf of the character `c` in the tree `t`: the number of
edges from the root to it, which is the length of its codeword. -/
def depthOf (t : node) (c : Nat) : Nat := (tblFind (leafDepths t 0) c).getD 0

/-- The weighted path length of the tree `t` for the table `charMap`: the sum,
over the symbols of the table, of the count times the depth of the leaf. -/
def weightedPathLength (charMap : CharMap) (t : node) : Int :=
  (charMap.map (fun kv => kv.2 * (depthOf t kv.1 : Int))).sum

/-- The sum, over the leaves of `t`, of the field `count` of the leaf times its
depth, the root standing at depth `d`. -/
def pathCost : node → Nat → Int
  | .null, _ => 0
  | .mk count _ left right, d =>
    if left = .null ∧ right = .null then count * (d : Int)
    else pathCost left (d + 1) + pathCost right (d + 1)

/-- The multisets of leaf depths of the binary trees in which every node has
two children or none: the depth 0 alone, and any such multiset in which a
depth `d` is replaced by two depths `d + 1`. -/
inductive TreeDepths : Multiset Nat → Prop where
  | single : TreeDepths {0}
  | split (d : Nat) (D : Multiset Nat) :
    TreeDepths (d ::ₘ D) → TreeDepths ((d + 1) ::ₘ (d + 1) ::ₘ D)

/-- The cost of an assignment of depths to weights: the sum of weight times depth. -/
def assignCost (A : Multiset (Int × Nat)) : Int := (A.map (fun p => p.1 * (p.2 : Int))).sum

/-! ## The program over any priority queue

The order in which `std::priority_queue` hands out nodes of equal count is
not fixed by the C++ standard; it is that of the heap of the library at
hand.  The tree, the codewords and the bits pending at line 398 depend on
it.  Below, the queue is a parameter of the program: the definitions are
those of the sections above, with the three operations of the queue taken
from `Q`. -/

/-- The operations of `std::priority_queue<node*, vector<node*>, cmp_node>`
that the program calls (lines 273-295 and 475-501), each on the sequence of
the pointers the queue holds. -/
structure PriorityQueue where
  /-- The queue after `n.push(p)`. -/
  push : List node → node → List node
  /-- The pointer `n.top()` returns. -/
  top : List node → node
  /-- The queue after `n.pop()`. -/
  pop : List node → List node

/-- The queues the program can hold: the empty queue of line 273 (and 475),
and what `push` and `pop` make of such a queue. -/
inductive PriorityQueue.Reachable (Q : PriorityQueue) : List node → Prop where
  | empty : PriorityQueue.Reachable Q []
  | push (q : List node) (p : node) :
    PriorityQueue.Reachable Q q → PriorityQueue.Reachable Q (Q.push q p)
  | pop (q : List node) :
    PriorityQueue.Reachable Q q → q ≠ [] → PriorityQueue.Reachable Q (Q.pop q)

/-- What the C++ standard says of the three operations, whatever the library:
`push` adds the pointer to those the queue holds, `top` returns one of them
and `pop` removes it, and in no queue the program can hold does `cmp_node`
put a pointer of the queue after the one `top` returns (no count is below
its count). -/
structure PriorityQueue.Lawful (Q : PriorityQueue) : Prop where
  push_perm : ∀ q p, (Q.push q p).Perm (p :: q)
  pop_perm : ∀ q, q ≠ [] → (Q.top q :: Q.pop q).Perm q
  top_min : ∀ q, Q.Reachable q → ∀ x ∈ q, cmp_node (Q.top q) x = false

/-- The queue of `pqPush`, `pqTop` and `pqPop`. -/
def listQueue : PriorityQueue := ⟨pqPush, pqTop, pqPop⟩

/-- Lines 274-282 (and 476-487), as `pushLeaves`, over the queue `Q`. -/
def PriorityQueue.pushLeaves (Q : PriorityQueue) (charMap : CharMap) (n : List node)
    (p : node) : List node × node :=
  charMap.foldl (fun np kv => (Q.push np.1 (newLeaf kv.1 kv.2), newLeaf kv.1 kv.2)) (n, p)

/-- Lines 287-295 (and 493-501), as `mergeLoop`, over the queue `Q`. -/
def PriorityQueue.mergeLoop (Q : PriorityQueue) : Nat → List node → node → node
  | 0, _, p => p
  | fuel + 1, n, p =>
    if n.length > 1 then
      let n1 := Q.top n
      let n' := Q.pop n
      let n2 := Q.top n'
      let n'' := Q.pop n'
      let p' := node.new n1 n2
      PriorityQueue.mergeLoop Q fuel (Q.push n'' p') p'
    else p

/-- Lines 287-295: the queue `n` at the start of every iteration the merge
loop makes, in order. -/
def PriorityQueue.mergeTrace (Q : PriorityQueue) : Nat → List node → List (List node)
  | 0, _ => []
  | fuel + 1, n =>
    if n.length > 1 then
      n :: PriorityQueue.mergeTrace Q fuel
        (Q.push (Q.pop (Q.pop n)) (node.new (Q.top n) (Q.top (Q.pop n))))
    else []

/-- Lines 274-295, as `buildTree`, over the queue `Q`. -/
def PriorityQueue.buildTree (Q : PriorityQueue) (charMap : CharMap) : node :=
  let np := Q.pushLeaves charMap [] .null
  Q.mergeLoop np.1.length np.1 np.2

/-- Line 299, as `encodeTableOf`, over the queue `Q`. -/
def PriorityQueue.encodeTableOf (Q : PriorityQueue) (P : Platform) (input : List Nat) :
    List (Nat × List Char) :=
  encodeData (Q.buildTree (buildCharMap P input)) [] []

/-- Lines 239, 268, 311, as `numByteComp`, over the queue `Q`. -/
def PriorityQueue.numByteComp (Q : PriorityQueue) (P : Platform) (input : List Nat) : Nat :=
  8 + (buildCharMap P input).length * 5 +
    (padD (countPass (Q.encodeTableOf P input) input).1).length / 8

/-- The table `encodeTable` as the lines after 307 find it, over the queue `Q`. -/
def PriorityQueue.codeTable (Q : PriorityQueue) (P : Platform) (input : List Nat) :
    List (Nat × List Char) :=
  (countPass (Q.encodeTableOf P input) input).2

/-- Lines 338-394: the state of the payload writer when the content loop
ends, over the queue `Q`; its field `encodString` is the string pending at
line 398. -/
def PriorityQueue.contentState (Q : PriorityQueue) (P : Platform) (input : List Nat) : Packer :=
  input.foldl (packChar (Q.codeTable P input)) ⟨[], [], []⟩

/-- Line 398: `string eofString = encodeTable[eofChar]`, over the queue `Q`. -/
def PriorityQueue.eofString (Q : PriorityQueue) (P : Platform) (input : List Nat) : List Char :=
  (tblIndex (Q.codeTable P input) eofChar).1

/-- Lines 338-435: the final state of the payload writer, over the queue `Q`. -/
def PriorityQueue.packAll (Q : PriorityQueue) (P : Platform) (input : List Nat) : Packer :=
  packEof (Q.codeTable P input) (Q.contentState P input)

/-- Lines 235-440: the `-huff` path on the bytes of the source file, over the
queue `Q`. -/
def PriorityQueue.encode (Q : PriorityQueue) (P : Platform) (input : List Nat) : EncodeResult :=
  let numByteOrig := input.length
  if Q.numByteComp P input > numByteOrig then .abandoned
  else .written (headerBytes P (buildCharMap P input) ++ (Q.packAll P input).out)

/-- Lines 446-552: the `-unhuff` path on the bytes of the source file, over the
queue `Q`; `none` when the unpacking loop is still running after `fuel`
iterations. -/
def PriorityQueue.decode (Q : PriorityQueue) (P : Platform) (g : Indet) (fuel : Nat)
    (container : List Nat) : Option DecodeResult :=
  let r := IStream.read ⟨container, true⟩ 4 g.firstNum
  if bytesInt P r.1 ≠ magicNum then some .notEncoded
  else
    let cs := readCharMap P g r.2
    let dencodeTable := dencodeData (Q.buildTree cs.1) [] []
    (unpack dencodeTable g.ch fuel cs.2).map DecodeResult.output

/-! ## Lookups in association lists -/

theorem tblFind_mem {κ ν : Type} [DecidableEq κ] {m : List (κ × ν)} {k : κ} {v : ν}
    (h : tblFind m k = some v) : (k, v) ∈ m := by
  induction m with
  | nil => simp [tblFind] at h
  | cons e rest ih =>
    obtain ⟨k', v'⟩ := e
    unfold tblFind at h
    split at h
    · rename_i hk
      cases h
      subst hk
      exact List.mem_cons_self _ _
    · exact List.mem_cons_of_mem _ (ih h)

theorem tblFind_isSome_of_mem {κ ν : Type} [DecidableEq κ] {m : List (κ × ν)} {k : κ} {v : ν}
    (h : (k, v) ∈ m) : ∃ v', tblFind m k = some v' := by
  induction m with
  | nil => cases h
  | cons e rest ih =>
    obtain ⟨k', v'⟩ := e
    unfold tblFind
    by_cases hk : k = k'
    · exact ⟨v', by simp [hk]⟩
    · rcases List.mem_cons.1 h with h | h
      · exact absurd (congrArg Prod.fst h) hk
      · obtain ⟨w, hw⟩ := ih h
        exact ⟨w, by simp [hk, hw]⟩

theorem tblFind_eq_none_iff {κ ν : Type} [DecidableEq κ] {m : List (κ × ν)} {k : κ} :
    tblFind m k = none ↔ k ∉ m.map Prod.fst := by
  induction m with
  | nil => simp [tblFind]
  | cons e rest ih =>
    obtain ⟨k', v'⟩ := e
    unfold tblFind
    by_cases hk : k = k'
    · simp [hk]
    · simp [hk, ih]

theorem tblFind_of_mem_nodup {κ ν : Type} [DecidableEq κ] {m : List (κ × ν)} {k : κ} {v : ν}
    (hnd : (m.map Prod.fst).Nodup) (h : (k, v) ∈ m) : tblFind m k = some v := by
  induction m with
  | nil => cases h
  | cons e rest ih =>
    obtain ⟨k', v'⟩ := e
    rw [List.map_cons, List.nodup_cons] at hnd
    unfold tblFind
    rcases List.mem_cons.1 h with h | h
    · cases h
      simp
    · have hne : k ≠ k' := by
        intro hkk
        apply hnd.1
        have := List.mem_map_of_mem Prod.fst h
        rwa [hkk] at this
      simp [hne, ih hnd.2 h]

theorem tblFind_append {κ ν : Type} [DecidableEq κ] (m m' : List (κ × ν)) (k : κ) :
    tblFind (m ++ m') k = match tblFind m k with
      | some v => some v
      | none => tblFind m' k := by
  induction m with
  | nil => simp [tblFind]
  | cons e rest ih =>
    obtain ⟨k', v'⟩ := e
    by_cases hk : k = k'
    · simp [tblFind, hk]
    · simp [tblFind, hk, ih]

/-- Inserting the pairs of `L` one by one answers lookups as `m ++ L` does. -/
theorem tblFind_foldl_tblInsert {κ ν : Type} [DecidableEq κ] (L m : List (κ × ν)) (k : κ) :
    tblFind (L.foldl (fun m e => tblInsert m e.1 e.2) m) k = tblFind (m ++ L) k := by
  induction L generalizing m with
  | nil => simp
  | cons e rest ih =>
    obtain ⟨k', v'⟩ := e
    rw [List.foldl_cons, ih]
    simp only [tblFind_append]
    unfold tblInsert
    cases hm : tblFind m k' with
    | some w =>
      simp only
      cases hk : tblFind m k with
      | some u => rfl
      | none =>
        have hne : k ≠ k' := by
          rintro rfl
          rw [hm] at hk
          cases hk
        simp [tblFind, hne]
    | none =>
      simp only [tblFind_append]
      cases hk : tblFind m k with
      | some u => rfl
      | none =>
        by_cases hkk : k = k'
        · simp [tblFind, hkk]
        · simp [tblFind, hkk]

/-! ## The code tables are the labels of the tree -/

theorem encodeData_eq_foldl (t : node) (str : List Char) (m : List (Nat × List Char)) :
    encodeData t str m =
      ((labels t str).map Prod.swap).foldl (fun m e => tblInsert m e.1 e.2) m := by
  induction t generalizing str m with
  | null => simp [encodeData, labels]
  | mk count c l r ihl ihr =>
    simp only [encodeData, labels, List.map_append, List.foldl_append, ihl, ihr]
    by_cases hc : c = 0
    · simp [hc]
    · simp [hc]

theorem dencodeData_eq_foldl (t : node) (str : List Char) (m : List (List Char × Nat)) :
    dencodeData t str m = (labels t str).foldl (fun m e => tblInsert m e.1 e.2) m := by
  induction t generalizing str m with
  | null => simp [dencodeData, labels]
  | mk count c l r ihl ihr =>
    simp only [dencodeData, labels, List.foldl_append, ihl, ihr]
    by_cases hc : c = 0
    · simp [hc]
    · simp [hc]

theorem tblFind_encodeData (t : node) (c : Nat) :
    tblFind (encodeData t [] []) c = tblFind ((labels t []).map Prod.swap) c := by
  rw [encodeData_eq_foldl, tblFind_foldl_tblInsert, List.nil_append]

theorem tblFind_dencodeData (t : node) (w : List Char) :
    tblFind (dencodeData t [] []) w = tblFind (labels t []) w := by
  rw [dencodeData_eq_foldl, tblFind_foldl_tblInsert, List.nil_append]

/-! ## Trees the program builds -/

theorem newLeaf_eq (c : Nat) (count : Int) : newLeaf c count = .mk count c .null .null := rfl

theorem node_new_eq (l r : node) :
    node.new l r =
      .mk (if l ≠ .null ∧ r ≠ .null then l.count + r.count else 0) 0 l r := rfl

theorem Proper.ne_null {t : node} (h : Proper t) : t ≠ .null := by
  cases h with
  | leaf c count => simp [newLeaf_eq]
  | inner l r hl hr => simp [node_new_eq]

theorem labels_newLeaf (c : Nat) (count : Int) (str : List Char) :
    labels (newLeaf c count) str = if c ≠ 0 then [(str, c)] else [] := by
  simp [newLeaf_eq, labels]

theorem labels_node_new (l r : node) (str : List Char) :
    labels (node.new l r) str = labels l (str ++ ['0']) ++ labels r (str ++ ['1']) := by
  simp [node_new_eq, labels]

theorem leafList_newLeaf (c : Nat) (count : Int) : leafList (newLeaf c count) = [(c, count)] := by
  simp [newLeaf_eq, leafList]

theorem leafList_node_new {l r : node} (hl : Proper l) :
    leafList (node.new l r) = leafList l ++ leafList r := by
  simp [node_new_eq, leafList, hl.ne_null]

/-- Every path recorded below a node extends the path of that node. -/
theorem labels_isPrefix (t : node) (str : List Char) :
    ∀ e ∈ labels t str, str <+: e.1 := by
  induction t generalizing str with
  | null => simp [labels]
  | mk count c l r ihl ihr =>
    intro e he
    simp only [labels, List.mem_append] at he
    rcases he with (he | he) | he
    · split at he
      · rw [List.mem_singleton] at he
        subst he
        exact List.prefix_refl _
      · cases he
    · exact (List.prefix_append str ['0']).trans (ihl _ e he)
    · exact (List.prefix_append str ['1']).trans (ihr _ e he)

/-- Two different entries of the labels of a tree the program builds carry
paths neither of which is the beginning of the other. -/
theorem labels_pairwise {t : node} (h : Proper t) (str : List Char) :
    (labels t str).Pairwise (fun a b => ¬ a.1 <+: b.1 ∧ ¬ b.1 <+: a.1) := by
  induction h generalizing str with
  | leaf c count =>
    rw [labels_newLeaf]
    split <;> simp
  | inner l r hl hr ihl ihr =>
    rw [labels_node_new, List.pairwise_append]
    refine ⟨ihl _, ihr _, ?_⟩
    intro a ha b hb
    have h0 := labels_isPrefix l _ a ha
    have h1 := labels_isPrefix r _ b hb
    have hne : str ++ ['0'] ≠ str ++ ['1'] := by
      intro heq
      have := List.append_cancel_left heq
      exact absurd this (by decide)
    constructor
    · intro hab
      have h0b := h0.trans hab
      have hle : (str ++ ['0']).length ≤ (str ++ ['1']).length := by simp
      have := List.prefix_of_prefix_length_le h0b h1 hle
      exact hne (this.eq_of_length (by simp))
    · intro hba
      have h1a := h1.trans hba
      have hle : (str ++ ['1']).length ≤ (str ++ ['0']).length := by simp
      have := List.prefix_of_prefix_length_le h1a h0 hle
      exact hne (this.eq_of_length (by simp)).symm

/-- The characters of the labels are the non-NUL characters of the leaves. -/
theorem labels_map_snd {t : node} (h : Proper t) (str : List Char) :
    (labels t str).map Prod.snd = ((leafList t).map Prod.fst).filter (fun c => decide (c ≠ 0)) := by
  induction h generalizing str with
  | leaf c count =>
    rw [labels_newLeaf, leafList_newLeaf]
    by_cases hc : c = 0 <;> simp [hc]
  | inner l r hl hr ihl ihr =>
    rw [labels_node_new, leafList_node_new hl]
    simp [ihl, ihr]

/-! ## The priority queue and the merge loop -/

theorem pqPush_perm (q : List node) (p : node) : (pqPush q p).Perm (p :: q) := by
  induction q with
  | nil => simp [pqPush]
  | cons x xs ih =>
    unfold pqPush
    split
    · exact List.Perm.refl _
    · exact (List.Perm.cons x ih).trans (List.Perm.swap p x xs)

theorem pqPush_length (q : List node) (p : node) : (pqPush q p).length = q.length + 1 := by
  simpa using (pqPush_perm q p).length_eq

theorem mem_pqPush {q : List node} {p x : node} : x ∈ pqPush q p ↔ x = p ∨ x ∈ q := by
  rw [(pqPush_perm q p).mem_iff, List.mem_cons]

theorem pushLeaves_append (m1 m2 : CharMap) (n : List node) (p : node) :
    pushLeaves (m1 ++ m2) n p = pushLeaves m2 (pushLeaves m1 n p).1 (pushLeaves m1 n p).2 := by
  simp [pushLeaves, List.foldl_append]

/-- After the leaves have been pushed the queue holds one leaf per entry. -/
theorem pushLeaves_spec (charMap : CharMap) (n : List node) (p : node) :
    ((pushLeaves charMap n p).1.flatMap leafList).Perm (n.flatMap leafList ++ charMap) ∧
    (pushLeaves charMap n p).1.length = n.length + charMap.length ∧
    (∀ t ∈ (pushLeaves charMap n p).1, t ∈ n ∨ Proper t) ∧
    (charMap ≠ [] → ∃ c count, (pushLeaves charMap n p).2 = newLeaf c count ∧
      (n = [] → charMap.length = 1 → (pushLeaves charMap n p).1 = [newLeaf c count])) := by
  induction charMap generalizing n p with
  | nil =>
    exact ⟨by simp [pushLeaves], by simp [pushLeaves], fun t ht => Or.inl ht,
      fun h => absurd rfl h⟩
  | cons kv rest ih =>
    have hstep : pushLeaves (kv :: rest) n p =
        pushLeaves rest (pqPush n (newLeaf kv.1 kv.2)) (newLeaf kv.1 kv.2) := by
      simp [pushLeaves]
    rw [hstep]
    obtain ⟨h1, h2, h3, h4⟩ := ih (pqPush n (newLeaf kv.1 kv.2)) (newLeaf kv.1 kv.2)
    refine ⟨?_, ?_, ?_, ?_⟩
    · refine h1.trans ?_
      have := ((pqPush_perm n (newLeaf kv.1 kv.2)).flatMap_right leafList)
      rw [List.flatMap_cons, leafList_newLeaf] at this
      refine (List.Perm.append_right rest this).trans ?_
      simp only [List.singleton_append, List.cons_append]
      exact (List.perm_middle).symm
    · rw [h2, pqPush_length]
      simp
      omega
    · intro t ht
      rcases h3 t ht with h | h
      · rcases mem_pqPush.1 h with h | h
        · right
          rw [h]
          exact Proper.leaf _ _
        · left
          exact h
      · right
        exact h
    · intro _
      by_cases hrest : rest = []
      · subst hrest
        refine ⟨kv.1, kv.2, by simp [pushLeaves], ?_⟩
        intro hn _
        subst hn
        simp [pushLeaves, pqPush]
      · obtain ⟨c, count, hp, _⟩ := h4 hrest
        refine ⟨c, count, hp, ?_⟩
        intro _ hlen
        exfalso
        cases rest with
        | nil => exact hrest rfl
        | cons _ _ => simp at hlen

/-- The merge loop, run on a non-empty queue of trees the program built,
returns one such tree whose leaves are the leaves of the queue; with two
trees or more in the queue the result is a node made by `node.new`. -/
theorem mergeLoop_spec (fuel : Nat) (n : List node) (p : node)
    (hfuel : n.length ≤ fuel + 1) (hne : n ≠ []) (hall : ∀ t ∈ n, Proper t)
    (hone : n.length = 1 → n = [p]) :
    Proper (mergeLoop fuel n p) ∧
    (leafList (mergeLoop fuel n p)).Perm (n.flatMap leafList) ∧
    (2 ≤ n.length → ∃ l r, Proper l ∧ Proper r ∧ mergeLoop fuel n p = node.new l r) := by
  induction fuel generalizing n p with
  | zero =>
    have hlen : n.length = 1 := by
      cases n with
      | nil => exact absurd rfl hne
      | cons a rest =>
        simp at hfuel
        simp [hfuel]
    have hn := hone hlen
    subst hn
    refine ⟨by simpa [mergeLoop] using hall p (List.mem_singleton_self p), by simp [mergeLoop], ?_⟩
    intro h2
    simp at h2
  | succ fuel ih =>
    match n, hne, hfuel, hall, hone with
    | [a], _, _, hall, hone =>
      have hn := hone rfl
      cases hn
      refine ⟨by simpa [mergeLoop] using hall p (List.mem_singleton_self p), by simp [mergeLoop], ?_⟩
      intro h2
      simp at h2
    | n1 :: n2 :: rest, _, hfuel, hall, _ =>
      have hstep : mergeLoop (fuel + 1) (n1 :: n2 :: rest) p =
          mergeLoop fuel (pqPush rest (node.new n1 n2)) (node.new n1 n2) := by
        simp [mergeLoop, pqTop, pqPop]
      have hp1 : Proper n1 := hall n1 (by simp)
      have hp2 : Proper n2 := hall n2 (by simp)
      have hnew : Proper (node.new n1 n2) := Proper.inner n1 n2 hp1 hp2
      have hlen' : (pqPush rest (node.new n1 n2)).length ≤ fuel + 1 := by
        rw [pqPush_length]
        simp at hfuel
        omega
      have hne' : pqPush rest (node.new n1 n2) ≠ [] := by
        intro h0
        have := pqPush_length rest (node.new n1 n2)
        rw [h0] at this
        simp at this
      have hall' : ∀ t ∈ pqPush rest (node.new n1 n2), Proper t := by
        intro t ht
        rcases mem_pqPush.1 ht with h | h
        · rw [h]
          exact hnew
        · exact hall t (by simp [h])
      have hone' : (pqPush rest (node.new n1 n2)).length = 1 →
          pqPush rest (node.new n1 n2) = [node.new n1 n2] := by
        intro h1
        rw [pqPush_length] at h1
        have : rest = [] := List.eq_nil_of_length_eq_zero (by omega)
        subst this
        simp [pqPush]
      obtain ⟨r1, r2, r3⟩ := ih _ _ hlen' hne' hall' hone'
      rw [hstep]
      refine ⟨r1, ?_, ?_⟩
      · refine r2.trans ?_
        refine ((pqPush_perm rest (node.new n1 n2)).flatMap_right leafList).trans ?_
        simp [List.flatMap_cons, leafList_node_new hp1]
      · intro _
        by_cases h2 : 2 ≤ (pqPush rest (node.new n1 n2)).length
        · exact r3 h2
        · have h1 : (pqPush rest (node.new n1 n2)).length = 1 := by
            rw [pqPush_length] at h2 ⊢
            omega
          have hq := hone' h1
          refine ⟨n1, n2, hp1, hp2, ?_⟩
          rw [hq]
          cases fuel <;> simp [mergeLoop]

/-- The tree built from a non-empty frequency table. -/
theorem buildTree_spec (charMap : CharMap) (hne : charMap ≠ []) :
    Proper (buildTree charMap) ∧
    (leafList (buildTree charMap)).Perm charMap ∧
    (2 ≤ charMap.length →
      ∃ l r, Proper l ∧ Proper r ∧ buildTree charMap = node.new l r) := by
  obtain ⟨h1, h2, h3, h4⟩ := pushLeaves_spec charMap [] .null
  obtain ⟨c, count, hp, hsingle⟩ := h4 hne
  have hlen : (pushLeaves charMap [] .null).1.length = charMap.length := by simpa using h2
  have hne' : (pushLeaves charMap [] .null).1 ≠ [] := by
    intro h0
    rw [h0] at hlen
    exact hne (List.eq_nil_of_length_eq_zero hlen.symm)
  have hall : ∀ t ∈ (pushLeaves charMap [] .null).1, Proper t := by
    intro t ht
    rcases h3 t ht with h | h
    · cases h
    · exact h
  have hone : (pushLeaves charMap [] .null).1.length = 1 →
      (pushLeaves charMap [] .null).1 = [(pushLeaves charMap [] .null).2] := by
    intro h
    rw [hp]
    exact hsingle rfl (by omega)
  obtain ⟨r1, r2, r3⟩ := mergeLoop_spec (pushLeaves charMap [] .null).1.length _
    (pushLeaves charMap [] .null).2 (by omega) hne' hall hone
  refine ⟨r1, ?_, ?_⟩
  · refine r2.trans ?_
    simpa using h1
  · intro h
    exact r3 (by omega)

theorem buildTree_nil : buildTree [] = .null := rfl

/-! ## The keys of the frequency table -/

theorem mem_keys_mapInsert (P : Platform) (m : CharMap) (k : Nat) (v : Int) (x : Nat) :
    x ∈ (mapInsert P m k v).map Prod.fst ↔ x = k ∨ x ∈ m.map Prod.fst := by
  induction m with
  | nil => simp [mapInsert]
  | cons e rest ih =>
    obtain ⟨k', v'⟩ := e
    unfold mapInsert
    by_cases hk : k = k'
    · simp only [hk, if_true, List.map_cons, List.mem_cons]
      tauto
    · by_cases hlt : charVal P k < charVal P k'
      · simp [hk, hlt]
      · simp only [hk, hlt, if_false, List.map_cons, List.mem_cons, ih]
        tauto

theorem mem_keys_mapIncr (m : CharMap) (k : Nat) (x : Nat) :
    x ∈ (mapIncr m k).map Prod.fst ↔ x ∈ m.map Prod.fst := by
  induction m with
  | nil => simp [mapIncr]
  | cons e rest ih =>
    obtain ⟨k', v'⟩ := e
    unfold mapIncr
    by_cases hk : k = k'
    · simp [hk]
    · simp [hk, ih]

theorem mem_keys_countChar (P : Platform) (m : CharMap) (ch : Nat) (x : Nat) :
    x ∈ (countChar P m ch).map Prod.fst ↔ x = ch ∨ x ∈ m.map Prod.fst := by
  unfold countChar
  cases h : tblFind m ch with
  | none => exact mem_keys_mapInsert P m ch 1 x
  | some v =>
    show x ∈ (mapIncr m ch).map Prod.fst ↔ _
    rw [mem_keys_mapIncr]
    have hmem : ch ∈ m.map Prod.fst := List.mem_map_of_mem Prod.fst (tblFind_mem h)
    constructor
    · exact Or.inr
    · rintro (rfl | h')
      · exact hmem
      · exact h'

theorem mem_keys_foldl_countChar (P : Platform) (input : List Nat) (m : CharMap) (x : Nat) :
    x ∈ (input.foldl (countChar P) m).map Prod.fst ↔ x ∈ input ∨ x ∈ m.map Prod.fst := by
  induction input generalizing m with
  | nil => simp
  | cons b rest ih =>
    rw [List.foldl_cons, ih, mem_keys_countChar, List.mem_cons]
    tauto

/-- The keys of the frequency table are the bytes of the input and 13. -/
theorem mem_keys_buildCharMap (P : Platform) (input : List Nat) (x : Nat) :
    x ∈ (buildCharMap P input).map Prod.fst ↔ x = eofChar ∨ x ∈ input := by
  unfold buildCharMap
  rw [mem_keys_mapInsert, mem_keys_foldl_countChar]
  simp

theorem buildCharMap_ne_nil (P : Platform) (input : List Nat) : buildCharMap P input ≠ [] := by
  intro h
  have := (mem_keys_buildCharMap P input eofChar).2 (Or.inl rfl)
  rw [h] at this
  cases this

theorem two_le_length_buildCharMap (P : Platform) (input : List Nat) (b : Nat)
    (hb : b ∈ input) (hne : b ≠ eofChar) : 2 ≤ (buildCharMap P input).length := by
  have h1 := (mem_keys_buildCharMap P input eofChar).2 (Or.inl rfl)
  have h2 := (mem_keys_buildCharMap P input b).2 (Or.inr hb)
  rw [← List.length_map (buildCharMap P input) Prod.fst]
  generalize (buildCharMap P input).map Prod.fst = ks at h1 h2
  match ks, h1, h2 with
  | [], h1, _ => cases h1
  | [a], h1, h2 =>
    rw [List.mem_singleton] at h1 h2
    exact absurd (h2.trans h1.symm) hne
  | _ :: _ :: _, _, _ => simp

/-! ## Reading from the stream, running the loop -/

theorem IStream.read_good (data : List Nat) (n : Nat) (buf : List Nat) (h : n ≤ data.length) :
    IStream.read ⟨data, true⟩ n buf = (data.take n, ⟨data.drop n, true⟩) := by
  simp [IStream.read, h]

/-- When the stream holds the `k` entries, what the locals held before does
not matter. -/
theorem readEntries_good (P : Platform) (k : Nat) (data : List Nat) (chaa : Nat)
    (freqq : List Nat) (charMap : CharMap) (h : 5 * k ≤ data.length) :
    readEntries P k ⟨data, true⟩ chaa freqq charMap =
      readEntries P k ⟨data, true⟩ 0 [] charMap := by
  cases k with
  | zero => rfl
  | succ k =>
    have h1 : 1 ≤ data.length := by omega
    have h4 : 4 ≤ (data.drop 1).length := by
      rw [List.length_drop]
      omega
    simp only [readEntries, IStream.read_good _ _ _ h1, IStream.read_good _ _ _ h4]
    cases data with
    | nil => simp at h1
    | cons b rest => rfl

theorem unpackLoop_succ (T : List (List Char × Nat)) (fuel : Nat) (s : IStream) (myByte : Nat)
    (st : Unpacker) :
    unpackLoop T (fuel + 1) s myByte st =
      if st.ch = eofChar then some st.out
      else if (scanBits T (byteToString myByte) st).ch = eofChar then
        some (scanBits T (byteToString myByte) st).out
      else unpackLoop T fuel (s.read 1 [myByte]).2 ((s.read 1 [myByte]).1.headD myByte)
        (scanBits T (byteToString myByte) st) := rfl

/-- More fuel does not change a result the unpacking loop has reached. -/
theorem unpackLoop_mono (T : List (List Char × Nat)) (fuel k : Nat) (s : IStream) (myByte : Nat)
    (st : Unpacker) (out : List Nat) (h : unpackLoop T fuel s myByte st = some out) :
    unpackLoop T (fuel + k) s myByte st = some out := by
  induction fuel generalizing s myByte st with
  | zero => simp [unpackLoop] at h
  | succ fuel ih =>
    rw [Nat.add_right_comm, unpackLoop_succ]
    rw [unpackLoop_succ] at h
    by_cases hch : st.ch = eofChar
    · rw [if_pos hch] at h ⊢
      exact h
    · rw [if_neg hch] at h ⊢
      by_cases hch' : (scanBits T (byteToString myByte) st).ch = eofChar
      · rw [if_pos hch'] at h ⊢
        exact h
      · rw [if_neg hch'] at h ⊢
        exact ih _ _ _ h

/-- The result of the `-unhuff` path does not depend on the fuel: with other
fuel the run gives the same result or is still going on. -/
theorem decode_stable (P : Platform) (g : Indet) (fuel fuel' : Nat) (container : List Nat)
    (r : DecodeResult) (h : decode P g fuel container = some r) :
    decode P g fuel' container = some r ∨ decode P g fuel' container = none := by
  unfold decode at h ⊢
  simp only [] at h ⊢
  split
  · rename_i hm
    rw [if_pos hm] at h
    exact Or.inl h
  · rename_i hm
    rw [if_neg hm] at h
    unfold unpack at h ⊢
    simp only [] at h ⊢
    generalize dencodeData _ [] [] = T at h ⊢
    generalize (IStream.read _ 1 [0]).2 = s at h ⊢
    generalize (IStream.read _ 1 [0]).1.headD 0 = b at h ⊢
    cases hres' : unpackLoop T fuel' s b ⟨g.ch, [], []⟩ with
    | none => exact Or.inr rfl
    | some out' =>
      left
      cases hres : unpackLoop T fuel s b ⟨g.ch, [], []⟩ with
      | none =>
        rw [hres] at h
        cases h
      | some out =>
        rw [hres] at h
        rcases Nat.le_total fuel fuel' with hle | hle
        · obtain ⟨k, rfl⟩ := Nat.exists_eq_add_of_le hle
          rw [unpackLoop_mono T fuel k s b _ out hres] at hres'
          rw [← hres']
          exact h
        · obtain ⟨k, rfl⟩ := Nat.exists_eq_add_of_le hle
          rw [unpackLoop_mono T fuel' k s b _ out' hres'] at hres
          rw [hres]
          exact h

/-! ## Bits of a byte -/

/-- The character of a bit. -/
theorem binary_eq_map (l : List Char) (h : ∀ b ∈ l, b = '0' ∨ b = '1') :
    ∃ bs : List Bool, l = bs.map (fun b => if b then '1' else '0') := by
  induction l with
  | nil => exact ⟨[], rfl⟩
  | cons c rest ih =>
    obtain ⟨bs, hbs⟩ := ih (fun b hb => h b (List.mem_cons_of_mem _ hb))
    rcases h c (List.mem_cons_self _ _) with hc | hc
    · exact ⟨false :: bs, by simp [hc, hbs]⟩
    · exact ⟨true :: bs, by simp [hc, hbs]⟩

theorem byteToString_foldl_bools :
    ∀ b0 b1 b2 b3 b4 b5 b6 b7 : Bool,
      byteToString
        (([b0, b1, b2, b3, b4, b5, b6, b7].map (fun b => if b then '1' else '0')).foldl
          (fun acc b => 2 * acc + (if b = '1' then 1 else 0)) 0) =
      [b0, b1, b2, b3, b4, b5, b6, b7].map (fun b => if b then '1' else '0') := by
  decide

/-- On a string of 8 binary digits, `byteToString` undoes the MSB-first reading. -/
theorem byteToString_foldl (l : List Char) (hlen : l.length = 8)
    (h : ∀ b ∈ l, b = '0' ∨ b = '1') :
    byteToString (l.foldl (fun acc b => 2 * acc + (if b = '1' then 1 else 0)) 0) = l := by
  obtain ⟨bs, rfl⟩ := binary_eq_map l h
  rw [List.length_map] at hlen
  match bs, hlen with
  | [b0, b1, b2, b3, b4, b5, b6, b7], _ => exact byteToString_foldl_bools b0 b1 b2 b3 b4 b5 b6 b7

theorem padZero_length (s : List Char) (h : s.length ≤ 8) : (padZero s).length = 8 := by
  simp [padZero]
  omega

theorem padZero_binary (s : List Char) (h : ∀ b ∈ s, b = '0' ∨ b = '1') :
    ∀ b ∈ padZero s, b = '0' ∨ b = '1' := by
  intro b hb
  simp only [padZero, List.mem_append, List.mem_replicate] at hb
  rcases hb with hb | hb
  · exact h b hb
  · exact Or.inl hb.2

theorem byteToString_specByte (chunk : List Char) (hlen : chunk.length ≤ 8)
    (h : ∀ b ∈ chunk, b = '0' ∨ b = '1') :
    byteToString (specByte chunk) = padZero chunk :=
  byteToString_foldl (padZero chunk) (padZero_length chunk hlen) (padZero_binary chunk h)

/-- The bits of the bytes of `specPack` are the bitstream, then padding. -/
theorem bits_specPackAux (fuel : Nat) (bits : List Char) (hfuel : bits.length ≤ fuel)
    (h : ∀ b ∈ bits, b = '0' ∨ b = '1') :
    ∃ pad : List Char, (specPackAux fuel bits).flatMap byteToString = bits ++ pad := by
  induction fuel generalizing bits with
  | zero =>
    have : bits = [] := List.eq_nil_of_length_eq_zero (by omega)
    subst this
    exact ⟨[], by simp [specPackAux]⟩
  | succ fuel ih =>
    unfold specPackAux
    by_cases hb : bits = []
    · subst hb
      exact ⟨[], by simp⟩
    · rw [if_neg hb, List.flatMap_cons]
      have htake : ∀ b ∈ bits.take 8, b = '0' ∨ b = '1' :=
        fun b hb' => h b (List.mem_of_mem_take hb')
      rw [byteToString_specByte _ (by simp) htake]
      have hpos : 0 < bits.length := List.length_pos.2 hb
      obtain ⟨pad, hpad⟩ := ih (bits.drop 8) (by rw [List.length_drop]; omega)
        (fun b hb' => h b (List.mem_of_mem_drop hb'))
      rw [hpad]
      by_cases h8 : 8 ≤ bits.length
      · refine ⟨pad, ?_⟩
        have : padZero (bits.take 8) = bits.take 8 := by
          simp [padZero, List.length_take, Nat.min_eq_left h8]
        rw [this, ← List.append_assoc, List.take_append_drop]
      · have hd : bits.drop 8 = [] := List.drop_eq_nil_of_le (by omega)
        have ht : bits.take 8 = bits := List.take_of_length_le (by omega)
        refine ⟨List.replicate (8 - bits.length) '0' ++ pad, ?_⟩
        rw [hd, ht]
        simp [padZero]

theorem specPack_ne_nil (bits : List Char) (h : bits ≠ []) : specPack bits ≠ [] := by
  unfold specPack
  cases bits with
  | nil => exact absurd rfl h
  | cons b rest => simp [specPackAux]

/-! ## The unpacking loop on a bitstream -/

theorem scanBits_cons_none (T : List (List Char × Nat)) (b : Char) (rest : List Char)
    (st : Unpacker) (h : tblFind T (st.readingString ++ [b]) = none) :
    scanBits T (b :: rest) st =
      scanBits T rest ⟨st.ch, st.readingString ++ [b], st.out⟩ := by
  rw [scanBits]
  simp only [h]

theorem scanBits_cons_eof (T : List (List Char × Nat)) (b : Char) (rest : List Char)
    (st : Unpacker) (h : tblFind T (st.readingString ++ [b]) = some eofChar) :
    scanBits T (b :: rest) st = ⟨eofChar, st.readingString ++ [b], st.out⟩ := by
  rw [scanBits]
  simp only [h, if_true]

theorem scanBits_cons_some (T : List (List Char × Nat)) (b : Char) (rest : List Char)
    (st : Unpacker) (c : Nat) (h : tblFind T (st.readingString ++ [b]) = some c)
    (hc : c ≠ eofChar) :
    scanBits T (b :: rest) st = scanBits T rest ⟨c, [], st.out ++ [c]⟩ := by
  rw [scanBits]
  simp only [h, if_neg hc]

/-- The `for` loop over two strings in a row: the second is scanned from where
the first ends, unless the first ended at the EOF character. -/
theorem scanBits_append (T : List (List Char × Nat)) (bs1 bs2 : List Char) (st : Unpacker)
    (hch : st.ch ≠ eofChar) :
    scanBits T (bs1 ++ bs2) st =
      if (scanBits T bs1 st).ch = eofChar then scanBits T bs1 st
      else scanBits T bs2 (scanBits T bs1 st) := by
  induction bs1 generalizing st with
  | nil => simp [scanBits, hch]
  | cons b rest ih =>
    rw [List.cons_append]
    cases hfind : tblFind T (st.readingString ++ [b]) with
    | none =>
      rw [scanBits_cons_none T b _ st hfind, scanBits_cons_none T b _ st hfind]
      exact ih _ hch
    | some c =>
      by_cases hc : c = eofChar
      · subst hc
        rw [scanBits_cons_eof T b _ st hfind, scanBits_cons_eof T b _ st hfind]
        simp
      · rw [scanBits_cons_some T b _ st c hfind hc, scanBits_cons_some T b _ st c hfind hc]
        exact ih _ hc

/-- While the string read so far is a proper beginning of a codeword of a
prefix-free table, nothing is found; when the codeword is complete its
symbol is. -/
theorem scanBits_codeword (T : List (List Char × Nat))
    (hpf : ∀ w1 ∈ T.map Prod.fst, ∀ w2 ∈ T.map Prod.fst, w1 <+: w2 → w1 = w2)
    (w1 w2 rest : List Char) (s : Nat) (hw : tblFind T (w1 ++ w2) = some s) (hw2 : w2 ≠ [])
    (ch : Nat) (out : List Nat) :
    scanBits T (w2 ++ rest) ⟨ch, w1, out⟩ =
      if s = eofChar then ⟨s, w1 ++ w2, out⟩ else scanBits T rest ⟨s, [], out ++ [s]⟩ := by
  induction w2 generalizing w1 with
  | nil => exact absurd rfl hw2
  | cons b more ih =>
    rw [List.cons_append]
    by_cases hmore : more = []
    · subst hmore
      by_cases hs : s = eofChar
      · subst hs
        rw [if_pos rfl, scanBits_cons_eof T b _ _ hw]
      · rw [if_neg hs, scanBits_cons_some T b _ _ s hw hs]
        rfl
    · have hkey : w1 ++ b :: more ∈ T.map Prod.fst :=
        List.mem_map_of_mem Prod.fst (tblFind_mem hw)
      have hnone : tblFind T (w1 ++ [b]) = none := by
        rw [tblFind_eq_none_iff]
        intro hmem
        have hpre : w1 ++ [b] <+: w1 ++ b :: more :=
          ⟨more, by simp⟩
        have := hpf _ hmem _ hkey hpre
        have hl := congrArg List.length this
        simp only [List.length_append, List.length_cons, List.length_nil] at hl
        exact hmore (List.eq_nil_of_length_eq_zero (by omega))
      rw [scanBits_cons_none T b _ _ hnone]
      have hw' : tblFind T ((w1 ++ [b]) ++ more) = some s := by simpa using hw
      have := ih (w1 ++ [b]) hw' hmore
      simpa using this

/-- The `for` loop over the codewords of `syms`, then the codeword of the EOF
character, then anything: it outputs `syms` and stops at the EOF character. -/
theorem scanBits_stream (T : List (List Char × Nat)) (cw : Nat → List Char)
    (hpf : ∀ w1 ∈ T.map Prod.fst, ∀ w2 ∈ T.map Prod.fst, w1 <+: w2 → w1 = w2)
    (heof : tblFind T (cw eofChar) = some eofChar) (hne : cw eofChar ≠ [])
    (syms : List Nat) (hsyms : ∀ s ∈ syms, s ≠ eofChar ∧ tblFind T (cw s) = some s)
    (pad : List Char) (ch : Nat) (out : List Nat) :
    scanBits T ((syms.flatMap cw ++ cw eofChar) ++ pad) ⟨ch, [], out⟩ =
      ⟨eofChar, cw eofChar, out ++ syms⟩ := by
  induction syms generalizing ch out with
  | nil =>
    have := scanBits_codeword T hpf [] (cw eofChar) pad eofChar (by simpa using heof) hne ch out
    simpa using this
  | cons s rest ih =>
    obtain ⟨hs, hfind⟩ := hsyms s (List.mem_cons_self _ _)
    have hcw : cw s ≠ [] := by
      intro h0
      have hk1 : cw s ∈ T.map Prod.fst := List.mem_map_of_mem Prod.fst (tblFind_mem hfind)
      have hk2 : cw eofChar ∈ T.map Prod.fst := List.mem_map_of_mem Prod.fst (tblFind_mem heof)
      have := hpf _ hk1 _ hk2 (h0 ▸ List.nil_prefix)
      rw [← this, hfind] at heof
      exact hs (Option.some.inj heof)
    have := scanBits_codeword T hpf [] (cw s)
      ((rest.flatMap cw ++ cw eofChar) ++ pad) s (by simpa using hfind) hcw ch out
    rw [List.flatMap_cons, List.append_assoc, List.append_assoc,
      ← List.append_assoc (rest.flatMap cw), this, if_neg hs]
    rw [ih (fun s' hs' => hsyms s' (List.mem_cons_of_mem _ hs')) s (out ++ [s])]
    simp

/-- The `while` loop on a stream whose first bytes `used` hold the EOF codeword:
it ends within `used.length` iterations, with the output of the bit scan,
and never reads the bytes after `used`. -/
theorem unpackLoop_eq_scanBits (T : List (List Char × Nat)) (used extra : List Nat)
    (b0 : Nat) (st : Unpacker) (fuel : Nat) (hch : st.ch ≠ eofChar)
    (hstop : (scanBits T ((b0 :: used).flatMap byteToString) st).ch = eofChar)
    (hfuel : used.length + 1 ≤ fuel) :
    unpackLoop T fuel ⟨used ++ extra, true⟩ b0 st =
      some (scanBits T ((b0 :: used).flatMap byteToString) st).out := by
  induction used generalizing b0 st fuel with
  | nil =>
    obtain ⟨fuel, rfl⟩ : ∃ k, fuel = k + 1 := ⟨fuel - 1, by simp at hfuel; omega⟩
    rw [unpackLoop_succ, if_neg hch]
    simp only [List.flatMap_cons, List.flatMap_nil, List.append_nil] at hstop ⊢
    rw [if_pos hstop]
  | cons b1 more ih =>
    obtain ⟨fuel, rfl⟩ : ∃ k, fuel = k + 1 := ⟨fuel - 1, by simp at hfuel; omega⟩
    rw [unpackLoop_succ, if_neg hch]
    rw [List.flatMap_cons, scanBits_append T _ _ st hch] at hstop ⊢
    by_cases h1 : (scanBits T (byteToString b0) st).ch = eofChar
    · rw [if_pos h1, if_pos h1]
    · rw [if_neg h1] at hstop ⊢
      rw [if_neg h1]
      have hread : IStream.read ⟨(b1 :: more) ++ extra, true⟩ 1 [b0] =
          ([b1], ⟨more ++ extra, true⟩) := by
        rw [IStream.read_good _ _ _ (by simp)]
        rfl
      rw [hread]
      exact ih b1 _ _ h1 hstop (by simp at hfuel ⊢; omega)

/-! ## The header read back -/

theorem intBytes_length (P : Platform) (n : Int) : (intBytes P n).length = 4 := by
  unfold intBytes
  split <;> simp

/-- An `int` written to the file and read back is the same `int`. -/
theorem bytesInt_intBytes (P : Platform) (n : Int) (h1 : -2147483648 ≤ n) (h2 : n < 2147483648) :
    bytesInt P (intBytes P n) = n := by
  unfold bytesInt intBytes
  by_cases hP : P.littleEndian = true
  · simp only [hP, if_true, List.getD_cons_zero, List.getD_cons_succ]
    split <;> omega
  · simp only [hP, if_false, List.reverse_reverse, List.getD_cons_zero, List.getD_cons_succ,
      Bool.false_eq_true]
    split <;> omega

theorem charVal_eq (P : Platform) (k : Nat) :
    charVal P k = if P.charSigned = true ∧ 128 ≤ k then (k : Int) - 256 else (k : Int) := by
  unfold charVal
  cases P.charSigned <;> by_cases h : 128 ≤ k <;> simp [h]

theorem charVal_lt_of_not_lt (P : Platform) (k k' : Nat) (hk : k < 256) (hk' : k' < 256)
    (hne : k ≠ k') (hnlt : ¬ charVal P k < charVal P k') : charVal P k' < charVal P k := by
  rw [charVal_eq, charVal_eq] at hnlt ⊢
  by_cases h1 : P.charSigned = true ∧ 128 ≤ k <;> by_cases h2 : P.charSigned = true ∧ 128 ≤ k'
  · rw [if_pos h1, if_pos h2] at hnlt ⊢
    omega
  · rw [if_pos h1, if_neg h2] at hnlt ⊢
    omega
  · rw [if_neg h1, if_pos h2] at hnlt ⊢
    omega
  · rw [if_neg h1, if_neg h2] at hnlt ⊢
    omega

/-! ## The frequency table is sorted, its counts are bounded -/

theorem mem_mapInsert {P : Platform} {m : CharMap} {k : Nat} {v : Int} {e : Nat × Int}
    (h : e ∈ mapInsert P m k v) : e = (k, v) ∨ e ∈ m := by
  induction m with
  | nil =>
    simp only [mapInsert, List.mem_singleton] at h
    exact Or.inl h
  | cons e' rest ih =>
    obtain ⟨k', v'⟩ := e'
    unfold mapInsert at h
    by_cases hk : k = k'
    · rw [if_pos hk] at h
      exact Or.inr h
    · rw [if_neg hk] at h
      by_cases hlt : charVal P k < charVal P k'
      · rw [if_pos hlt] at h
        rcases List.mem_cons.1 h with h | h
        · exact Or.inl h
        · exact Or.inr h
      · rw [if_neg hlt] at h
        rcases List.mem_cons.1 h with h | h
        · exact Or.inr (h ▸ List.mem_cons_self _ _)
        · rcases ih h with h | h
          · exact Or.inl h
          · exact Or.inr (List.mem_cons_of_mem _ h)

theorem mem_mapIncr {m : CharMap} {k : Nat} {e : Nat × Int} (h : e ∈ mapIncr m k) :
    e ∈ m ∨ ∃ v, (k, v) ∈ m ∧ e = (k, v + 1) := by
  induction m with
  | nil => simp [mapIncr] at h
  | cons e' rest ih =>
    obtain ⟨k', v'⟩ := e'
    unfold mapIncr at h
    by_cases hk : k = k'
    · rw [if_pos hk] at h
      rcases List.mem_cons.1 h with h | h
      · exact Or.inr ⟨v', by rw [hk]; exact List.mem_cons_self _ _, by rw [h, hk]⟩
      · exact Or.inl (List.mem_cons_of_mem _ h)
    · rw [if_neg hk] at h
      rcases List.mem_cons.1 h with h | h
      · exact Or.inl (h ▸ List.mem_cons_self _ _)
      · rcases ih h with h | ⟨v, hv, he⟩
        · exact Or.inl (List.mem_cons_of_mem _ h)
        · exact Or.inr ⟨v, List.mem_cons_of_mem _ hv, he⟩

theorem sorted_mapInsert (P : Platform) (m : CharMap) (k : Nat) (v : Int)
    (hs : SortedMap P m) (hm : ∀ e ∈ m, e.1 < 256) (hk : k < 256) :
    SortedMap P (mapInsert P m k v) := by
  induction m with
  | nil => simp [mapInsert, SortedMap]
  | cons e' rest ih =>
    obtain ⟨k', v'⟩ := e'
    have hs' := List.pairwise_cons.1 hs
    unfold mapInsert
    by_cases hkk : k = k'
    · rw [if_pos hkk]
      exact hs
    · rw [if_neg hkk]
      by_cases hlt : charVal P k < charVal P k'
      · rw [if_pos hlt]
        refine List.pairwise_cons.2 ⟨?_, hs⟩
        intro e he
        rcases List.mem_cons.1 he with he | he
        · rw [he]
          exact hlt
        · exact lt_trans hlt (hs'.1 e he)
      · rw [if_neg hlt]
        have hgt := charVal_lt_of_not_lt P k k' hk (hm (k', v') (List.mem_cons_self _ _)) hkk hlt
        refine List.pairwise_cons.2 ⟨?_, ih hs'.2 (fun e he => hm e (List.mem_cons_of_mem _ he))⟩
        intro e he
        rcases mem_mapInsert he with he | he
        · rw [he]
          exact hgt
        · exact hs'.1 e he

theorem map_fst_mapIncr (m : CharMap) (k : Nat) :
    (mapIncr m k).map Prod.fst = m.map Prod.fst := by
  induction m with
  | nil => rfl
  | cons e' rest ih =>
    obtain ⟨k', v'⟩ := e'
    unfold mapIncr
    by_cases hk : k = k'
    · rw [if_pos hk]
      rfl
    · rw [if_neg hk, List.map_cons, List.map_cons, ih]

theorem sorted_iff_keys (P : Platform) (m : CharMap) :
    SortedMap P m ↔ (m.map Prod.fst).Pairwise (fun a b => charVal P a < charVal P b) := by
  unfold SortedMap
  rw [List.pairwise_map]

theorem sorted_countChar (P : Platform) (m : CharMap) (ch : Nat)
    (hs : SortedMap P m) (hm : ∀ e ∈ m, e.1 < 256) (hk : ch < 256) :
    SortedMap P (countChar P m ch) := by
  unfold countChar
  cases tblFind m ch with
  | none => exact sorted_mapInsert P m ch 1 hs hm hk
  | some v =>
    show SortedMap P (mapIncr m ch)
    rw [sorted_iff_keys, map_fst_mapIncr, ← sorted_iff_keys]
    exact hs

theorem keys_lt_of_mem_keys {m : CharMap} (h : ∀ x ∈ m.map Prod.fst, x < 256) :
    ∀ e ∈ m, e.1 < 256 :=
  fun e he => h e.1 (List.mem_map_of_mem Prod.fst he)

theorem sorted_foldl_countChar (P : Platform) (input : List Nat) (m : CharMap)
    (hs : SortedMap P m) (hm : ∀ x ∈ m.map Prod.fst, x < 256) (hin : ∀ b ∈ input, b < 256) :
    SortedMap P (input.foldl (countChar P) m) := by
  induction input generalizing m with
  | nil => exact hs
  | cons b rest ih =>
    rw [List.foldl_cons]
    refine ih _ (sorted_countChar P m b hs (keys_lt_of_mem_keys hm)
      (hin b (List.mem_cons_self _ _))) ?_ (fun x hx => hin x (List.mem_cons_of_mem _ hx))
    intro x hx
    rcases (mem_keys_countChar P m b x).1 hx with h | h
    · rw [h]
      exact hin b (List.mem_cons_self _ _)
    · exact hm x h

theorem keys_lt_buildCharMap (P : Platform) (input : List Nat) (hin : ∀ b ∈ input, b < 256) :
    ∀ e ∈ buildCharMap P input, e.1 < 256 := by
  apply keys_lt_of_mem_keys
  intro x hx
  rcases (mem_keys_buildCharMap P input x).1 hx with h | h
  · rw [h]
    decide
  · exact hin x h

/-- The frequency table of an input of bytes is in strictly increasing order. -/
theorem sorted_buildCharMap (P : Platform) (input : List Nat) (hin : ∀ b ∈ input, b < 256) :
    SortedMap P (buildCharMap P input) := by
  unfold buildCharMap
  refine sorted_mapInsert P _ eofChar 1
    (sorted_foldl_countChar P input [] List.Pairwise.nil (by simp) hin) ?_ (by decide)
  apply keys_lt_of_mem_keys
  intro x hx
  rcases (mem_keys_foldl_countChar P input [] x).1 hx with h | h
  · exact hin x h
  · simp at h

theorem nodup_keys_of_sorted (P : Platform) (m : CharMap) (hs : SortedMap P m) :
    (m.map Prod.fst).Nodup := by
  rw [sorted_iff_keys] at hs
  refine hs.imp ?_
  intro a b hab heq
  rw [heq] at hab
  exact lt_irrefl _ hab

theorem count_bounds_foldl (P : Platform) (input : List Nat) (m : CharMap) (n : Int)
    (hn : 0 ≤ n) (hm : ∀ e ∈ m, 1 ≤ e.2 ∧ e.2 ≤ n) :
    ∀ e ∈ input.foldl (countChar P) m, 1 ≤ e.2 ∧ e.2 ≤ n + input.length := by
  induction input generalizing m n with
  | nil => simpa using hm
  | cons b rest ih =>
    rw [List.foldl_cons]
    have hstep : ∀ e ∈ countChar P m b, 1 ≤ e.2 ∧ e.2 ≤ n + 1 := by
      intro e he
      unfold countChar at he
      cases hf : tblFind m b with
      | none =>
        rw [hf] at he
        rcases mem_mapInsert he with he | he
        · rw [he]
          constructor
          · exact le_refl _
          · show (1 : Int) ≤ n + 1
            omega
        · have := hm e he
          omega
      | some v =>
        rw [hf] at he
        rcases mem_mapIncr he with he | ⟨v', hv', he⟩
        · have := hm e he
          omega
        · have := hm _ hv'
          rw [he]
          simp only at this ⊢
          omega
    intro e he
    have := ih (countChar P m b) (n + 1) (by omega) hstep e he
    simp only [List.length_cons, Nat.cast_add, Nat.cast_one]
    omega

/-- Every count of the frequency table lies between 1 and the input length
plus 1. -/
theorem count_bounds_buildCharMap (P : Platform) (input : List Nat) :
    ∀ e ∈ buildCharMap P input, 1 ≤ e.2 ∧ e.2 ≤ (input.length : Int) + 1 := by
  intro e he
  unfold buildCharMap at he
  rcases mem_mapInsert he with he | he
  · rw [he]
    constructor
    · exact le_refl _
    · show (1 : Int) ≤ (input.length : Int) + 1
      omega
  · have := count_bounds_foldl P input [] 0 (le_refl _) (by simp) e he
    omega

theorem length_mapInsert_le (P : Platform) (m : CharMap) (k : Nat) (v : Int) :
    (mapInsert P m k v).length ≤ m.length + 1 := by
  induction m with
  | nil => simp [mapInsert]
  | cons e' rest ih =>
    obtain ⟨k', v'⟩ := e'
    unfold mapInsert
    split
    · simp
    · split
      · simp
      · simp only [List.length_cons]
        omega

theorem length_mapIncr (m : CharMap) (k : Nat) : (mapIncr m k).length = m.length := by
  have := congrArg List.length (map_fst_mapIncr m k)
  simpa using this

theorem length_foldl_countChar_le (P : Platform) (input : List Nat) (m : CharMap) :
    (input.foldl (countChar P) m).length ≤ m.length + input.length := by
  induction input generalizing m with
  | nil => simp
  | cons b rest ih =>
    rw [List.foldl_cons]
    have hstep : (countChar P m b).length ≤ m.length + 1 := by
      unfold countChar
      cases tblFind m b with
      | none => exact length_mapInsert_le P m b 1
      | some v =>
        show (mapIncr m b).length ≤ _
        rw [length_mapIncr]
        omega
    have := ih (countChar P m b)
    simp only [List.length_cons]
    omega

theorem length_buildCharMap_le (P : Platform) (input : List Nat) :
    (buildCharMap P input).length ≤ input.length + 1 := by
  unfold buildCharMap
  have h1 := length_mapInsert_le P (input.foldl (countChar P) []) eofChar 1
  have h2 := length_foldl_countChar_le P input []
  simp only [List.length_nil] at h2
  omega

/-! ## The entries read back -/

theorem mapInsert_last (P : Platform) (m : CharMap) (k : Nat) (v : Int)
    (h : ∀ e ∈ m, charVal P e.1 < charVal P k) : mapInsert P m k v = m ++ [(k, v)] := by
  induction m with
  | nil => rfl
  | cons e' rest ih =>
    obtain ⟨k', v'⟩ := e'
    have h' := h (k', v') (List.mem_cons_self _ _)
    simp only at h'
    unfold mapInsert
    have hne : k ≠ k' := by
      intro hkk
      rw [hkk] at h'
      exact lt_irrefl _ h'
    rw [if_neg hne, if_neg (not_lt.2 (le_of_lt h')), ih (fun e he => h e (List.mem_cons_of_mem _ he))]
    rfl

/-- Inserting the entries of a sorted table in order rebuilds the table. -/
theorem foldl_mapInsert_sorted (P : Platform) (L pre : CharMap) (hs : SortedMap P (pre ++ L)) :
    L.foldl (fun m kv => mapInsert P m kv.1 kv.2) pre = pre ++ L := by
  induction L generalizing pre with
  | nil => simp
  | cons kv rest ih =>
    rw [List.foldl_cons]
    have hlast : mapInsert P pre kv.1 kv.2 = pre ++ [kv] := by
      apply mapInsert_last
      intro e he
      have := (List.pairwise_append.1 hs).2.2 e he kv (List.mem_cons_self _ _)
      exact this
    rw [hlast, ih (pre ++ [kv]) (by simpa using hs)]
    simp

/-- The loop of lines 469-473 on the bytes written by lines 331-336. -/
theorem readEntries_entries (P : Platform) (L : CharMap) (rest : List Nat) (chaa : Nat)
    (freqq : List Nat) (m : CharMap)
    (hL : ∀ e ∈ L, -2147483648 ≤ e.2 ∧ e.2 < 2147483648) :
    readEntries P L.length ⟨L.flatMap (fun kv => kv.1 :: intBytes P kv.2) ++ rest, true⟩
        chaa freqq m =
      (L.foldl (fun m kv => mapInsert P m kv.1 kv.2) m, ⟨rest, true⟩) := by
  induction L generalizing chaa freqq m with
  | nil => simp [readEntries]
  | cons kv more ih =>
    obtain ⟨k, v⟩ := kv
    have hv := hL (k, v) (List.mem_cons_self _ _)
    simp only [List.length_cons, List.flatMap_cons, List.cons_append, List.append_assoc,
      readEntries, List.foldl_cons]
    rw [IStream.read_good _ _ _ (by simp)]
    simp only [List.take_succ_cons, List.take_zero, List.drop_succ_cons, List.drop_zero,
      List.headD_cons]
    rw [IStream.read_good _ _ _ (by simp [intBytes_length])]
    have h4 : (intBytes P v).length = 4 := intBytes_length P v
    rw [List.take_left' h4, List.drop_left' h4, bytesInt_intBytes P v hv.1 hv.2]
    exact ih _ _ _ (fun e he => hL e (List.mem_cons_of_mem _ he))

/-- The `-unhuff` path on a file that starts with the header and entries of a
sorted table: the table is read back, and the unpacking loop runs on the rest
of the file. -/
theorem decode_headerBytes (P : Platform) (g : Indet) (fuel : Nat) (charMap : CharMap)
    (payload : List Nat) (hs : SortedMap P charMap) (hlen : charMap.length < 2147483648)
    (hc : ∀ e ∈ charMap, -2147483648 ≤ e.2 ∧ e.2 < 2147483648) :
    decode P g fuel (headerBytes P charMap ++ payload) =
      (unpack (dencodeData (buildTree charMap) [] []) g.ch fuel ⟨payload, true⟩).map
        DecodeResult.output := by
  have h4m : (intBytes P magicNum).length = 4 := intBytes_length P _
  have h4l : (intBytes P (charMap.length : Int)).length = 4 := intBytes_length P _
  unfold decode headerBytes
  simp only [List.append_assoc]
  rw [IStream.read_good _ _ _ (by simp [h4m])]
  simp only [List.take_left' h4m, List.drop_left' h4m]
  rw [bytesInt_intBytes P magicNum (by decide) (by decide)]
  simp only [ne_eq, not_true_eq_false, if_false]
  unfold readCharMap
  rw [IStream.read_good _ _ _ (by simp [h4l])]
  simp only [List.take_left' h4l, List.drop_left' h4l]
  rw [bytesInt_intBytes P _ (by omega) (by omega)]
  simp only [Int.toNat_ofNat]
  rw [readEntries_entries P charMap payload _ _ _ hc,
    foldl_mapInsert_sorted P charMap [] (by simpa using hs)]
  simp

/-! ## The payload writer -/

theorem byteToString_convertToByte_bools :
    ∀ b0 b1 b2 b3 b4 b5 b6 b7 : Bool,
      byteToString
        (convertToByte ([b0, b1, b2, b3, b4, b5, b6, b7].map (fun b => if b then '1' else '0'))) =
      [b0, b1, b2, b3, b4, b5, b6, b7].map (fun b => if b then '1' else '0') := by
  decide

/-- On a string of 8 binary digits, `byteToString` undoes `convertToByte`. -/
theorem byteToString_convertToByte (s : List Char) (hlen : s.length = 8)
    (h : ∀ b ∈ s, b = '0' ∨ b = '1') : byteToString (convertToByte s) = s := by
  obtain ⟨bs, rfl⟩ := binary_eq_map s h
  rw [List.length_map] at hlen
  match bs, hlen with
  | [b0, b1, b2, b3, b4, b5, b6, b7], _ =>
    exact byteToString_convertToByte_bools b0 b1 b2 b3 b4 b5 b6 b7

theorem PackInv.emit {st : Packer} {bits s rest : List Char} (hlen : s.length = 8)
    (hs : ∀ b ∈ s, b = '0' ∨ b = '1')
    (h : st.out.flatMap byteToString ++ (s ++ rest) = bits) : PackInv (st.emit s rest) bits := by
  unfold PackInv Packer.emit
  simp only [List.flatMap_append, List.flatMap_cons, List.flatMap_nil, List.append_nil,
    byteToString_convertToByte s hlen hs, List.append_assoc]
  exact h

theorem PackInv.binary {st : Packer} {bits : List Char} (h : PackInv st bits)
    (hb : ∀ b ∈ bits, b = '0' ∨ b = '1') : ∀ b ∈ st.encodString, b = '0' ∨ b = '1' := by
  intro b hmem
  apply hb
  rw [← h]
  exact List.mem_append_right _ hmem

theorem flushLoop_inv (fuel : Nat) (st : Packer) (bits : List Char) (h : PackInv st bits)
    (hb : ∀ b ∈ bits, b = '0' ∨ b = '1') (hfuel : st.encodString.length < 8 * (fuel + 1)) :
    PackInv (flushLoop fuel st) bits ∧ (flushLoop fuel st).encodString.length < 8 := by
  induction fuel generalizing st with
  | zero => exact ⟨h, by simpa [flushLoop] using hfuel⟩
  | succ fuel ih =>
    unfold flushLoop
    by_cases h8 : st.encodString.length ≥ 8
    · rw [if_pos h8]
      have hbin := h.binary hb
      have hinv : PackInv (st.emit (st.encodString.take 8) (st.encodString.drop 8)) bits := by
        apply PackInv.emit
        · simp [List.length_take]
          omega
        · exact fun b hmem => hbin b (List.mem_of_mem_take hmem)
        · rw [List.take_append_drop]
          exact h
      refine ih _ hinv ?_
      simp only [Packer.emit, List.length_drop]
      omega
    · rw [if_neg h8]
      exact ⟨h, by omega⟩

theorem splitAt8_spec (encodString code : List Char) (h8 : encodString.length ≤ 8)
    (hlt : 8 - encodString.length < code.length) :
    ∃ i, splitAt8 encodString code = some i ∧ encodString.length + i = 8 ∧ i < code.length := by
  unfold splitAt8
  have hsome : ((List.range code.length).find?
      (fun i => decide (encodString.length + (code.take i).length = 8))).isSome := by
    rw [List.find?_isSome]
    refine ⟨8 - encodString.length, List.mem_range.2 hlt, ?_⟩
    simp only [List.length_take, decide_eq_true_eq]
    omega
  obtain ⟨i, hi⟩ := Option.isSome_iff_exists.1 hsome
  refine ⟨i, hi, ?_⟩
  have hp := List.find?_some hi
  have hmem := List.mem_range.1 (List.mem_of_find?_eq_some hi)
  simp only [List.length_take, decide_eq_true_eq] at hp
  omega

theorem packChar_inv (T : List (Nat × List Char)) (st : Packer) (ch : Nat) (bits : List Char)
    (h : PackInv st bits)
    (hb : ∀ b ∈ bits ++ (tblFind T ch).getD [], b = '0' ∨ b = '1') :
    PackInv (packChar T st ch) (bits ++ (tblFind T ch).getD []) := by
  have hbits : ∀ b ∈ bits, b = '0' ∨ b = '1' := fun b hmem => hb b (List.mem_append_left _ hmem)
  have hce : ∀ b ∈ (tblFind T ch).getD [], b = '0' ∨ b = '1' :=
    fun b hmem => hb b (List.mem_append_right _ hmem)
  obtain ⟨hinv, hlt⟩ := flushLoop_inv st.encodString.length st bits h hbits (by omega)
  have hes := hinv.binary hbits
  unfold packChar
  simp only []
  generalize flushLoop st.encodString.length st = st1 at hinv hlt hes
  generalize (tblFind T ch).getD [] = ce at hce
  by_cases hle : st1.encodString.length + ce.length ≤ 8
  · rw [if_pos hle]
    by_cases heq : (st1.encodString ++ ce).length = 8
    · rw [if_pos heq]
      apply PackInv.emit heq
      · intro b hmem
        rcases List.mem_append.1 hmem with hmem | hmem
        · exact hes b hmem
        · exact hce b hmem
      · rw [List.append_nil, ← List.append_assoc, hinv]
    · rw [if_neg heq]
      unfold PackInv at hinv ⊢
      simp only []
      rw [← List.append_assoc, hinv]
  · rw [if_neg hle]
    obtain ⟨i, hi, hsum, hilt⟩ := splitAt8_spec st1.encodString ce (by omega) (by omega)
    rw [hi]
    simp only []
    apply PackInv.emit
    · simp only [List.length_append, List.length_take]
      omega
    · intro b hmem
      rcases List.mem_append.1 hmem with hmem | hmem
      · exact hes b hmem
      · exact hce b (List.mem_of_mem_take hmem)
    · rw [List.append_assoc, List.take_append_drop, ← List.append_assoc, hinv]

/-- When the content loop ends, the bytes written and the pending string hold
the codewords of the input, in order. -/
theorem foldl_packChar_inv (T : List (Nat × List Char)) (input : List Nat) (st : Packer)
    (bits : List Char) (h : PackInv st bits) (hb : ∀ b ∈ bits, b = '0' ∨ b = '1')
    (hT : ∀ c ∈ input, ∀ b ∈ (tblFind T c).getD [], b = '0' ∨ b = '1') :
    PackInv (input.foldl (packChar T) st)
      (bits ++ input.flatMap (fun c => (tblFind T c).getD [])) := by
  induction input generalizing st bits with
  | nil => simpa using h
  | cons c rest ih =>
    rw [List.foldl_cons, List.flatMap_cons, ← List.append_assoc]
    have hb' : ∀ b ∈ bits ++ (tblFind T c).getD [], b = '0' ∨ b = '1' := by
      intro b hmem
      rcases List.mem_append.1 hmem with hmem | hmem
      · exact hb b hmem
      · exact hT c (List.mem_cons_self _ _) b hmem
    exact ih _ _ (packChar_inv T st c bits h hb') hb'
      (fun c' hc' => hT c' (List.mem_cons_of_mem _ hc'))

/-- The EOF step in its third branch: the bytes written hold the bitstream,
the codeword of the EOF character, and padding. -/
theorem packEof_inv (T : List (Nat × List Char)) (st : Packer) (bits : List Char)
    (h : PackInv st bits) (hb : ∀ b ∈ bits, b = '0' ∨ b = '1')
    (he : ∀ b ∈ (tblIndex T eofChar).1, b = '0' ∨ b = '1')
    (h8 : st.encodString.length ≤ 8)
    (hgt : 8 < st.encodString.length + (tblIndex T eofChar).1.length)
    (hle : st.encodString.length + (tblIndex T eofChar).1.length ≤ 16) :
    ∃ pad, (packEof T st).out.flatMap byteToString = bits ++ (tblIndex T eofChar).1 ++ pad := by
  have hes := h.binary hb
  unfold packEof
  simp only []
  generalize (tblIndex T eofChar).1 = eof at he hgt hle
  rw [if_neg (by omega), if_neg (by omega)]
  obtain ⟨i, hi, hsum, hilt⟩ := splitAt8_spec st.encodString eof h8 (by omega)
  rw [hi]
  simp only []
  have hlen1 : (st.encodString ++ eof.take i).length = 8 := by
    simp only [List.length_append, List.length_take]
    omega
  have hbin1 : ∀ b ∈ st.encodString ++ eof.take i, b = '0' ∨ b = '1' := by
    intro b hmem
    rcases List.mem_append.1 hmem with hmem | hmem
    · exact hes b hmem
    · exact he b (List.mem_of_mem_take hmem)
  have hlen2 : (padZero (eof.drop i)).length = 8 :=
    padZero_length _ (by simp only [List.length_drop]; omega)
  have hbin2 : ∀ b ∈ padZero (eof.drop i), b = '0' ∨ b = '1' :=
    padZero_binary _ (fun b hmem => he b (List.mem_of_mem_drop hmem))
  refine ⟨List.replicate (8 - (eof.drop i).length) '0', ?_⟩
  simp only [Packer.emit, List.flatMap_append, List.flatMap_cons, List.flatMap_nil,
    List.append_nil, byteToString_convertToByte _ hlen1 hbin1,
    byteToString_convertToByte _ hlen2 hbin2]
  unfold PackInv at h
  rw [← h]
  simp only [padZero, List.append_assoc]
  rw [← List.append_assoc (eof.take i), List.take_append_drop]

/-! ## Facts about the labels of the tree of a frequency table -/

theorem mem_labels_of_encode {charMap : CharMap} {c : Nat} {w : List Char}
    (h : tblFind (encodeData (buildTree charMap) [] []) c = some w) :
    (w, c) ∈ labels (buildTree charMap) [] := by
  rw [tblFind_encodeData] at h
  have := tblFind_mem h
  rw [List.mem_map] at this
  obtain ⟨e, he, hsw⟩ := this
  obtain ⟨w', c'⟩ := e
  cases hsw
  exact he

theorem labels_buildTree_pairwise (charMap : CharMap) :
    (labels (buildTree charMap) []).Pairwise (fun a b => ¬ a.1 <+: b.1 ∧ ¬ b.1 <+: a.1) := by
  by_cases hne : charMap = []
  · subst hne
    simp [buildTree_nil, labels]
  · exact labels_pairwise (buildTree_spec charMap hne).1 []

theorem labels_paths_nodup (charMap : CharMap) :
    ((labels (buildTree charMap) []).map Prod.fst).Nodup := by
  rw [List.Nodup, List.pairwise_map]
  refine (labels_buildTree_pairwise charMap).imp ?_
  intro a b hab heq
  exact hab.1 (heq ▸ List.prefix_refl _)

theorem labels_syms_nodup (charMap : CharMap) (hnd : (charMap.map Prod.fst).Nodup) :
    ((labels (buildTree charMap) []).map Prod.snd).Nodup := by
  by_cases hne : charMap = []
  · subst hne
    simp [buildTree_nil, labels]
  · obtain ⟨hp, hperm, _⟩ := buildTree_spec charMap hne
    rw [labels_map_snd hp]
    exact ((hperm.map Prod.fst).nodup_iff.2 hnd).filter _

/-- The paths of the labels are made of the characters of the path of the
root, `'0'` and `'1'`. -/
theorem labels_binary (t : node) (str : List Char) :
    ∀ e ∈ labels t str, ∀ c ∈ e.1, c ∈ str ∨ c = '0' ∨ c = '1' := by
  induction t generalizing str with
  | null => simp [labels]
  | mk count c l r ihl ihr =>
    intro e he b hb
    simp only [labels, List.mem_append] at he
    rcases he with (he | he) | he
    · split at he
      · rw [List.mem_singleton] at he
        subst he
        exact Or.inl hb
      · cases he
    · rcases ihl _ e he b hb with h | h
      · rcases List.mem_append.1 h with h | h
        · exact Or.inl h
        · exact Or.inr (Or.inl (List.mem_singleton.1 h))
      · exact Or.inr h
    · rcases ihr _ e he b hb with h | h
      · rcases List.mem_append.1 h with h | h
        · exact Or.inl h
        · exact Or.inr (Or.inr (List.mem_singleton.1 h))
      · exact Or.inr h

/-- Two different symbols have codewords neither of which begins the other. -/
theorem encode_not_isPrefix (charMap : CharMap) (c1 c2 : Nat) (w1 w2 : List Char)
    (h1 : tblFind (encodeData (buildTree charMap) [] []) c1 = some w1)
    (h2 : tblFind (encodeData (buildTree charMap) [] []) c2 = some w2)
    (hne : c1 ≠ c2) : ¬ w1 <+: w2 := by
  have hsymm : Symmetric (fun a b : List Char × Nat => ¬ a.1 <+: b.1 ∧ ¬ b.1 <+: a.1) :=
    fun _ _ h => ⟨h.2, h.1⟩
  have hne' : ((w1, c1) : List Char × Nat) ≠ (w2, c2) := by
    intro h
    exact hne (congrArg Prod.snd h)
  exact ((labels_buildTree_pairwise charMap).forall hsymm (mem_labels_of_encode h1)
    (mem_labels_of_encode h2) hne').1

/-- Every symbol of the table other than 0 has a codeword. -/
theorem encode_entry_of_key (charMap : CharMap) (c : Nat) (hc : c ∈ charMap.map Prod.fst)
    (hc0 : c ≠ 0) : ∃ w, tblFind (encodeData (buildTree charMap) [] []) c = some w := by
  have hne : charMap ≠ [] := by
    rintro rfl
    cases hc
  obtain ⟨hp, hperm, _⟩ := buildTree_spec charMap hne
  have hmem : c ∈ (labels (buildTree charMap) []).map Prod.snd := by
    rw [labels_map_snd hp, List.mem_filter]
    exact ⟨((hperm.map Prod.fst).mem_iff).2 hc, by simpa using hc0⟩
  rw [List.mem_map] at hmem
  obtain ⟨e, he, hec⟩ := hmem
  obtain ⟨w, c'⟩ := e
  simp only at hec
  subst hec
  have hsw : (c', w) ∈ (labels (buildTree charMap) []).map Prod.swap :=
    List.mem_map.2 ⟨(w, c'), he, rfl⟩
  obtain ⟨w', hw'⟩ := tblFind_isSome_of_mem hsw
  exact ⟨w', by rw [tblFind_encodeData, hw']⟩

/-- With two entries or more in the table, no codeword is empty. -/
theorem encode_codeword_ne_nil (charMap : CharMap) (h2 : 2 ≤ charMap.length) (c : Nat)
    (w : List Char) (h : tblFind (encodeData (buildTree charMap) [] []) c = some w) :
    1 ≤ w.length := by
  have hne : charMap ≠ [] := by
    rintro rfl
    simp at h2
  obtain ⟨_, _, h3⟩ := buildTree_spec charMap hne
  obtain ⟨l, r, _, _, hroot⟩ := h3 h2
  have hmem := mem_labels_of_encode h
  rw [hroot, labels_node_new, List.mem_append] at hmem
  rcases hmem with hmem | hmem
  · have := (labels_isPrefix l _ _ hmem).length_le
    simpa using this
  · have := (labels_isPrefix r _ _ hmem).length_le
    simpa using this

/-- The two tables of a tree are inverse to each other. -/
theorem encode_iff_dencode (charMap : CharMap) (hnd : (charMap.map Prod.fst).Nodup)
    (c : Nat) (w : List Char) :
    tblFind (encodeData (buildTree charMap) [] []) c = some w ↔
      tblFind (dencodeData (buildTree charMap) [] []) w = some c := by
  rw [tblFind_encodeData, tblFind_dencodeData]
  have hsw : (((labels (buildTree charMap) []).map Prod.swap).map Prod.fst).Nodup := by
    have := labels_syms_nodup charMap hnd
    simpa [List.map_map, Function.comp_def] using this
  constructor
  · intro h
    have := tblFind_mem h
    rw [List.mem_map] at this
    obtain ⟨e, he, hsw'⟩ := this
    obtain ⟨w', c'⟩ := e
    cases hsw'
    exact tblFind_of_mem_nodup (labels_paths_nodup charMap) he
  · intro h
    have := tblFind_mem h
    exact tblFind_of_mem_nodup hsw (List.mem_map.2 ⟨(w, c), this, rfl⟩)

/-- The pass of lines 305-307 over characters that all have an entry: the
table is unchanged, the string is the codewords in order. -/
theorem countPass_of_present (T : List (Nat × List Char)) (input : List Nat) (s : List Char)
    (h : ∀ b ∈ input, ∃ w, tblFind T b = some w) :
    input.foldl (fun se ch => ((se.1 ++ (tblIndex se.2 ch).1), (tblIndex se.2 ch).2)) (s, T) =
      (s ++ input.flatMap (fun b => (tblFind T b).getD []), T) := by
  induction input generalizing s with
  | nil => simp
  | cons b rest ih =>
    obtain ⟨w, hw⟩ := h b (List.mem_cons_self _ _)
    have hidx : tblIndex T b = (w, T) := by simp [tblIndex, hw]
    rw [List.foldl_cons]
    simp only [hidx]
    rw [ih _ (fun b' hb' => h b' (List.mem_cons_of_mem _ hb'))]
    simp [hw]

/-- The unpacking loop on a payload whose bits are the codewords of `syms`,
the codeword of the EOF character, and anything after. -/
theorem unpack_of_bits (T : List (List Char × Nat)) (cw : Nat → List Char)
    (syms : List Nat) (ch fuel : Nat) (payload extra : List Nat) (pad : List Char)
    (hpf : ∀ w1 ∈ T.map Prod.fst, ∀ w2 ∈ T.map Prod.fst, w1 <+: w2 → w1 = w2)
    (heof : tblFind T (cw eofChar) = some eofChar) (hne : cw eofChar ≠ [])
    (hsyms : ∀ s ∈ syms, s ≠ eofChar ∧ tblFind T (cw s) = some s)
    (hch : ch ≠ eofChar)
    (hbits : payload.flatMap byteToString = (syms.flatMap cw ++ cw eofChar) ++ pad)
    (hfuel : payload.length ≤ fuel) :
    unpack T ch fuel ⟨payload ++ extra, true⟩ = some syms := by
  have hscan := scanBits_stream T cw hpf heof hne syms hsyms pad ch []
  match payload, hbits, hfuel with
  | [], hbits, _ =>
    exfalso
    have := congrArg List.length hbits
    simp only [List.flatMap_nil, List.length_nil, List.length_append] at this
    have hpos : 0 < (cw eofChar).length := List.length_pos.2 hne
    omega
  | b0 :: used, hbits, hfuel =>
    unfold unpack
    have hread : IStream.read ⟨(b0 :: used) ++ extra, true⟩ 1 [0] =
        ([b0], ⟨used ++ extra, true⟩) := by
      rw [IStream.read_good _ _ _ (by simp)]
      rfl
    rw [hread]
    have hstop : (scanBits T ((b0 :: used).flatMap byteToString) ⟨ch, [], []⟩).ch = eofChar := by
      rw [hbits, hscan]
    have := unpackLoop_eq_scanBits T used extra b0 ⟨ch, [], []⟩ fuel hch hstop
      (by simpa using hfuel)
    simp only [List.headD_cons]
    rw [this, hbits, hscan]
    simp

/-! ## The counts of the frequency table -/

theorem tblFind_mapInsert_ne (P : Platform) (m : CharMap) (k : Nat) (v : Int) (x : Nat)
    (hx : x ≠ k) : tblFind (mapInsert P m k v) x = tblFind m x := by
  induction m with
  | nil => simp [mapInsert, tblFind, hx]
  | cons e rest ih =>
    obtain ⟨k', v'⟩ := e
    unfold mapInsert
    by_cases hk : k = k'
    · rw [if_pos hk]
    · rw [if_neg hk]
      by_cases hlt : charVal P k < charVal P k'
      · rw [if_pos hlt]
        simp [tblFind, hx]
      · rw [if_neg hlt]
        simp only [tblFind, ih]

theorem tblFind_mapInsert_absent (P : Platform) (m : CharMap) (k : Nat) (v : Int)
    (h : tblFind m k = none) : tblFind (mapInsert P m k v) k = some v := by
  induction m with
  | nil => simp [mapInsert, tblFind]
  | cons e rest ih =>
    obtain ⟨k', v'⟩ := e
    unfold tblFind at h
    by_cases hk : k = k'
    · rw [if_pos hk] at h
      cases h
    · rw [if_neg hk] at h
      unfold mapInsert
      rw [if_neg hk]
      by_cases hlt : charVal P k < charVal P k'
      · rw [if_pos hlt]
        simp [tblFind]
      · rw [if_neg hlt]
        simp only [tblFind, if_neg hk]
        exact ih h

theorem tblFind_mapIncr (m : CharMap) (k x : Nat) :
    tblFind (mapIncr m k) x =
      if x = k then (tblFind m k).map (fun v => v + 1) else tblFind m x := by
  induction m with
  | nil => simp [mapIncr, tblFind]
  | cons e rest ih =>
    obtain ⟨k', v'⟩ := e
    unfold mapIncr
    by_cases hk : k = k'
    · rw [if_pos hk]
      by_cases hx : x = k
      · simp [tblFind, hx, hk]
      · have hx' : x ≠ k' := hk ▸ hx
        simp [tblFind, hx, hx']
    · rw [if_neg hk]
      by_cases hx : x = k
      · subst hx
        simp only [tblFind, if_neg hk, ih, if_true]
      · simp only [tblFind, ih, if_neg hx]

/-- One step of the frequency scan adds one to the count of the character. -/
theorem tblFind_countChar (P : Platform) (m : CharMap) (ch x : Nat) :
    (tblFind (countChar P m ch) x).getD 0 =
      (tblFind m x).getD 0 + (if x = ch then 1 else 0) := by
  unfold countChar
  cases h : tblFind m ch with
  | none =>
    simp only []
    by_cases hx : x = ch
    · rw [hx, tblFind_mapInsert_absent P m ch 1 h, h]
      simp
    · rw [tblFind_mapInsert_ne P m ch 1 x hx]
      simp [hx]
  | some v =>
    simp only []
    rw [tblFind_mapIncr]
    by_cases hx : x = ch
    · rw [hx, h]
      simp
    · simp [hx]

theorem tblFind_foldl_countChar (P : Platform) (input : List Nat) (m : CharMap) (x : Nat) :
    (tblFind (input.foldl (countChar P) m) x).getD 0 =
      (tblFind m x).getD 0 + (input.count x : Int) := by
  induction input generalizing m with
  | nil => simp
  | cons b rest ih =>
    rw [List.foldl_cons, ih, tblFind_countChar, List.count_cons]
    by_cases hx : x = b
    · subst hx
      simp
      omega
    · have hx' : ¬ (b == x) = true := by
        simp
        exact fun h => hx h.symm
      simp [hx, hx']

/-- After the scan every character of the input has its number of
occurrences for count. -/
theorem tblFind_scan (P : Platform) (input : List Nat) (x : Nat) (hx : x ∈ input) :
    tblFind (input.foldl (countChar P) []) x = some (input.count x : Int) := by
  have hkey : x ∈ (input.foldl (countChar P) []).map Prod.fst :=
    (mem_keys_foldl_countChar P input [] x).2 (Or.inl hx)
  have hget := tblFind_foldl_countChar P input [] x
  cases hf : tblFind (input.foldl (countChar P) []) x with
  | none => exact absurd hkey (tblFind_eq_none_iff.1 hf)
  | some v =>
    rw [hf] at hget
    simp [tblFind] at hget
    rw [hget]

theorem tblFind_scan_absent (P : Platform) (input : List Nat) (x : Nat) (hx : x ∉ input) :
    tblFind (input.foldl (countChar P) []) x = none := by
  rw [tblFind_eq_none_iff, mem_keys_foldl_countChar]
  simp [hx]

/-- Inserting a key that a sorted table holds leaves the table as it is. -/
theorem mapInsert_of_mem (P : Platform) (m : CharMap) (k : Nat) (v : Int)
    (hs : SortedMap P m) (hk : k ∈ m.map Prod.fst) : mapInsert P m k v = m := by
  induction m with
  | nil => cases hk
  | cons e rest ih =>
    obtain ⟨k', v'⟩ := e
    have hs' := List.pairwise_cons.1 hs
    unfold mapInsert
    by_cases hkk : k = k'
    · rw [if_pos hkk]
    · rw [if_neg hkk]
      have hmem : k ∈ rest.map Prod.fst := by
        rcases List.mem_cons.1 hk with h | h
        · exact absurd h hkk
        · exact h
      obtain ⟨e, he, hek⟩ := List.mem_map.1 hmem
      have hlt := hs'.1 e he
      rw [hek] at hlt
      rw [if_neg (not_lt.2 (le_of_lt hlt)), ih hs'.2 hmem]

/-! ## The layout of the container -/

theorem length_entries (P : Platform) (charMap : CharMap) :
    (charMap.flatMap (fun kv => kv.1 :: intBytes P kv.2)).length = 5 * charMap.length := by
  induction charMap with
  | nil => rfl
  | cons kv rest ih =>
    rw [List.flatMap_cons, List.length_append, ih, List.length_cons, intBytes_length,
      List.length_cons]
    omega

theorem length_headerBytes (P : Platform) (charMap : CharMap) :
    (headerBytes P charMap).length = 8 + 5 * charMap.length := by
  unfold headerBytes
  rw [List.length_append, List.length_append, intBytes_length, intBytes_length, length_entries]

theorem encode_written (P : Platform) (input container : List Nat)
    (hw : encode P input = .written container) :
    container = headerBytes P (buildCharMap P input) ++ (packAll P input).out := by
  unfold encode at hw
  simp only [] at hw
  by_cases hgd : numByteComp P input > input.length
  · rw [if_pos hgd] at hw
    cases hw
  · rw [if_neg hgd] at hw
    exact (EncodeResult.written.inj hw).symm

theorem charVal_of_lt (P : Platform) (b : Nat) (h : P.charSigned = false ∨ b < 128) :
    charVal P b = (b : Int) := by
  rw [charVal_eq]
  rcases h with h | h
  · simp [h]
  · rw [if_neg (by omega)]

/-- The table read back from the header and the entries of a sorted table. -/
theorem readCharMap_headerBytes (P : Platform) (g : Indet) (charMap : CharMap)
    (payload : List Nat) (hs : SortedMap P charMap) (hlen : charMap.length < 2147483648)
    (hc : ∀ e ∈ charMap, -2147483648 ≤ e.2 ∧ e.2 < 2147483648) :
    readCharMap P g (IStream.read ⟨headerBytes P charMap ++ payload, true⟩ 4 g.firstNum).2 =
      (charMap, ⟨payload, true⟩) := by
  have h4m : (intBytes P magicNum).length = 4 := intBytes_length P _
  have h4l : (intBytes P (charMap.length : Int)).length = 4 := intBytes_length P _
  unfold headerBytes
  simp only [List.append_assoc]
  rw [IStream.read_good _ _ _ (by simp [h4m])]
  simp only [List.drop_left' h4m]
  unfold readCharMap
  rw [IStream.read_good _ _ _ (by simp [h4l])]
  simp only [List.take_left' h4l, List.drop_left' h4l]
  rw [bytesInt_intBytes P _ (by omega) (by omega)]
  simp only [Int.toNat_ofNat]
  rw [readEntries_entries P charMap payload _ _ _ hc,
    foldl_mapInsert_sorted P charMap [] (by simpa using hs)]
  simp

theorem count_range_buildCharMap (P : Platform) (input : List Nat)
    (hlen : input.length < 2147483647) :
    ∀ e ∈ buildCharMap P input, -2147483648 ≤ e.2 ∧ e.2 < 2147483648 := by
  intro e he
  have := count_bounds_buildCharMap P input e he
  omega

/-! ## What the unpacking loop has emitted -/

theorem scanBits_no_eof (T : List (List Char × Nat)) (bits : List Char) (st : Unpacker)
    (h : eofChar ∉ st.out) : eofChar ∉ (scanBits T bits st).out := by
  induction bits generalizing st with
  | nil => exact h
  | cons b rest ih =>
    cases hfind : tblFind T (st.readingString ++ [b]) with
    | none =>
      rw [scanBits_cons_none T b rest st hfind]
      exact ih _ h
    | some c =>
      by_cases hc : c = eofChar
      · subst hc
        rw [scanBits_cons_eof T b rest st hfind]
        exact h
      · rw [scanBits_cons_some T b rest st c hfind hc]
        apply ih
        simp only [List.mem_append, List.mem_singleton, not_or]
        exact ⟨h, fun h' => hc h'.symm⟩

theorem unpackRun_succ (T : List (List Char × Nat)) (k : Nat) (s : IStream) (myByte : Nat)
    (st : Unpacker) :
    unpackRun T (k + 1) s myByte st =
      if st.ch = eofChar then (s, myByte, st)
      else if (scanBits T (byteToString myByte) st).ch = eofChar then
        (s, myByte, scanBits T (byteToString myByte) st)
      else unpackRun T k (s.read 1 [myByte]).2 ((s.read 1 [myByte]).1.headD myByte)
        (scanBits T (byteToString myByte) st) := rfl

theorem unpackRun_no_eof (T : List (List Char × Nat)) (k : Nat) (s : IStream) (myByte : Nat)
    (st : Unpacker) (h : eofChar ∉ st.out) : eofChar ∉ (unpackRun T k s myByte st).2.2.out := by
  induction k generalizing s myByte st with
  | zero => exact h
  | succ k ih =>
    rw [unpackRun_succ]
    by_cases hch : st.ch = eofChar
    · rw [if_pos hch]
      exact h
    · rw [if_neg hch]
      by_cases hch' : (scanBits T (byteToString myByte) st).ch = eofChar
      · rw [if_pos hch']
        exact scanBits_no_eof T _ st h
      · rw [if_neg hch']
        exact ih _ _ _ (scanBits_no_eof T _ st h)

/-- When the loop ends within `fuel` iterations, its output is what it has
emitted by then. -/
theorem unpackLoop_eq_run (T : List (List Char × Nat)) (fuel : Nat) (s : IStream) (myByte : Nat)
    (st : Unpacker) (out : List Nat) (h : unpackLoop T fuel s myByte st = some out) :
    (unpackRun T fuel s myByte st).2.2.out = out := by
  induction fuel generalizing s myByte st with
  | zero => simp [unpackLoop] at h
  | succ fuel ih =>
    rw [unpackLoop_succ] at h
    rw [unpackRun_succ]
    by_cases hch : st.ch = eofChar
    · rw [if_pos hch] at h ⊢
      exact Option.some.inj h
    · rw [if_neg hch] at h ⊢
      by_cases hch' : (scanBits T (byteToString myByte) st).ch = eofChar
      · rw [if_pos hch'] at h ⊢
        exact Option.some.inj h
      · rw [if_neg hch'] at h ⊢
        exact ih _ _ _ h

/-- While the loop has not ended, running it on is running it from where it
stands. -/
theorem unpackLoop_add_run (T : List (List Char × Nat)) (k fuel : Nat) (s : IStream)
    (myByte : Nat) (st : Unpacker) (h : (unpackRun T k s myByte st).2.2.ch ≠ eofChar) :
    unpackLoop T (k + fuel) s myByte st =
      unpackLoop T fuel (unpackRun T k s myByte st).1 (unpackRun T k s myByte st).2.1
        (unpackRun T k s myByte st).2.2 := by
  induction k generalizing s myByte st with
  | zero =>
    rw [Nat.zero_add]
    rfl
  | succ k ih =>
    rw [unpackRun_succ] at h ⊢
    rw [Nat.add_right_comm, unpackLoop_succ]
    by_cases hch : st.ch = eofChar
    · rw [if_pos hch] at h
      exact absurd hch h
    · simp only [if_neg hch] at h ⊢
      by_cases hch' : (scanBits T (byteToString myByte) st).ch = eofChar
      · rw [if_pos hch'] at h
        exact absurd hch' h
      · simp only [if_neg hch'] at h ⊢
        exact ih _ _ _ h

/-! ## The tables of the payload writer, the stream of any input -/

theorem getD_tblFind_append_nil (T : List (Nat × List Char)) (b ch : Nat) :
    (tblFind (T ++ [(b, [])]) ch).getD [] = (tblFind T ch).getD [] := by
  rw [tblFind_append]
  cases tblFind T ch with
  | some v => rfl
  | none =>
    by_cases h : ch = b
    · simp [tblFind, h]
    · simp [tblFind, h]

/-- The indexing of line 306 adds entries with the empty string only: what a
lookup with the empty string for default finds is unchanged. -/
theorem getD_countPass (input : List Nat) (T : List (Nat × List Char)) (s : List Char)
    (ch : Nat) :
    (tblFind (input.foldl
      (fun se c => ((se.1 ++ (tblIndex se.2 c).1), (tblIndex se.2 c).2)) (s, T)).2 ch).getD [] =
      (tblFind T ch).getD [] := by
  induction input generalizing T s with
  | nil => rfl
  | cons b rest ih =>
    rw [List.foldl_cons, ih]
    unfold tblIndex
    cases tblFind T b with
    | some v => rfl
    | none => exact getD_tblFind_append_nil T b ch

theorem packChar_congr (T1 T2 : List (Nat × List Char)) (st : Packer) (ch : Nat)
    (h : (tblFind T1 ch).getD [] = (tblFind T2 ch).getD []) :
    packChar T1 st ch = packChar T2 st ch := by
  unfold packChar
  rw [h]

theorem foldl_packChar_congr (T1 T2 : List (Nat × List Char)) (input : List Nat) (st : Packer)
    (h : ∀ ch, (tblFind T1 ch).getD [] = (tblFind T2 ch).getD []) :
    input.foldl (packChar T1) st = input.foldl (packChar T2) st := by
  induction input generalizing st with
  | nil => rfl
  | cons b rest ih => rw [List.foldl_cons, List.foldl_cons, packChar_congr T1 T2 st b (h b), ih]

theorem tblIndex_fst (T : List (Nat × List Char)) (k : Nat) :
    (tblIndex T k).1 = (tblFind T k).getD [] := by
  unfold tblIndex
  cases tblFind T k <;> rfl

/-- The `for` loop over the codewords of any input, then the codeword of the
EOF character, then anything: it outputs the bytes that come before the first
13 of the input, except those without a codeword, and stops at the EOF
character. -/
theorem scanBits_input (D : List (List Char × Nat)) (cw : Nat → List Char)
    (hpf : ∀ w1 ∈ D.map Prod.fst, ∀ w2 ∈ D.map Prod.fst, w1 <+: w2 → w1 = w2)
    (heof : tblFind D (cw eofChar) = some eofChar) (hne : cw eofChar ≠ [])
    (h0 : cw 0 = [])
    (input : List Nat)
    (hsyms : ∀ s ∈ input, s ≠ 0 → tblFind D (cw s) = some s)
    (pad : List Char) (ch : Nat) (out : List Nat) :
    scanBits D ((input.flatMap cw ++ cw eofChar) ++ pad) ⟨ch, [], out⟩ =
      ⟨eofChar, cw eofChar,
        out ++ (input.takeWhile (fun b => decide (b ≠ eofChar))).filter
          (fun b => decide (b ≠ 0))⟩ := by
  induction input generalizing ch out with
  | nil =>
    have := scanBits_codeword D hpf [] (cw eofChar) pad eofChar (by simpa using heof) hne ch out
    simpa using this
  | cons s rest ih =>
    have ih' := ih (fun s' hs' => hsyms s' (List.mem_cons_of_mem _ hs'))
    by_cases hs13 : s = eofChar
    · subst hs13
      have := scanBits_codeword D hpf [] (cw eofChar)
        ((rest.flatMap cw ++ cw eofChar) ++ pad) eofChar (by simpa using heof) hne ch out
      rw [List.flatMap_cons, List.append_assoc, List.append_assoc,
        ← List.append_assoc (rest.flatMap cw), this, if_pos rfl]
      simp
    · by_cases hs0 : s = 0
      · subst hs0
        rw [List.flatMap_cons, h0, List.nil_append, ih' ch out]
        simp [hs13]
      · have hfind := hsyms s (List.mem_cons_self _ _) hs0
        have hcw : cw s ≠ [] := by
          intro hnil
          have hk1 : cw s ∈ D.map Prod.fst := List.mem_map_of_mem Prod.fst (tblFind_mem hfind)
          have hk2 : cw eofChar ∈ D.map Prod.fst :=
            List.mem_map_of_mem Prod.fst (tblFind_mem heof)
          have := hpf _ hk1 _ hk2 (hnil ▸ List.nil_prefix)
          rw [← this, hfind] at heof
          exact hs13 (Option.some.inj heof)
        have := scanBits_codeword D hpf [] (cw s)
          ((rest.flatMap cw ++ cw eofChar) ++ pad) s (by simpa using hfind) hcw ch out
        rw [List.flatMap_cons, List.append_assoc, List.append_assoc,
          ← List.append_assoc (rest.flatMap cw), this, if_neg hs13, ih' s (out ++ [s])]
        simp [hs13, hs0]

theorem labels_snd_ne_zero (t : node) (str : List Char) : ∀ e ∈ labels t str, e.2 ≠ 0 := by
  induction t generalizing str with
  | null => simp [labels]
  | mk count c l r ihl ihr =>
    intro e he
    simp only [labels, List.mem_append] at he
    rcases he with (he | he) | he
    · split at he
      · rename_i hc
        rw [List.mem_singleton] at he
        rw [he]
        exact hc
      · cases he
    · exact ihl _ e he
    · exact ihr _ e he

/-- The byte 0 never has a codeword. -/
theorem tblFind_encodeData_zero (t : node) : tblFind (encodeData t [] []) 0 = none := by
  rw [tblFind_encodeData, tblFind_eq_none_iff]
  intro h
  rw [List.mem_map] at h
  obtain ⟨e, he, h0⟩ := h
  rw [List.mem_map] at he
  obtain ⟨e', he', hsw⟩ := he
  rw [← hsw] at h0
  exact labels_snd_ne_zero t [] e' he' h0

/-- The unpacking loop on a payload over whose bits the scan stops at the EOF
character: the loop ends within one iteration per byte of the payload, with
the output of the scan, and reads nothing of what follows the payload. -/
theorem unpack_of_scan (T : List (List Char × Nat)) (ch fuel : Nat) (payload extra : List Nat)
    (hch : ch ≠ eofChar)
    (hstop : (scanBits T (payload.flatMap byteToString) ⟨ch, [], []⟩).ch = eofChar)
    (hfuel : payload.length ≤ fuel) :
    unpack T ch fuel ⟨payload ++ extra, true⟩ =
      some (scanBits T (payload.flatMap byteToString) ⟨ch, [], []⟩).out := by
  match payload, hstop, hfuel with
  | [], hstop, _ => exact absurd hstop hch
  | b0 :: used, hstop, hfuel =>
    unfold unpack
    have hread : IStream.read ⟨(b0 :: used) ++ extra, true⟩ 1 [0] =
        ([b0], ⟨used ++ extra, true⟩) := by
      rw [IStream.read_good _ _ _ (by simp)]
      rfl
    rw [hread]
    exact unpackLoop_eq_scanBits T used extra b0 ⟨ch, [], []⟩ fuel hch hstop
      (by simpa using hfuel)

/-- The `-unhuff` path on a container the `-huff` path has written: the table
is read back, and the loop runs on the payload with the table of the tree. -/
theorem decode_encode (P : Platform) (g : Indet) (fuel : Nat) (input container : List Nat)
    (hbytes : ∀ b ∈ input, b < 256) (hlen : input.length < 2147483647)
    (hw : encode P input = .written container) :
    decode P g fuel container =
      (unpack (dencodeData (buildTree (buildCharMap P input)) [] []) g.ch fuel
        ⟨(packAll P input).out, true⟩).map DecodeResult.output := by
  have hN := length_buildCharMap_le P input
  rw [encode_written P input container hw]
  exact decode_headerBytes P g fuel _ _ (sorted_buildCharMap P input hbytes) (by omega)
    (count_range_buildCharMap P input hlen)

theorem scanBits_ch_of_none (T : List (List Char × Nat))
    (hT : ∀ w : List Char, w ≠ [] → tblFind T w = none) (bits : List Char) (st : Unpacker) :
    (scanBits T bits st).ch = st.ch := by
  induction bits generalizing st with
  | nil => rfl
  | cons b rest ih =>
    rw [scanBits_cons_none T b rest st (hT _ (by simp)), ih]

/-- With a table in which no non-empty string is found, the loop never ends. -/
theorem unpackLoop_never (T : List (List Char × Nat))
    (hT : ∀ w : List Char, w ≠ [] → tblFind T w = none) (fuel : Nat) (s : IStream)
    (myByte : Nat) (st : Unpacker) (hch : st.ch ≠ eofChar) :
    unpackLoop T fuel s myByte st = none := by
  induction fuel generalizing s myByte st with
  | zero => rfl
  | succ fuel ih =>
    have hch' : (scanBits T (byteToString myByte) st).ch ≠ eofChar := by
      rw [scanBits_ch_of_none T hT]
      exact hch
    rw [unpackLoop_succ, if_neg hch, if_neg hch']
    exact ih _ _ _ hch'

/-- A loop that is still running after `k` iterations, and never ends from
where it then stands, never ends. -/
theorem unpackLoop_diverges (T : List (List Char × Nat)) (k : Nat) (s : IStream) (myByte : Nat)
    (st : Unpacker) (hrun : (unpackRun T k s myByte st).2.2.ch ≠ eofChar)
    (hrest : ∀ fuel, unpackLoop T fuel (unpackRun T k s myByte st).1
      (unpackRun T k s myByte st).2.1 (unpackRun T k s myByte st).2.2 = none) :
    ∀ fuel, unpackLoop T fuel s myByte st = none := by
  intro fuel
  cases hres : unpackLoop T fuel s myByte st with
  | none => rfl
  | some out =>
    have h1 := unpackLoop_mono T fuel k s myByte st out hres
    rw [Nat.add_comm, unpackLoop_add_run T k fuel s myByte st hrun, hrest fuel] at h1
    cases h1

/-! ## The shape and the weights of the tree -/

theorem internalNodes_newLeaf (c : Nat) (count : Int) : internalNodes (newLeaf c count) = [] := by
  simp [newLeaf_eq, internalNodes]

theorem internalNodes_node_new {l r : node} (hl : Proper l) :
    internalNodes (node.new l r) = node.new l r :: (internalNodes l ++ internalNodes r) := by
  simp [node_new_eq, internalNodes, hl.ne_null]

theorem count_node_new {l r : node} (hl : Proper l) (hr : Proper r) :
    (node.new l r).count = l.count + r.count := by
  simp [node_new_eq, node.count, hl.ne_null, hr.ne_null]

/-- A tree the program builds has one internal node less than leaves; every
internal node holds no character, has two children, and weighs what its
children weigh together. -/
theorem internalNodes_spec {t : node} (h : Proper t) :
    (internalNodes t).length + 1 = (leafList t).length ∧
    ∀ n ∈ internalNodes t, n.left ≠ .null ∧ n.right ≠ .null ∧ n.c = 0 ∧
      n.count = n.left.count + n.right.count := by
  induction h with
  | leaf c count => simp [internalNodes_newLeaf, leafList_newLeaf]
  | inner l r hl hr ihl ihr =>
    rw [internalNodes_node_new hl, leafList_node_new hl]
    constructor
    · simp only [List.length_cons, List.length_append]
      omega
    · intro n hn
      rcases List.mem_cons.1 hn with hn | hn
      · rw [hn]
        refine ⟨hl.ne_null, hr.ne_null, rfl, count_node_new hl hr⟩
      · rcases List.mem_append.1 hn with hn | hn
        · exact ihl.2 n hn
        · exact ihr.2 n hn

/-- The weight of a tree the program builds is the sum of the counts of its
leaves. -/
theorem count_eq_sum {t : node} (h : Proper t) :
    t.count = ((leafList t).map Prod.snd).sum := by
  induction h with
  | leaf c count =>
    rw [leafList_newLeaf]
    simp [newLeaf_eq, node.count]
  | inner l r hl hr ihl ihr =>
    rw [count_node_new hl hr, leafList_node_new hl, List.map_append, List.sum_append, ihl, ihr]

/-! ## The queue stays sorted -/

theorem pqPush_sorted (q : List node) (p : node)
    (hq : q.Pairwise (fun a b => a.count ≤ b.count)) :
    (pqPush q p).Pairwise (fun a b => a.count ≤ b.count) := by
  induction q with
  | nil => simp [pqPush]
  | cons x xs ih =>
    have hq' := List.pairwise_cons.1 hq
    unfold pqPush
    by_cases hc : cmp_node x p = true
    · rw [if_pos hc]
      have hlt : p.count < x.count := by simpa [cmp_node] using hc
      refine List.pairwise_cons.2 ⟨?_, hq⟩
      intro y hy
      rcases List.mem_cons.1 hy with hy | hy
      · rw [hy]
        exact le_of_lt hlt
      · exact le_trans (le_of_lt hlt) (hq'.1 y hy)
    · rw [if_neg hc]
      have hle : x.count ≤ p.count := by simpa [cmp_node] using hc
      refine List.pairwise_cons.2 ⟨?_, ih hq'.2⟩
      intro y hy
      rcases mem_pqPush.1 hy with hy | hy
      · rw [hy]
        exact hle
      · exact hq'.1 y hy

theorem mergeLoop_succ (fuel : Nat) (n : List node) (p : node) :
    mergeLoop (fuel + 1) n p =
      if n.length > 1 then
        mergeLoop fuel (pqPush (pqPop (pqPop n)) (node.new (pqTop n) (pqTop (pqPop n))))
          (node.new (pqTop n) (pqTop (pqPop n)))
      else p := rfl

/-! ## The two conversions on every byte -/

set_option maxRecDepth 100000 in
theorem byteToString_spec_all :
    ∀ b, b < 256 → byteToString b = specBits b ∧ convertToByte (byteToString b) = b := by
  decide

/-! ## Depths of trees, and the exchange argument -/

theorem assignCost_cons (p : Int × Nat) (A : Multiset (Int × Nat)) :
    assignCost (p ::ₘ A) = p.1 * (p.2 : Int) + assignCost A := by
  simp [assignCost]

theorem TreeDepths.two_le_card_or {D : Multiset Nat} (h : TreeDepths D) :
    D = {0} ∨ 2 ≤ Multiset.card D := by
  cases h with
  | single => exact Or.inl rfl
  | split d D h => right; simp

/-- In the depths of a tree with more than one leaf, the greatest depth stands
twice, and the two can be replaced by their parent. -/
theorem TreeDepths.deepest {D : Multiset Nat} (h : TreeDepths D) :
    2 ≤ Multiset.card D → ∃ m E, D = (m + 1) ::ₘ (m + 1) ::ₘ E ∧ TreeDepths (m ::ₘ E) ∧
      ∀ d ∈ D, d ≤ m + 1 := by
  induction h with
  | single => intro h2; simp at h2
  | split d E h ih =>
    intro _
    by_cases hall : ∀ e ∈ E, e ≤ d + 1
    · refine ⟨d, E, rfl, h, ?_⟩
      intro x hx
      simp only [Multiset.mem_cons] at hx
      rcases hx with hx | hx | hx
      · omega
      · omega
      · exact hall x hx
    · push_neg at hall
      obtain ⟨e, he, hlt⟩ := hall
      have hcard : 2 ≤ Multiset.card (d ::ₘ E) := by
        obtain ⟨E', rfl⟩ := Multiset.exists_cons_of_mem he
        simp
      obtain ⟨m, F, hF, hreal, hmax⟩ := ih hcard
      have hem : e ≤ m + 1 := hmax e (Multiset.mem_cons_of_mem he)
      have hdm : d ≠ m + 1 := by omega
      have hdF : d ∈ F := by
        have : d ∈ (m + 1) ::ₘ (m + 1) ::ₘ F := by rw [← hF]; exact Multiset.mem_cons_self d E
        simp only [Multiset.mem_cons] at this
        rcases this with h1 | h1 | h1
        · exact absurd h1 hdm
        · exact absurd h1 hdm
        · exact h1
      obtain ⟨G, rfl⟩ := Multiset.exists_cons_of_mem hdF
      have hE : E = (m + 1) ::ₘ (m + 1) ::ₘ G := by
        have h1 : d ::ₘ E = d ::ₘ (m + 1) ::ₘ (m + 1) ::ₘ G := by
          rw [hF, Multiset.cons_swap (m + 1) d, Multiset.cons_swap (m + 1) d]
        exact (Multiset.cons_inj_right d).1 h1
      refine ⟨m, (d + 1) ::ₘ (d + 1) ::ₘ G, ?_, ?_, ?_⟩
      · rw [hE, Multiset.cons_swap (d + 1) (m + 1), Multiset.cons_swap (d + 1) (m + 1),
          Multiset.cons_swap (d + 1) (m + 1), Multiset.cons_swap (d + 1) (m + 1)]
      · have h2 : TreeDepths (d ::ₘ m ::ₘ G) := by
          rw [Multiset.cons_swap]
          exact hreal
        have h3 := TreeDepths.split d (m ::ₘ G) h2
        rw [Multiset.cons_swap (d + 1) m, Multiset.cons_swap (d + 1) m] at h3
        exact h3
      · intro x hx
        rw [hE] at hx
        simp only [Multiset.mem_cons] at hx
        rcases hx with hx | hx | hx | hx | hx
        · omega
        · omega
        · omega
        · omega
        · exact hmax x (by simp [hE, hx])

/-- In an assignment, the least weight can be given the greatest depth without
raising the cost. -/
theorem assign_extract (A : Multiset (Int × Nat)) (a : Int) (W : Multiset Int) (M : Nat)
    (D : Multiset Nat) (hW : A.map Prod.fst = a ::ₘ W) (hD : A.map Prod.snd = M ::ₘ D)
    (hmin : ∀ w ∈ W, a ≤ w) (hmax : ∀ d ∈ D, d ≤ M) :
    ∃ A1 : Multiset (Int × Nat), A1.map Prod.fst = W ∧ A1.map Prod.snd = D ∧
      assignCost A1 + a * (M : Int) ≤ assignCost A := by
  have ha : a ∈ A.map Prod.fst := by rw [hW]; exact Multiset.mem_cons_self a W
  obtain ⟨⟨a', da⟩, hp, rfl⟩ := Multiset.mem_map.1 ha
  obtain ⟨B, rfl⟩ := Multiset.exists_cons_of_mem hp
  simp only [Multiset.map_cons] at hW hD
  have hW' : B.map Prod.fst = W := (Multiset.cons_inj_right _).1 hW
  by_cases hda : da = M
  · subst hda
    refine ⟨B, hW', (Multiset.cons_inj_right _).1 hD, ?_⟩
    simp only [assignCost_cons]
    linarith
  · have hM : M ∈ B.map Prod.snd := by
      have : M ∈ da ::ₘ B.map Prod.snd := by rw [hD]; exact Multiset.mem_cons_self M D
      rcases Multiset.mem_cons.1 this with h1 | h1
      · exact absurd h1.symm hda
      · exact h1
    obtain ⟨⟨x, M'⟩, hq, rfl⟩ := Multiset.mem_map.1 hM
    obtain ⟨C, rfl⟩ := Multiset.exists_cons_of_mem hq
    simp only [Multiset.map_cons] at hW' hD
    have hD' : D = da ::ₘ C.map Prod.snd := by
      rw [Multiset.cons_swap] at hD
      exact ((Multiset.cons_inj_right _).1 hD).symm
    have hax : a' ≤ x := hmin x (by rw [← hW']; exact Multiset.mem_cons_self _ _)
    have hdM : da ≤ M' := hmax da (by rw [hD']; exact Multiset.mem_cons_self _ _)
    refine ⟨(x, da) ::ₘ C, by simpa using hW', by simpa using hD'.symm, ?_⟩
    simp only [assignCost_cons]
    have h1 : 0 ≤ (x - a') * ((M' : Int) - (da : Int)) :=
      mul_nonneg (by omega) (by omega)
    nlinarith [h1]

/-- The exchange argument: an assignment of the depths of a tree to weights of
which `a` and `b` are the two least costs at least `a + b` more than some
assignment of the depths of a tree to the other weights and `a + b`. -/
theorem assign_merge (A : Multiset (Int × Nat)) (a b : Int) (R : Multiset Int)
    (hW : A.map Prod.fst = a ::ₘ b ::ₘ R) (hab : a ≤ b) (hbR : ∀ r ∈ R, b ≤ r)
    (hreal : TreeDepths (A.map Prod.snd)) :
    ∃ A1 : Multiset (Int × Nat), A1.map Prod.fst = (a + b) ::ₘ R ∧
      TreeDepths (A1.map Prod.snd) ∧ assignCost A1 + (a + b) ≤ assignCost A := by
  have hcard : 2 ≤ Multiset.card (A.map Prod.snd) := by
    have := congrArg Multiset.card hW
    simp only [Multiset.card_map, Multiset.card_cons] at this ⊢
    omega
  obtain ⟨m, E, hE, hreal', hmax⟩ := hreal.deepest hcard
  obtain ⟨A1, h1W, h1D, h1c⟩ := assign_extract A a (b ::ₘ R) (m + 1) ((m + 1) ::ₘ E) hW hE
    (by
      intro w hw
      rcases Multiset.mem_cons.1 hw with h | h
      · rw [h]; exact hab
      · exact le_trans hab (hbR w h))
    (by
      intro d hd
      exact hmax d (by rw [hE]; exact Multiset.mem_cons_of_mem hd))
  obtain ⟨A2, h2W, h2D, h2c⟩ := assign_extract A1 b R (m + 1) E h1W h1D hbR
    (by
      intro d hd
      exact hmax d (by rw [hE]; exact Multiset.mem_cons_of_mem (Multiset.mem_cons_of_mem hd)))
  refine ⟨(a + b, m) ::ₘ A2, by simp [h2W], by simpa [h2D] using hreal', ?_⟩
  rw [assignCost_cons]
  push_cast at h1c h2c ⊢
  nlinarith [h1c, h2c]

/-- The only tree with one leaf has it at depth 0. -/
theorem assignCost_single (A : Multiset (Int × Nat)) (h1 : Multiset.card A = 1)
    (hreal : TreeDepths (A.map Prod.snd)) : assignCost A = 0 := by
  obtain ⟨p, rfl⟩ := Multiset.card_eq_one.1 h1
  rcases hreal.two_le_card_or with h | h
  · have : p.2 = 0 := by simpa using h
    simp [assignCost, this]
  · simp at h

/-! ## The cost of the tree the merge loop builds -/

theorem pathCost_newLeaf (c : Nat) (count : Int) (d : Nat) :
    pathCost (newLeaf c count) d = count * (d : Int) := by
  simp [newLeaf_eq, pathCost]

theorem pathCost_node_new {l : node} (r : node) (hl : Proper l) (d : Nat) :
    pathCost (node.new l r) d = pathCost l (d + 1) + pathCost r (d + 1) := by
  rw [node_new_eq]
  simp [pathCost, hl.ne_null]

/-- One level deeper, a tree costs its weight more. -/
theorem pathCost_succ {t : node} (h : Proper t) (d : Nat) :
    pathCost t (d + 1) = pathCost t d + t.count := by
  induction h generalizing d with
  | leaf c count =>
    rw [pathCost_newLeaf, pathCost_newLeaf]
    simp only [newLeaf_eq, node.count]
    push_cast
    ring
  | inner l r hl hr ihl ihr =>
    rw [pathCost_node_new r hl, pathCost_node_new r hl, ihl (d + 1), ihr (d + 1),
      count_node_new hl hr]
    ring

/-! ## The weighted path length of a tree whose leaves are the symbols of a table -/

theorem map_fst_leafDepths (t : node) : ∀ d, (leafDepths t d).map Prod.fst =
    (leafList t).map Prod.fst := by
  induction t with
  | null => intro d; rfl
  | mk count c left right ihl ihr =>
    intro d
    unfold leafDepths leafList
    by_cases h : left = .null ∧ right = .null
    · rw [if_pos h, if_pos h]
      rfl
    · rw [if_neg h, if_neg h, List.map_append, List.map_append, ihl, ihr]

/-- With the counts of its leaves for weights, a tree costs its `pathCost`. -/
theorem sum_leafDepths_eq_pathCost (w : Nat → Int) (t : node) :
    ∀ d, (∀ kv ∈ leafList t, w kv.1 = kv.2) →
      ((leafDepths t d).map (fun p => w p.1 * (p.2 : Int))).sum = pathCost t d := by
  induction t with
  | null => intro d _; rfl
  | mk count c left right ihl ihr =>
    intro d hw
    unfold leafList at hw
    unfold leafDepths pathCost
    by_cases h : left = .null ∧ right = .null
    · rw [if_pos h] at hw
      rw [if_pos h, if_pos h]
      have := hw (c, count) (by simp)
      simp only at this
      simp [this]
    · rw [if_neg h] at hw
      rw [if_neg h, if_neg h, List.map_append, List.sum_append,
        ihl (d + 1) (fun kv hkv => hw kv (List.mem_append_left _ hkv)),
        ihr (d + 1) (fun kv hkv => hw kv (List.mem_append_right _ hkv))]

/-- The weighted path length, as a sum over the leaves of the tree. -/
theorem weightedPathLength_eq (charMap : CharMap) (t : node)
    (hnd : (charMap.map Prod.fst).Nodup)
    (hperm : ((leafList t).map Prod.fst).Perm (charMap.map Prod.fst)) :
    weightedPathLength charMap t =
      ((leafDepths t 0).map
        (fun p => (tblFind charMap p.1).getD 0 * (p.2 : Int))).sum := by
  have hperm' : ((leafDepths t 0).map Prod.fst).Perm (charMap.map Prod.fst) := by
    rw [map_fst_leafDepths]
    exact hperm
  have hnd' : ((leafDepths t 0).map Prod.fst).Nodup := hperm'.nodup_iff.2 hnd
  have h1 : charMap.map (fun kv => kv.2 * (depthOf t kv.1 : Int)) =
      (charMap.map Prod.fst).map
        (fun c => (tblFind charMap c).getD 0 * (depthOf t c : Int)) := by
    rw [List.map_map]
    apply List.map_congr_left
    intro kv hkv
    have : tblFind charMap kv.1 = some kv.2 := tblFind_of_mem_nodup hnd hkv
    simp [this]
  have h2 : (leafDepths t 0).map (fun p => (tblFind charMap p.1).getD 0 * (p.2 : Int)) =
      ((leafDepths t 0).map Prod.fst).map
        (fun c => (tblFind charMap c).getD 0 * (depthOf t c : Int)) := by
    rw [List.map_map]
    apply List.map_congr_left
    intro p hp
    have : tblFind (leafDepths t 0) p.1 = some p.2 := tblFind_of_mem_nodup hnd' hp
    simp [depthOf, this]
  unfold weightedPathLength
  rw [h1, h2]
  exact ((hperm'.map _).sum_eq).symm

/-- The depths of the leaves of any tree are, leaf by leaf, at least the
depths of a tree in which every node has two children or none. -/
theorem leafDepths_dominated (t : node) : ∀ (k k' : Nat) (D : Multiset Nat), k' ≤ k →
    t ≠ .null → TreeDepths (k' ::ₘ D) →
    ∃ ds : List Nat, List.Forall₂ (fun a b => a ≤ b) ds ((leafDepths t k).map Prod.snd) ∧
      TreeDepths ((ds : Multiset Nat) + D) := by
  induction t with
  | null => intro k k' D _ h; exact absurd rfl h
  | mk count c left right ihl ihr =>
    intro k k' D hk _ hreal
    unfold leafDepths
    by_cases h : left = .null ∧ right = .null
    · rw [if_pos h]
      exact ⟨[k'], by simpa using hk, by simpa using hreal⟩
    · rw [if_neg h]
      by_cases hl : left = .null
      · have hr : right ≠ .null := fun hr => h ⟨hl, hr⟩
        obtain ⟨ds, h1, h2⟩ := ihr (k + 1) k' D (by omega) hr hreal
        refine ⟨ds, ?_, h2⟩
        rw [hl]
        simpa [leafDepths] using h1
      · by_cases hr : right = .null
        · obtain ⟨ds, h1, h2⟩ := ihl (k + 1) k' D (by omega) hl hreal
          refine ⟨ds, ?_, h2⟩
          rw [hr]
          simpa [leafDepths] using h1
        · have hsplit := TreeDepths.split k' D hreal
          obtain ⟨dl, hl1, hl2⟩ := ihl (k + 1) (k' + 1) ((k' + 1) ::ₘ D) (by omega) hl hsplit
          have hl3 : TreeDepths ((k' + 1) ::ₘ ((dl : Multiset Nat) + D)) := by
            rw [← Multiset.add_cons]
            exact hl2
          obtain ⟨dr, hr1, hr2⟩ := ihr (k + 1) (k' + 1) ((dl : Multiset Nat) + D) (by omega)
            hr hl3
          refine ⟨dl ++ dr, ?_, ?_⟩
          · rw [List.map_append]
            exact List.rel_append hl1 hr1
          · have : ((dl ++ dr : List Nat) : Multiset Nat) + D =
                (dr : Multiset Nat) + ((dl : Multiset Nat) + D) := by
              rw [← Multiset.coe_add, ← add_assoc, add_comm (dr : Multiset Nat)]
            rw [this]
            exact hr2

/-- Weights that are not negative cost no more at depths that are no greater. -/
theorem assign_of_dominated (w : Nat → Int) (LD : List (Nat × Nat)) :
    ∀ ds : List Nat, (∀ p ∈ LD, 0 ≤ w p.1) →
    List.Forall₂ (fun a b => a ≤ b) ds (LD.map Prod.snd) →
    ∃ A : List (Int × Nat), A.map Prod.fst = LD.map (fun p => w p.1) ∧ A.map Prod.snd = ds ∧
      (A.map (fun p => p.1 * (p.2 : Int))).sum ≤
        (LD.map (fun p => w p.1 * (p.2 : Int))).sum := by
  induction LD with
  | nil =>
    intro ds _ h
    simp only [List.map_nil, List.forall₂_nil_right_iff] at h
    exact ⟨[], rfl, by rw [h]; rfl, by simp⟩
  | cons p rest ih =>
    intro ds hw h
    simp only [List.map_cons] at h
    obtain ⟨d, ds', hd, hrest, rfl⟩ := List.forall₂_cons_right_iff.1 h
    obtain ⟨A, hA1, hA2, hA3⟩ := ih ds' (fun q hq => hw q (List.mem_cons_of_mem _ hq)) hrest
    refine ⟨(w p.1, d) :: A, by simp [hA1], by simp [hA2], ?_⟩
    simp only [List.map_cons, List.sum_cons]
    have h0 : 0 ≤ w p.1 := hw p (List.mem_cons_self _ _)
    have hd' : (d : Int) ≤ (p.2 : Int) := by exact_mod_cast hd
    nlinarith [mul_le_mul_of_nonneg_left hd' h0]

theorem leafDepths_newLeaf (c : Nat) (count : Int) (d : Nat) :
    leafDepths (newLeaf c count) d = [(c, d)] := by
  simp [newLeaf_eq, leafDepths]

theorem leafDepths_node_new {l : node} (r : node) (hl : Proper l) (d : Nat) :
    leafDepths (node.new l r) d = leafDepths l (d + 1) ++ leafDepths r (d + 1) := by
  rw [node_new_eq]
  simp [leafDepths, hl.ne_null]

/-- In a tree the program builds, a character that has a path stands on a leaf
whose depth is the length of the path. -/
theorem mem_leafDepths_of_labels {t : node} (h : Proper t) :
    ∀ (str w : List Char) (c : Nat), (w, c) ∈ labels t str →
      (c, w.length - str.length) ∈ leafDepths t 0 ∧ str.length ≤ w.length := by
  suffices hgen : ∀ (d : Nat) (str w : List Char) (c : Nat), (w, c) ∈ labels t str →
      (c, w.length - str.length + d) ∈ leafDepths t d ∧ str.length ≤ w.length by
    intro str w c hm
    simpa using hgen 0 str w c hm
  induction h with
  | leaf c0 count =>
    intro d str w c hm
    rw [labels_newLeaf] at hm
    by_cases hc : c0 ≠ 0
    · rw [if_pos hc] at hm
      simp only [List.mem_singleton, Prod.mk.injEq] at hm
      obtain ⟨rfl, rfl⟩ := hm
      simp [leafDepths_newLeaf]
    · rw [if_neg hc] at hm
      cases hm
  | inner l r hl hr ihl ihr =>
    intro d str w c hm
    rw [labels_node_new] at hm
    rw [leafDepths_node_new r hl]
    rcases List.mem_append.1 hm with hm | hm
    · obtain ⟨h1, h2⟩ := ihl (d + 1) _ w c hm
      simp only [List.length_append, List.length_singleton] at h1 h2
      refine ⟨List.mem_append_left _ ?_, by omega⟩
      have : w.length - (str.length + 1) + (d + 1) = w.length - str.length + d := by omega
      rw [← this]
      exact h1
    · obtain ⟨h1, h2⟩ := ihr (d + 1) _ w c hm
      simp only [List.length_append, List.length_singleton] at h1 h2
      refine ⟨List.mem_append_right _ ?_, by omega⟩
      have : w.length - (str.length + 1) + (d + 1) = w.length - str.length + d := by omega
      rw [← this]
      exact h1

/-! ## The tree over any priority queue -/

theorem PriorityQueue.Lawful.push_length {Q : PriorityQueue} (hQ : Q.Lawful) (q : List node)
    (p : node) : (Q.push q p).length = q.length + 1 := by
  simpa using (hQ.push_perm q p).length_eq

theorem PriorityQueue.Lawful.mem_push {Q : PriorityQueue} (hQ : Q.Lawful) {q : List node}
    {p x : node} : x ∈ Q.push q p ↔ x = p ∨ x ∈ q := by
  rw [(hQ.push_perm q p).mem_iff, List.mem_cons]

theorem PriorityQueue.Lawful.pop_length {Q : PriorityQueue} (hQ : Q.Lawful) (q : List node)
    (hq : q ≠ []) : (Q.pop q).length + 1 = q.length := by
  simpa using (hQ.pop_perm q hq).length_eq

/-- The two pointers an iteration of the merge loop takes from a queue of two
or more, and what it leaves, make up the queue. -/
theorem PriorityQueue.Lawful.take_two {Q : PriorityQueue} (hQ : Q.Lawful) (q : List node)
    (h2 : 2 ≤ q.length) :
    (Q.top q :: Q.top (Q.pop q) :: Q.pop (Q.pop q)).Perm q ∧
    (Q.pop (Q.pop q)).length + 2 = q.length ∧ Q.pop q ≠ [] := by
  have hq : q ≠ [] := by
    intro h0
    rw [h0] at h2
    simp at h2
  have h1 := hQ.pop_length q hq
  have hq' : Q.pop q ≠ [] := by
    intro h0
    rw [h0] at h1
    simp at h1
    omega
  have h3 := hQ.pop_length (Q.pop q) hq'
  exact ⟨((hQ.pop_perm (Q.pop q) hq').cons _).trans (hQ.pop_perm q hq), by omega, hq'⟩

/-- The queue of `pqPush` is sorted by count. -/
theorem listQueue_sorted (q : List node) (h : listQueue.Reachable q) :
    q.Pairwise (fun a b => a.count ≤ b.count) := by
  induction h with
  | empty => exact List.Pairwise.nil
  | push q p _ ih => exact pqPush_sorted q p ih
  | pop q _ _ ih => exact ih.tail

theorem listQueue_lawful : listQueue.Lawful := by
  refine ⟨pqPush_perm, ?_, ?_⟩
  · intro q hq
    cases q with
    | nil => exact absurd rfl hq
    | cons a rest => exact List.Perm.refl _
  · intro q hq x hx
    have hs := listQueue_sorted q hq
    cases q with
    | nil => cases hx
    | cons a rest =>
      show cmp_node a x = false
      rcases List.mem_cons.1 hx with h | h
      · rw [h]
        simp [cmp_node]
      · have := (List.pairwise_cons.1 hs).1 x h
        simpa [cmp_node] using this

theorem PriorityQueue.pushLeaves_cons (Q : PriorityQueue) (kv : Nat × Int) (rest : CharMap)
    (n : List node) (p : node) :
    Q.pushLeaves (kv :: rest) n p =
      Q.pushLeaves rest (Q.push n (newLeaf kv.1 kv.2)) (newLeaf kv.1 kv.2) := by
  simp [PriorityQueue.pushLeaves]

/-- After the leaves have been pushed the queue holds one leaf per entry. -/
theorem PriorityQueue.pushLeaves_queue {Q : PriorityQueue} (hQ : Q.Lawful) (charMap : CharMap)
    (n : List node) (p : node) :
    ((Q.pushLeaves charMap n p).1.flatMap leafList).Perm (n.flatMap leafList ++ charMap) ∧
    (Q.pushLeaves charMap n p).1.length = n.length + charMap.length ∧
    (∀ t ∈ (Q.pushLeaves charMap n p).1, t ∈ n ∨ ∃ c count, t = newLeaf c count) ∧
    (Q.Reachable n → Q.Reachable (Q.pushLeaves charMap n p).1) ∧
    ((Q.pushLeaves charMap n p).1.map node.count).Perm
      (n.map node.count ++ charMap.map Prod.snd) ∧
    (charMap ≠ [] → ∃ c count, (Q.pushLeaves charMap n p).2 = newLeaf c count ∧
      (n = [] → charMap.length = 1 → (Q.pushLeaves charMap n p).1 = [newLeaf c count])) := by
  induction charMap generalizing n p with
  | nil =>
    exact ⟨by simp [PriorityQueue.pushLeaves], by simp [PriorityQueue.pushLeaves],
      fun t ht => Or.inl ht, fun h => h, by simp [PriorityQueue.pushLeaves],
      fun h => absurd rfl h⟩
  | cons kv rest ih =>
    rw [Q.pushLeaves_cons]
    obtain ⟨h1, h2, h3, h4, h5, h6⟩ := ih (Q.push n (newLeaf kv.1 kv.2)) (newLeaf kv.1 kv.2)
    have hperm := hQ.push_perm n (newLeaf kv.1 kv.2)
    refine ⟨?_, ?_, ?_, ?_, ?_, ?_⟩
    · refine h1.trans ?_
      have := hperm.flatMap_right leafList
      rw [List.flatMap_cons, leafList_newLeaf] at this
      refine (List.Perm.append_right rest this).trans ?_
      simp only [List.singleton_append, List.cons_append]
      exact (List.perm_middle).symm
    · rw [h2, hQ.push_length]
      simp
      omega
    · intro t ht
      rcases h3 t ht with h | h
      · rcases hQ.mem_push.1 h with h | h
        · exact Or.inr ⟨_, _, h⟩
        · exact Or.inl h
      · exact Or.inr h
    · intro hn
      exact h4 (PriorityQueue.Reachable.push n _ hn)
    · refine h5.trans ?_
      refine ((hperm.map node.count).append_right _).trans ?_
      simp only [List.map_cons, newLeaf_eq, node.count]
      exact List.perm_middle.symm
    · intro _
      by_cases hrest : rest = []
      · subst hrest
        refine ⟨kv.1, kv.2, by simp [PriorityQueue.pushLeaves], ?_⟩
        intro hn _
        subst hn
        have := hQ.push_perm [] (newLeaf kv.1 kv.2)
        simpa [PriorityQueue.pushLeaves] using this
      · obtain ⟨c, count, hp, _⟩ := h6 hrest
        refine ⟨c, count, hp, ?_⟩
        intro _ hlen
        exfalso
        cases rest with
        | nil => exact hrest rfl
        | cons _ _ => simp at hlen

theorem PriorityQueue.mergeLoop_step (Q : PriorityQueue) (fuel : Nat) (n : List node)
    (p : node) :
    Q.mergeLoop (fuel + 1) n p =
      if n.length > 1 then
        Q.mergeLoop fuel (Q.push (Q.pop (Q.pop n)) (node.new (Q.top n) (Q.top (Q.pop n))))
          (node.new (Q.top n) (Q.top (Q.pop n)))
      else p := rfl

theorem PriorityQueue.mergeLoop_single (Q : PriorityQueue) (fuel : Nat) (p q : node) :
    Q.mergeLoop fuel [q] p = p := by
  cases fuel with
  | zero => rfl
  | succ fuel =>
    rw [Q.mergeLoop_step, if_neg (by simp)]

/-- The merge loop, run on a non-empty queue of trees the program built,
returns one such tree whose leaves are the leaves of the queue; with two
trees or more in the queue the result is a node made by `node.new`. -/
theorem PriorityQueue.mergeLoop_tree {Q : PriorityQueue} (hQ : Q.Lawful) (fuel : Nat)
    (n : List node) (p : node)
    (hfuel : n.length ≤ fuel + 1) (hne : n ≠ []) (hall : ∀ t ∈ n, Proper t)
    (hone : n.length = 1 → n = [p]) :
    Proper (Q.mergeLoop fuel n p) ∧
    (leafList (Q.mergeLoop fuel n p)).Perm (n.flatMap leafList) ∧
    (2 ≤ n.length → ∃ l r, Proper l ∧ Proper r ∧ Q.mergeLoop fuel n p = node.new l r) := by
  induction fuel generalizing n p with
  | zero =>
    have hlen : n.length = 1 := by
      have := List.length_pos.2 hne
      omega
    have hn := hone hlen
    subst hn
    refine ⟨by simpa [PriorityQueue.mergeLoop] using hall p (List.mem_singleton_self p),
      by simp [PriorityQueue.mergeLoop], ?_⟩
    intro h2
    simp at h2
  | succ fuel ih =>
    by_cases h2 : 2 ≤ n.length
    · obtain ⟨hperm, hlen, hpop⟩ := hQ.take_two n h2
      have hp1 : Proper (Q.top n) := hall _ (hperm.mem_iff.1 (by simp))
      have hp2 : Proper (Q.top (Q.pop n)) := hall _ (hperm.mem_iff.1 (by simp))
      have hnew : Proper (node.new (Q.top n) (Q.top (Q.pop n))) := Proper.inner _ _ hp1 hp2
      have hpush := hQ.push_perm (Q.pop (Q.pop n)) (node.new (Q.top n) (Q.top (Q.pop n)))
      have hlen' := hQ.push_length (Q.pop (Q.pop n)) (node.new (Q.top n) (Q.top (Q.pop n)))
      have hone' : (Q.push (Q.pop (Q.pop n)) (node.new (Q.top n) (Q.top (Q.pop n)))).length = 1 →
          Q.push (Q.pop (Q.pop n)) (node.new (Q.top n) (Q.top (Q.pop n))) =
            [node.new (Q.top n) (Q.top (Q.pop n))] := by
        intro h1
        have h0 : Q.pop (Q.pop n) = [] := List.eq_nil_of_length_eq_zero (by omega)
        rw [h0] at hpush ⊢
        simpa using hpush
      obtain ⟨r1, r2, r3⟩ := ih _ (node.new (Q.top n) (Q.top (Q.pop n))) (by omega)
        (by
          intro h0
          rw [h0] at hlen'
          simp at hlen')
        (by
          intro t ht
          rcases hQ.mem_push.1 ht with h | h
          · rw [h]
            exact hnew
          · exact hall t (hperm.mem_iff.1 (by simp [h])))
        hone'
      rw [Q.mergeLoop_step, if_pos (by omega)]
      refine ⟨r1, ?_, ?_⟩
      · refine r2.trans ?_
        refine (hpush.flatMap_right leafList).trans ?_
        refine List.Perm.trans ?_ (hperm.flatMap_right leafList)
        simp [List.flatMap_cons, leafList_node_new hp1]
      · intro _
        by_cases h2' : 2 ≤ (Q.push (Q.pop (Q.pop n))
            (node.new (Q.top n) (Q.top (Q.pop n)))).length
        · exact r3 h2'
        · have hq := hone' (by omega)
          refine ⟨_, _, hp1, hp2, ?_⟩
          rw [hq, Q.mergeLoop_single]
    · have hlen : n.length = 1 := by
        have := List.length_pos.2 hne
        omega
      have hn := hone hlen
      subst hn
      rw [Q.mergeLoop_single]
      exact ⟨hall p (List.mem_singleton_self p), by simp, fun h => absurd h h2⟩

/-- The tree built from a non-empty frequency table, whatever the queue. -/
theorem PriorityQueue.buildTree_tree {Q : PriorityQueue} (hQ : Q.Lawful) (charMap : CharMap)
    (hne : charMap ≠ []) :
    Proper (Q.buildTree charMap) ∧
    (leafList (Q.buildTree charMap)).Perm charMap ∧
    (2 ≤ charMap.length →
      ∃ l r, Proper l ∧ Proper r ∧ Q.buildTree charMap = node.new l r) := by
  obtain ⟨h1, h2, h3, _, _, h4⟩ := Q.pushLeaves_queue hQ charMap [] .null
  obtain ⟨c, count, hp, hsingle⟩ := h4 hne
  have hlen : (Q.pushLeaves charMap [] .null).1.length = charMap.length := by simpa using h2
  have hne' : (Q.pushLeaves charMap [] .null).1 ≠ [] := by
    intro h0
    rw [h0] at hlen
    exact hne (List.eq_nil_of_length_eq_zero hlen.symm)
  have hall : ∀ t ∈ (Q.pushLeaves charMap [] .null).1, Proper t := by
    intro t ht
    rcases h3 t ht with h | ⟨c, count, h⟩
    · cases h
    · rw [h]
      exact Proper.leaf c count
  have hone : (Q.pushLeaves charMap [] .null).1.length = 1 →
      (Q.pushLeaves charMap [] .null).1 = [(Q.pushLeaves charMap [] .null).2] := by
    intro h
    rw [hp]
    exact hsingle rfl (by omega)
  obtain ⟨r1, r2, r3⟩ := Q.mergeLoop_tree hQ (Q.pushLeaves charMap [] .null).1.length _
    (Q.pushLeaves charMap [] .null).2 (by omega) hne' hall hone
  refine ⟨r1, ?_, ?_⟩
  · refine r2.trans ?_
    simpa using h1
  · intro h
    exact r3 (by omega)

/-- With the queue of `pqPush`, the program over a queue is the program of the
sections above. -/
theorem listQueue_mergeLoop (fuel : Nat) (n : List node) (p : node) :
    listQueue.mergeLoop fuel n p = mergeLoop fuel n p := by
  induction fuel generalizing n p with
  | zero => rfl
  | succ fuel ih =>
    rw [PriorityQueue.mergeLoop_step, mergeLoop_succ, ih]
    rfl

theorem listQueue_buildTree (charMap : CharMap) : listQueue.buildTree charMap =
    buildTree charMap := by
  unfold PriorityQueue.buildTree buildTree
  exact listQueue_mergeLoop _ _ _

theorem listQueue_encode (P : Platform) (input : List Nat) :
    listQueue.encode P input = encode P input := by
  unfold PriorityQueue.encode encode PriorityQueue.numByteComp numByteComp
    PriorityQueue.packAll packAll PriorityQueue.contentState contentState
    PriorityQueue.codeTable codeTable PriorityQueue.encodeTableOf encodeTableOf
  rw [listQueue_buildTree]

theorem listQueue_decode (P : Platform) (g : Indet) (fuel : Nat) (container : List Nat) :
    listQueue.decode P g fuel container = decode P g fuel container := by
  unfold PriorityQueue.decode decode
  simp only [listQueue_buildTree]

/-! ## The code tables of any tree the program can build -/

theorem mem_labels_of_encodeData {t : node} {c : Nat} {w : List Char}
    (h : tblFind (encodeData t [] []) c = some w) : (w, c) ∈ labels t [] := by
  rw [tblFind_encodeData] at h
  have := tblFind_mem h
  rw [List.mem_map] at this
  obtain ⟨e, he, hsw⟩ := this
  obtain ⟨w', c'⟩ := e
  cases hsw
  exact he

/-- Every symbol of the table other than 0 has a codeword. -/
theorem encodeData_entry_of_key {t : node} (hp : Proper t) (charMap : CharMap)
    (hperm : (leafList t).Perm charMap) (c : Nat) (hc : c ∈ charMap.map Prod.fst)
    (hc0 : c ≠ 0) : ∃ w, tblFind (encodeData t [] []) c = some w := by
  have hmem : c ∈ (labels t []).map Prod.snd := by
    rw [labels_map_snd hp, List.mem_filter]
    exact ⟨((hperm.map Prod.fst).mem_iff).2 hc, by simpa using hc0⟩
  rw [List.mem_map] at hmem
  obtain ⟨e, he, hec⟩ := hmem
  obtain ⟨w, c'⟩ := e
  simp only at hec
  subst hec
  have hsw : (c', w) ∈ (labels t []).map Prod.swap := List.mem_map.2 ⟨(w, c'), he, rfl⟩
  obtain ⟨w', hw'⟩ := tblFind_isSome_of_mem hsw
  exact ⟨w', by rw [tblFind_encodeData, hw']⟩

/-- The two tables of a tree the program built are inverse to each other. -/
theorem encodeData_iff_dencodeData {t : node} (hp : Proper t) (charMap : CharMap)
    (hperm : (leafList t).Perm charMap) (hnd : (charMap.map Prod.fst).Nodup)
    (c : Nat) (w : List Char) :
    tblFind (encodeData t [] []) c = some w ↔ tblFind (dencodeData t [] []) w = some c := by
  rw [tblFind_encodeData, tblFind_dencodeData]
  have hpaths : ((labels t []).map Prod.fst).Nodup := by
    rw [List.Nodup, List.pairwise_map]
    refine (labels_pairwise hp []).imp ?_
    intro a b hab heq
    exact hab.1 (heq ▸ List.prefix_refl _)
  have hsyms : ((labels t []).map Prod.snd).Nodup := by
    rw [labels_map_snd hp]
    exact ((hperm.map Prod.fst).nodup_iff.2 hnd).filter _
  have hsw : (((labels t []).map Prod.swap).map Prod.fst).Nodup := by
    simpa [List.map_map, Function.comp_def] using hsyms
  constructor
  · intro h
    have := tblFind_mem h
    rw [List.mem_map] at this
    obtain ⟨e, he, hsw'⟩ := this
    obtain ⟨w', c'⟩ := e
    cases hsw'
    exact tblFind_of_mem_nodup hpaths he
  · intro h
    have := tblFind_mem h
    exact tblFind_of_mem_nodup hsw (List.mem_map.2 ⟨(w, c), this, rfl⟩)

/-- The Codeword->Symbol table of a tree the program built is prefix-free. -/
theorem dencodeData_prefix_free {t : node} (hp : Proper t) :
    ∀ w1 ∈ (dencodeData t [] []).map Prod.fst,
    ∀ w2 ∈ (dencodeData t [] []).map Prod.fst, w1 <+: w2 → w1 = w2 := by
  have hkey : ∀ w ∈ (dencodeData t [] []).map Prod.fst, w ∈ (labels t []).map Prod.fst := by
    intro w h
    by_contra hnot
    have h1 := (tblFind_eq_none_iff (m := labels t [])).2 hnot
    rw [← tblFind_dencodeData] at h1
    exact (tblFind_eq_none_iff.1 h1) h
  intro w1 h1 w2 h2 hpre
  have h1' := hkey w1 h1
  have h2' := hkey w2 h2
  rw [List.mem_map] at h1' h2'
  obtain ⟨e1, he1, rfl⟩ := h1'
  obtain ⟨e2, he2, rfl⟩ := h2'
  by_contra hne
  have hsymm : Symmetric (fun a b : List Char × Nat => ¬ a.1 <+: b.1 ∧ ¬ b.1 <+: a.1) :=
    fun _ _ h => ⟨h.2, h.1⟩
  have hne' : e1 ≠ e2 := fun h => hne (congrArg Prod.fst h)
  exact ((labels_pairwise hp []).forall hsymm he1 he2 hne').1 hpre

/-! ## The two paths over any priority queue -/

theorem PriorityQueue.encode_container (Q : PriorityQueue) (P : Platform)
    (input container : List Nat) (hw : Q.encode P input = .written container) :
    container = headerBytes P (buildCharMap P input) ++ (Q.packAll P input).out := by
  unfold PriorityQueue.encode at hw
  simp only [] at hw
  by_cases hgd : Q.numByteComp P input > input.length
  · rw [if_pos hgd] at hw
    cases hw
  · rw [if_neg hgd] at hw
    exact (EncodeResult.written.inj hw).symm

/-- The `-unhuff` path on a file that starts with the header and entries of a
sorted table: the table is read back, and the unpacking loop runs on the rest
of the file with the table of the tree. -/
theorem PriorityQueue.decode_header (Q : PriorityQueue) (P : Platform) (g : Indet)
    (fuel : Nat) (charMap : CharMap) (payload : List Nat) (hs : SortedMap P charMap)
    (hlen : charMap.length < 2147483648)
    (hc : ∀ e ∈ charMap, -2147483648 ≤ e.2 ∧ e.2 < 2147483648) :
    Q.decode P g fuel (headerBytes P charMap ++ payload) =
      (unpack (dencodeData (Q.buildTree charMap) [] []) g.ch fuel ⟨payload, true⟩).map
        DecodeResult.output := by
  have hread := readCharMap_headerBytes P g charMap payload hs hlen hc
  have hmagic : bytesInt P
      (IStream.read ⟨headerBytes P charMap ++ payload, true⟩ 4 g.firstNum).1 = magicNum := by
    have h4m : (intBytes P magicNum).length = 4 := intBytes_length P _
    unfold headerBytes
    simp only [List.append_assoc]
    rw [IStream.read_good _ _ _ (by simp [h4m])]
    simp only [List.take_left' h4m]
    exact bytesInt_intBytes P magicNum (by decide) (by decide)
  unfold PriorityQueue.decode
  simp only [hmagic, hread, ne_eq, not_true_eq_false, if_false]

theorem PriorityQueue.contentState_eq (Q : PriorityQueue) (P : Platform) (input : List Nat) :
    Q.contentState P input = input.foldl (packChar (Q.encodeTableOf P input)) ⟨[], [], []⟩ :=
  foldl_packChar_congr _ _ input _ (fun ch => getD_countPass input _ [] ch)

theorem PriorityQueue.eofString_eq (Q : PriorityQueue) (P : Platform) (input : List Nat) :
    Q.eofString P input = (tblFind (Q.encodeTableOf P input) eofChar).getD [] := by
  unfold PriorityQueue.eofString PriorityQueue.codeTable
  rw [tblIndex_fst]
  exact getD_countPass input _ [] eofChar

/-- The `-unhuff` path on a container the `-huff` path has written with the
codeword of 13 in it (the branch of lines 417-435), whatever the queue: the
loop ends within one iteration per byte of the container, reads nothing of
what follows the container, and outputs the bytes of the input before the
first 13, without the bytes 0. -/
theorem PriorityQueue.decode_of_encode {Q : PriorityQueue} (hQ : Q.Lawful) (P : Platform)
    (g : Indet) (fuel : Nat) (input container extra : List Nat)
    (hbytes : ∀ b ∈ input, b < 256) (hlen : input.length < 2147483647)
    (hw : Q.encode P input = .written container)
    (h8 : (Q.contentState P input).encodString.length ≤ 8)
    (hgt : 8 < (Q.contentState P input).encodString.length + (Q.eofString P input).length)
    (hle : (Q.contentState P input).encodString.length + (Q.eofString P input).length ≤ 16)
    (hch : g.ch ≠ eofChar) (hfuel : container.length ≤ fuel) :
    Q.decode P g fuel (container ++ extra) =
      some (.output ((input.takeWhile (fun b => decide (b ≠ eofChar))).filter
        (fun b => decide (b ≠ 0)))) := by
  have hcont := Q.encode_container P input container hw
  have hsorted := sorted_buildCharMap P input hbytes
  have hnd := nodup_keys_of_sorted P _ hsorted
  have hN := length_buildCharMap_le P input
  obtain ⟨hp, hperm, _⟩ := Q.buildTree_tree hQ (buildCharMap P input)
    (buildCharMap_ne_nil P input)
  -- the code tables
  obtain ⟨w13, hw13⟩ := encodeData_entry_of_key hp (buildCharMap P input) hperm eofChar
    ((mem_keys_buildCharMap P input eofChar).2 (Or.inl rfl)) (by decide)
  have hw13' : tblFind (Q.encodeTableOf P input) eofChar = some w13 := hw13
  have heofs : Q.eofString P input = w13 := by
    rw [Q.eofString_eq, hw13']
    rfl
  have hw13ne : w13 ≠ [] := by
    intro h0
    rw [heofs, h0] at hgt
    simp at hgt
    omega
  have hbin : ∀ c w, tblFind (Q.encodeTableOf P input) c = some w →
      ∀ b ∈ w, b = '0' ∨ b = '1' := by
    intro c w hcw b hb
    rcases labels_binary _ [] _ (mem_labels_of_encodeData hcw) b hb with h | h
    · cases h
    · exact h
  have hbinD : ∀ c, ∀ b ∈ (tblFind (Q.encodeTableOf P input) c).getD [], b = '0' ∨ b = '1' := by
    intro c b hb
    cases hf : tblFind (Q.encodeTableOf P input) c with
    | none =>
      rw [hf] at hb
      cases hb
    | some w =>
      rw [hf] at hb
      exact hbin c w hf b hb
  -- the payload
  have hinv : PackInv (Q.contentState P input)
      (input.flatMap (fun c => (tblFind (Q.encodeTableOf P input) c).getD [])) := by
    rw [Q.contentState_eq]
    have := foldl_packChar_inv (Q.encodeTableOf P input) input ⟨[], [], []⟩ [] rfl (by simp)
      (fun c _ => hbinD c)
    simpa using this
  have hstream : ∀ b ∈ input.flatMap (fun c => (tblFind (Q.encodeTableOf P input) c).getD []),
      b = '0' ∨ b = '1' := by
    intro b hb
    rw [List.mem_flatMap] at hb
    obtain ⟨c, _, hb⟩ := hb
    exact hbinD c b hb
  have heofs' : (tblIndex (Q.codeTable P input) eofChar).1 = w13 := heofs
  obtain ⟨pad, hpad⟩ := packEof_inv (Q.codeTable P input) (Q.contentState P input) _ hinv
    hstream (by rw [heofs']; exact hbin eofChar w13 hw13')
    h8 (by rw [heofs', ← heofs]; exact hgt) (by rw [heofs', ← heofs]; exact hle)
  rw [heofs'] at hpad
  -- the decoder
  have hcw13 : (fun c => (tblFind (Q.encodeTableOf P input) c).getD []) eofChar = w13 := by
    show (tblFind (Q.encodeTableOf P input) eofChar).getD [] = w13
    rw [hw13']
    rfl
  have hscan := scanBits_input (dencodeData (Q.buildTree (buildCharMap P input)) [] [])
    (fun c => (tblFind (Q.encodeTableOf P input) c).getD []) (dencodeData_prefix_free hp)
    (by rw [hcw13]; exact (encodeData_iff_dencodeData hp _ hperm hnd eofChar w13).1 hw13)
    (by rw [hcw13]; exact hw13ne)
    (by
      show (tblFind (Q.encodeTableOf P input) 0).getD [] = []
      unfold PriorityQueue.encodeTableOf
      rw [tblFind_encodeData_zero]
      rfl)
    input
    (by
      intro s hs hs0
      obtain ⟨w, hw⟩ := encodeData_entry_of_key hp (buildCharMap P input) hperm s
        ((mem_keys_buildCharMap P input s).2 (Or.inr hs)) hs0
      show tblFind _ ((tblFind (Q.encodeTableOf P input) s).getD []) = some s
      have hw' : tblFind (Q.encodeTableOf P input) s = some w := hw
      rw [hw']
      exact (encodeData_iff_dencodeData hp _ hperm hnd s w).1 hw)
    pad g.ch []
  have hcw13' : (tblFind (Q.encodeTableOf P input) eofChar).getD [] = w13 := hcw13
  rw [hcw13'] at hscan
  rw [hcont, List.append_assoc, Q.decode_header P g fuel _ _ hsorted (by omega)
    (count_range_buildCharMap P input hlen)]
  have hun := unpack_of_scan (dencodeData (Q.buildTree (buildCharMap P input)) [] []) g.ch fuel
    (Q.packAll P input).out extra hch
    (by
      show (scanBits _ ((packEof (Q.codeTable P input) (Q.contentState P input)).out.flatMap
        byteToString) _).ch = eofChar
      rw [hpad, hscan])
    (by
      rw [hcont, List.length_append] at hfuel
      omega)
  rw [hun]
  have hout : (scanBits (dencodeData (Q.buildTree (buildCharMap P input)) [] [])
      ((Q.packAll P input).out.flatMap byteToString) ⟨g.ch, [], []⟩).out =
      (input.takeWhile (fun b => decide (b ≠ eofChar))).filter (fun b => decide (b ≠ 0)) := by
    show (scanBits _ ((packEof (Q.codeTable P input) (Q.contentState P input)).out.flatMap
      byteToString) _).out = _
    rw [hpad, hscan]
    simp
  rw [hout]
  rfl

/-! ## The iterations of the merge loop over any priority queue -/

theorem PriorityQueue.mergeTrace_succ (Q : PriorityQueue) (fuel : Nat) (n : List node) :
    Q.mergeTrace (fuel + 1) n =
      if n.length > 1 then
        n :: Q.mergeTrace fuel
          (Q.push (Q.pop (Q.pop n)) (node.new (Q.top n) (Q.top (Q.pop n))))
      else [] := rfl

/-- The merge loop makes the iterations of its trace: its result is the node
made in the last of them, or the initial `p` when there is none. -/
theorem PriorityQueue.mergeLoop_eq_trace (Q : PriorityQueue) (fuel : Nat) (n : List node)
    (p : node) :
    Q.mergeLoop fuel n p =
      ((Q.mergeTrace fuel n).getLast?).elim p
        (fun q => node.new (Q.top q) (Q.top (Q.pop q))) := by
  induction fuel generalizing n p with
  | zero => rfl
  | succ fuel ih =>
    rw [Q.mergeLoop_step, Q.mergeTrace_succ]
    by_cases hlen : n.length > 1
    · rw [if_pos hlen, if_pos hlen, ih]
      cases htr : Q.mergeTrace fuel
          (Q.push (Q.pop (Q.pop n)) (node.new (Q.top n) (Q.top (Q.pop n)))) with
      | nil => simp
      | cons q qs =>
        rw [List.getLast?_cons_cons]
        cases hl : (q :: qs).getLast? with
        | none => simp at hl
        | some l => rfl
    · rw [if_neg hlen, if_neg hlen]
      rfl

/-- With fuel for every node of the queue, the loop makes one iteration per
node but one. -/
theorem PriorityQueue.length_mergeTrace {Q : PriorityQueue} (hQ : Q.Lawful) (fuel : Nat)
    (n : List node) (hfuel : n.length ≤ fuel) : (Q.mergeTrace fuel n).length = n.length - 1 := by
  induction fuel generalizing n with
  | zero =>
    have : n.length = 0 := by omega
    simp [PriorityQueue.mergeTrace, this]
  | succ fuel ih =>
    rw [Q.mergeTrace_succ]
    by_cases hlen : n.length > 1
    · obtain ⟨_, h2, _⟩ := hQ.take_two n hlen
      rw [if_pos hlen, List.length_cons, ih _ (by rw [hQ.push_length]; omega), hQ.push_length]
      omega
    · rw [if_neg hlen]
      simp only [List.length_nil]
      omega

/-- Each queue of the trace is the one before it with two pointers taken and
their parent pushed. -/
theorem PriorityQueue.mergeTrace_chain (Q : PriorityQueue) (fuel : Nat) (n : List node) :
    (Q.mergeTrace fuel n).Chain' (fun q q' =>
      q' = Q.push (Q.pop (Q.pop q)) (node.new (Q.top q) (Q.top (Q.pop q)))) ∧
    ∀ q ∈ (Q.mergeTrace fuel n).head?, q = n := by
  induction fuel generalizing n with
  | zero => simp [PriorityQueue.mergeTrace]
  | succ fuel ih =>
    rw [Q.mergeTrace_succ]
    by_cases hlen : n.length > 1
    · rw [if_pos hlen]
      obtain ⟨h1, h2⟩ := ih (Q.push (Q.pop (Q.pop n)) (node.new (Q.top n) (Q.top (Q.pop n))))
      refine ⟨List.chain'_cons'.2 ⟨?_, h1⟩, by simp⟩
      intro q hq
      exact h2 q hq
    · rw [if_neg hlen]
      simp

/-- Every queue the merge loop starts an iteration with is one the program can
hold, of two or more trees it built, none of negative weight, whose weights
add up to those of the first queue. -/
theorem PriorityQueue.mergeTrace_spec {Q : PriorityQueue} (hQ : Q.Lawful) (fuel : Nat)
    (n : List node) (hr : Q.Reachable n) (hall : ∀ t ∈ n, Proper t ∧ 0 ≤ t.count) :
    ∀ q ∈ Q.mergeTrace fuel n, Q.Reachable q ∧ (∀ t ∈ q, Proper t ∧ 0 ≤ t.count) ∧
      2 ≤ q.length ∧ (q.map node.count).sum = (n.map node.count).sum := by
  induction fuel generalizing n with
  | zero => simp [PriorityQueue.mergeTrace]
  | succ fuel ih =>
    intro q hq
    rw [Q.mergeTrace_succ] at hq
    by_cases hlen : n.length > 1
    · rw [if_pos hlen] at hq
      rcases List.mem_cons.1 hq with hq | hq
      · rw [hq]
        exact ⟨hr, hall, hlen, rfl⟩
      · obtain ⟨hperm, _, hpop⟩ := hQ.take_two n hlen
        have hne : n ≠ [] := by
          intro h0
          rw [h0] at hlen
          simp at hlen
        have h1 := hall _ (hperm.mem_iff.1 (List.mem_cons_self _ _))
        have h2 := hall (Q.top (Q.pop n)) (hperm.mem_iff.1 (by simp))
        have hpush := hQ.push_perm (Q.pop (Q.pop n)) (node.new (Q.top n) (Q.top (Q.pop n)))
        obtain ⟨r1, r2, r3, r4⟩ := ih _
          (PriorityQueue.Reachable.push _ _
            (PriorityQueue.Reachable.pop _ (PriorityQueue.Reachable.pop _ hr hne) hpop))
          (by
            intro t ht
            rcases hQ.mem_push.1 ht with h | h
            · rw [h, count_node_new h1.1 h2.1]
              exact ⟨Proper.inner _ _ h1.1 h2.1, by omega⟩
            · exact hall t (hperm.mem_iff.1 (by simp [h])))
          q hq
        refine ⟨r1, r2, r3, r4.trans ?_⟩
        rw [(hpush.map node.count).sum_eq, ← (hperm.map node.count).sum_eq]
        simp only [List.map_cons, List.sum_cons, count_node_new h1.1 h2.1]
        omega
    · rw [if_neg hlen] at hq
      cases hq

theorem sum_nonneg_of_counts (q : List node) (h : ∀ t ∈ q, 0 ≤ t.count) :
    0 ≤ (q.map node.count).sum := by
  apply List.sum_nonneg
  intro x hx
  obtain ⟨t, ht, rfl⟩ := List.mem_map.1 hx
  exact h t ht

/-- One iteration of the merge loop, on a queue the program can hold: the two
pointers taken have the least counts, and their sum is no more than the sum
of the counts of the queue. -/
theorem PriorityQueue.Lawful.take_two_min {Q : PriorityQueue} (hQ : Q.Lawful) (q : List node)
    (hr : Q.Reachable q) (h2 : 2 ≤ q.length) :
    (Q.top q).count ≤ (Q.top (Q.pop q)).count ∧
    (∀ x ∈ Q.pop (Q.pop q),
      (Q.top q).count ≤ x.count ∧ (Q.top (Q.pop q)).count ≤ x.count) := by
  obtain ⟨hperm, _, hpop⟩ := hQ.take_two q h2
  have hne : q ≠ [] := by
    intro h0
    rw [h0] at h2
    simp at h2
  have hmin1 : ∀ x ∈ q, (Q.top q).count ≤ x.count := by
    intro x hx
    have := hQ.top_min q hr x hx
    simpa [cmp_node] using this
  have hmin2 : ∀ x ∈ Q.pop q, (Q.top (Q.pop q)).count ≤ x.count := by
    intro x hx
    have := hQ.top_min (Q.pop q) (PriorityQueue.Reachable.pop q hr hne) x hx
    simpa [cmp_node] using this
  have hsub : ∀ x ∈ Q.pop (Q.pop q), x ∈ Q.pop q := by
    intro x hx
    exact (hQ.pop_perm (Q.pop q) hpop).mem_iff.1 (List.mem_cons_of_mem _ hx)
  refine ⟨hmin1 _ (hperm.mem_iff.1 (by simp)), ?_⟩
  intro x hx
  exact ⟨hmin1 x (hperm.mem_iff.1 (by simp [hx])), hmin2 x (hsub x hx)⟩

/-! ## The cost of the tree over any priority queue -/

/-- The merge loop builds a tree that costs no more, on top of the costs of the
trees of the queue, than any assignment of the depths of a tree to the
weights of those trees. -/
theorem PriorityQueue.mergeLoop_optimal {Q : PriorityQueue} (hQ : Q.Lawful) (fuel : Nat) :
    ∀ (n : List node) (p : node),
    n.length ≤ fuel + 1 → n ≠ [] → (∀ t ∈ n, Proper t) → Q.Reachable n →
    (n.length = 1 → n = [p]) →
    ∀ A : Multiset (Int × Nat), A.map Prod.fst = ((n.map node.count : List Int) : Multiset Int) →
      TreeDepths (A.map Prod.snd) →
      pathCost (Q.mergeLoop fuel n p) 0 ≤ (n.map (fun t => pathCost t 0)).sum + assignCost A := by
  induction fuel with
  | zero =>
    intro n p hfuel hne _ _ hone A hW hreal
    have hlen : n.length = 1 := by
      have := List.length_pos.2 hne
      omega
    have hA : Multiset.card A = 1 := by
      have := congrArg Multiset.card hW
      simpa [hlen] using this
    rw [hone hlen, assignCost_single A hA hreal]
    simp [PriorityQueue.mergeLoop]
  | succ fuel ih =>
    intro n p hfuel hne hall hr hone A hW hreal
    by_cases h2 : 2 ≤ n.length
    · obtain ⟨hperm, hlen, hpop⟩ := hQ.take_two n h2
      obtain ⟨hm1, hm2⟩ := hQ.take_two_min n hr h2
      have hp1 : Proper (Q.top n) := hall _ (hperm.mem_iff.1 (by simp))
      have hp2 : Proper (Q.top (Q.pop n)) := hall _ (hperm.mem_iff.1 (by simp))
      have hpush := hQ.push_perm (Q.pop (Q.pop n)) (node.new (Q.top n) (Q.top (Q.pop n)))
      have hlen' := hQ.push_length (Q.pop (Q.pop n)) (node.new (Q.top n) (Q.top (Q.pop n)))
      rw [Q.mergeLoop_step, if_pos (by omega)]
      have hW' : A.map Prod.fst = (Q.top n).count ::ₘ (Q.top (Q.pop n)).count ::ₘ
          (((Q.pop (Q.pop n)).map node.count : List Int) : Multiset Int) := by
        rw [hW]
        have := Multiset.coe_eq_coe.2 ((hperm.map node.count).symm)
        simpa using this
      obtain ⟨A1, h1W, h1real, h1c⟩ := assign_merge A (Q.top n).count (Q.top (Q.pop n)).count
        (((Q.pop (Q.pop n)).map node.count : List Int) : Multiset Int) hW' hm1
        (by
          intro r hr'
          obtain ⟨t, ht, rfl⟩ := List.mem_map.1 (Multiset.mem_coe.1 hr')
          exact (hm2 t ht).2)
        hreal
      have hstep := ih (Q.push (Q.pop (Q.pop n)) (node.new (Q.top n) (Q.top (Q.pop n))))
        (node.new (Q.top n) (Q.top (Q.pop n))) (by omega)
        (by
          intro h0
          rw [h0] at hlen'
          simp at hlen')
        (by
          intro t ht
          rcases hQ.mem_push.1 ht with h | h
          · rw [h]
            exact Proper.inner _ _ hp1 hp2
          · exact hall t (hperm.mem_iff.1 (by simp [h])))
        (PriorityQueue.Reachable.push _ _
          (PriorityQueue.Reachable.pop _ (PriorityQueue.Reachable.pop _ hr hne) hpop))
        (by
          intro h1
          have h0 : Q.pop (Q.pop n) = [] := List.eq_nil_of_length_eq_zero (by omega)
          rw [h0] at hpush ⊢
          simpa using hpush)
        A1
        (by
          rw [h1W, ← count_node_new hp1 hp2]
          have := Multiset.coe_eq_coe.2 ((hpush.map node.count).symm)
          simpa using this)
        h1real
      have hsum : ((Q.push (Q.pop (Q.pop n)) (node.new (Q.top n) (Q.top (Q.pop n)))).map
          (fun t => pathCost t 0)).sum =
          pathCost (node.new (Q.top n) (Q.top (Q.pop n))) 0 +
            ((Q.pop (Q.pop n)).map (fun t => pathCost t 0)).sum := by
        rw [(hpush.map (fun t => pathCost t 0)).sum_eq]
        simp
      have hsum' : (n.map (fun t => pathCost t 0)).sum =
          pathCost (Q.top n) 0 + (pathCost (Q.top (Q.pop n)) 0 +
            ((Q.pop (Q.pop n)).map (fun t => pathCost t 0)).sum) := by
        rw [← (hperm.map (fun t => pathCost t 0)).sum_eq]
        simp
      rw [hsum, pathCost_node_new _ hp1, pathCost_succ hp1, pathCost_succ hp2] at hstep
      rw [hsum']
      linarith
    · have hlen : n.length = 1 := by
        have := List.length_pos.2 hne
        omega
      have hA : Multiset.card A = 1 := by
        have := congrArg Multiset.card hW
        simpa [hlen] using this
      rw [hone hlen, assignCost_single A hA hreal, Q.mergeLoop_single]
      simp

/-- The tree of a table costs no more than any assignment of the depths of a
tree to the counts of the table. -/
theorem PriorityQueue.buildTree_optimal {Q : PriorityQueue} (hQ : Q.Lawful) (charMap : CharMap)
    (hne : charMap ≠ []) (A : Multiset (Int × Nat))
    (hW : A.map Prod.fst = ((charMap.map Prod.snd : List Int) : Multiset Int))
    (hreal : TreeDepths (A.map Prod.snd)) :
    pathCost (Q.buildTree charMap) 0 ≤ assignCost A := by
  obtain ⟨_, hlen, hleaf, hreach, hcounts, hlast⟩ := Q.pushLeaves_queue hQ charMap [] .null
  have hall : ∀ t ∈ (Q.pushLeaves charMap [] .null).1, Proper t := by
    intro t ht
    rcases hleaf t ht with h | ⟨c, count, h⟩
    · cases h
    · exact h ▸ Proper.leaf c count
  have hzero : ∀ t ∈ (Q.pushLeaves charMap [] .null).1, pathCost t 0 = 0 := by
    intro t ht
    rcases hleaf t ht with h | ⟨c, count, h⟩
    · cases h
    · rw [h, pathCost_newLeaf]
      simp
  have hlen0 : 0 < charMap.length := List.length_pos.2 hne
  have h := Q.mergeLoop_optimal hQ (Q.pushLeaves charMap [] .null).1.length
    (Q.pushLeaves charMap [] .null).1 (Q.pushLeaves charMap [] .null).2 (by omega)
    (by
      intro h0
      rw [h0] at hlen
      simp at hlen
      omega)
    hall (hreach PriorityQueue.Reachable.empty)
    (by
      intro h1
      obtain ⟨c, count, hp, hq⟩ := hlast hne
      rw [hp]
      exact hq rfl (by simpa [hlen] using h1))
    A
    (by
      rw [hW]
      exact Multiset.coe_eq_coe.2 (by simpa using hcounts.symm))
    hreal
  have hsum : ((Q.pushLeaves charMap [] .null).1.map (fun t => pathCost t 0)).sum = 0 := by
    apply List.sum_eq_zero
    intro x hx
    obtain ⟨t, ht, rfl⟩ := List.mem_map.1 hx
    exact hzero t ht
  rw [hsum] at h
  simpa [PriorityQueue.buildTree] using h

/-- Any binary tree whose leaves are the symbols of a table of counts that are
not negative costs at least the tree of the table. -/
theorem PriorityQueue.buildTree_le {Q : PriorityQueue} (hQ : Q.Lawful) (charMap : CharMap)
    (t : node) (hnd : (charMap.map Prod.fst).Nodup) (hpos : ∀ kv ∈ charMap, 0 ≤ kv.2)
    (hperm : ((leafList t).map Prod.fst).Perm (charMap.map Prod.fst)) (hne : charMap ≠ []) :
    pathCost (Q.buildTree charMap) 0 ≤ weightedPathLength charMap t := by
  have hperm' : ((leafDepths t 0).map Prod.fst).Perm (charMap.map Prod.fst) := by
    rw [map_fst_leafDepths]
    exact hperm
  have htne : t ≠ .null := by
    intro h0
    rw [h0] at hperm
    have := hperm.length_eq
    simp [leafList] at this
    exact hne (List.length_eq_zero.1 this.symm)
  obtain ⟨ds, hdom, hreal⟩ := leafDepths_dominated t 0 0 0 (le_refl 0) htne
    (by simpa using TreeDepths.single)
  have hw : ∀ p ∈ leafDepths t 0, 0 ≤ (tblFind charMap p.1).getD 0 := by
    intro p hp
    have hk : p.1 ∈ charMap.map Prod.fst :=
      hperm'.mem_iff.1 (List.mem_map_of_mem Prod.fst hp)
    obtain ⟨kv, hkv, hkey⟩ := List.mem_map.1 hk
    have : tblFind charMap kv.1 = some kv.2 := tblFind_of_mem_nodup hnd hkv
    rw [← hkey, this]
    exact hpos kv hkv
  obtain ⟨A, hA1, hA2, hA3⟩ := assign_of_dominated
    (fun c => (tblFind charMap c).getD 0) (leafDepths t 0) ds hw hdom
  have hopt := Q.buildTree_optimal hQ charMap hne (A : Multiset (Int × Nat))
    (by
      rw [Multiset.map_coe, hA1]
      apply Multiset.coe_eq_coe.2
      have h1 : (leafDepths t 0).map (fun p => (tblFind charMap p.1).getD 0) =
          ((leafDepths t 0).map Prod.fst).map (fun c => (tblFind charMap c).getD 0) := by
        rw [List.map_map]
        rfl
      have h2 : charMap.map Prod.snd =
          (charMap.map Prod.fst).map (fun c => (tblFind charMap c).getD 0) := by
        rw [List.map_map]
        apply List.map_congr_left
        intro kv hkv
        have : tblFind charMap kv.1 = some kv.2 := tblFind_of_mem_nodup hnd hkv
        simp [this]
      rw [h1, h2]
      exact hperm'.map _)
    (by
      rw [Multiset.map_coe, hA2]
      simpa using hreal)
  rw [weightedPathLength_eq charMap t hnd hperm]
  have : assignCost (A : Multiset (Int × Nat)) = (A.map (fun p => p.1 * (p.2 : Int))).sum := by
    simp [assignCost]
  rw [this] at hopt
  exact le_trans hopt hA3

/-- The weighted path length of a tree the program built, whose leaves are the
entries of the table, is its `pathCost`. -/
theorem weightedPathLength_of_leaves (charMap : CharMap) (hnd : (charMap.map Prod.fst).Nodup)
    (t : node) (hperm : (leafList t).Perm charMap) :
    weightedPathLength charMap t = pathCost t 0 := by
  rw [weightedPathLength_eq charMap _ hnd (hperm.map Prod.fst)]
  refine sum_leafDepths_eq_pathCost (fun c => (tblFind charMap c).getD 0) _ 0 ?_
  intro kv hkv
  have : tblFind charMap kv.1 = some kv.2 := tblFind_of_mem_nodup hnd (hperm.mem_iff.1 hkv)
  simp [this]

/-- The depth of a symbol in a tree the program built is the length of its
codeword. -/
theorem depthOf_eq_length_of_tree {t : node} (hp : Proper t) (charMap : CharMap)
    (hperm : (leafList t).Perm charMap) (hnd : (charMap.map Prod.fst).Nodup) (c : Nat)
    (w : List Char) (h : tblFind (encodeData t [] []) c = some w) :
    depthOf t c = w.length := by
  have hmem := (mem_leafDepths_of_labels hp [] w c (mem_labels_of_encodeData h)).1
  have hnd' : ((leafDepths t 0).map Prod.fst).Nodup := by
    rw [map_fst_leafDepths]
    exact (hperm.map Prod.fst).nodup_iff.2 hnd
  have := tblFind_of_mem_nodup hnd' hmem
  simp [depthOf, this]

/-- In a tree the program built from leaves of counts that are not negative,
the count of every node that is not a leaf is the sum of the counts of the
leaves below it: it is not negative and no more than the count of the root. -/
theorem internalNodes_count_le {t : node} (hp : Proper t)
    (hpos : ∀ kv ∈ leafList t, 0 ≤ kv.2) :
    0 ≤ t.count ∧ ∀ n ∈ internalNodes t, 0 ≤ n.count ∧ n.count ≤ t.count := by
  induction hp with
  | leaf c count =>
    rw [leafList_newLeaf] at hpos
    refine ⟨by simpa [newLeaf_eq, node.count] using hpos (c, count) (by simp), ?_⟩
    rw [internalNodes_newLeaf]
    intro n hn
    cases hn
  | inner l r hl hr ihl ihr =>
    rw [leafList_node_new hl] at hpos
    obtain ⟨h1, h2⟩ := ihl (fun kv hkv => hpos kv (List.mem_append_left _ hkv))
    obtain ⟨h3, h4⟩ := ihr (fun kv hkv => hpos kv (List.mem_append_right _ hkv))
    rw [count_node_new hl hr]
    refine ⟨by omega, ?_⟩
    intro n hn
    rw [internalNodes_node_new hl] at hn
    rcases List.mem_cons.1 hn with h | h
    · rw [h, count_node_new hl hr]
      omega
    · rcases List.mem_append.1 h with h | h
      · have := h2 n h
        omega
      · have := h4 n h
        omega

/-! # The properties -/

/-! ## C1 -/

set_option maxRecDepth 10000 in
/-- C1 as stated fails, at inputs for which a container is written. The input
of 12 bytes `a`, the byte 13, `bb` and 13 bytes `a` decodes to its first 12
bytes: the loop stops at the 13 of the data. The input of 31 bytes `a` and two
bytes 0 decodes to the 31 bytes `a`: the byte 0 has no codeword. The input of
25 bytes `a` decodes to 24 of them: its last bit and the codeword of 13 are
replaced by a zero byte (the defect of C2). In each case the run of the
`-unhuff` path ends within 5 iterations, so that with no amount of fuel it
outputs the input. -/
theorem roundtrip_fails :
    (encode x86_64 (List.replicate 12 97 ++ [13, 98, 98] ++ List.replicate 13 97) =
        .written [21, 196, 4, 0, 3, 0, 0, 0, 13, 1, 0, 0, 0, 97, 25, 0, 0, 0, 98, 2, 0, 0, 0,
          255, 241, 127, 254, 0] ∧
      decode x86_64 ⟨[], [], 0, [], 0⟩ 5
        [21, 196, 4, 0, 3, 0, 0, 0, 13, 1, 0, 0, 0, 97, 25, 0, 0, 0, 98, 2, 0, 0, 0,
          255, 241, 127, 254, 0] = some (.output (List.replicate 12 97)) ∧
      ∀ fuel, decode x86_64 ⟨[], [], 0, [], 0⟩ fuel
        [21, 196, 4, 0, 3, 0, 0, 0, 13, 1, 0, 0, 0, 97, 25, 0, 0, 0, 98, 2, 0, 0, 0,
          255, 241, 127, 254, 0] ≠
        some (.output (List.replicate 12 97 ++ [13, 98, 98] ++ List.replicate 13 97))) ∧
    (encode x86_64 (List.replicate 31 97 ++ [0, 0]) =
        .written [21, 196, 4, 0, 3, 0, 0, 0, 0, 2, 0, 0, 0, 13, 1, 0, 0, 0, 97, 31, 0, 0, 0,
          255, 255, 255, 254, 0] ∧
      decode x86_64 ⟨[], [], 0, [], 0⟩ 5
        [21, 196, 4, 0, 3, 0, 0, 0, 0, 2, 0, 0, 0, 13, 1, 0, 0, 0, 97, 31, 0, 0, 0,
          255, 255, 255, 254, 0] = some (.output (List.replicate 31 97)) ∧
      ∀ fuel, decode x86_64 ⟨[], [], 0, [], 0⟩ fuel
        [21, 196, 4, 0, 3, 0, 0, 0, 0, 2, 0, 0, 0, 13, 1, 0, 0, 0, 97, 31, 0, 0, 0,
          255, 255, 255, 254, 0] ≠ some (.output (List.replicate 31 97 ++ [0, 0]))) ∧
    (encode x86_64 (List.replicate 25 97) =
        .written [21, 196, 4, 0, 2, 0, 0, 0, 13, 1, 0, 0, 0, 97, 25, 0, 0, 0, 255, 255, 255, 0] ∧
      decode x86_64 ⟨[], [], 0, [], 0⟩ 5
        [21, 196, 4, 0, 2, 0, 0, 0, 13, 1, 0, 0, 0, 97, 25, 0, 0, 0, 255, 255, 255, 0] =
          some (.output (List.replicate 24 97)) ∧
      ∀ fuel, decode x86_64 ⟨[], [], 0, [], 0⟩ fuel
        [21, 196, 4, 0, 2, 0, 0, 0, 13, 1, 0, 0, 0, 97, 25, 0, 0, 0, 255, 255, 255, 0] ≠
          some (.output (List.replicate 25 97))) := by
  have key : ∀ (c I J : List Nat), decode x86_64 ⟨[], [], 0, [], 0⟩ 5 c = some (.output J) →
      J ≠ I → ∀ fuel, decode x86_64 ⟨[], [], 0, [], 0⟩ fuel c ≠ some (.output I) := by
    intro c I J h hne fuel hI
    rcases decode_stable _ _ 5 fuel c _ h with h' | h'
    · rw [h'] at hI
      exact hne (DecodeResult.output.inj (Option.some.inj hI))
    · rw [h'] at hI
      cases hI
  refine ⟨⟨by decide, by decide, key _ _ (List.replicate 12 97) (by decide) (by decide)⟩,
    ⟨by decide, by decide, key _ _ (List.replicate 31 97) (by decide) (by decide)⟩,
    ⟨by decide, by decide, key _ _ (List.replicate 24 97) (by decide) (by decide)⟩⟩

/-- C1, amended. Round trip, whatever the order in which the queue hands out
nodes of equal count: for every input of bytes, shorter than 2^31 - 1, that
holds neither the byte 13 nor the byte 0, for which the `-huff` path writes a
container, and at the end of whose content loop the pending string
`encodString` (line 398) has at most 8 characters and, together with the
codeword of 13, more than 8 and at most 16, the `-unhuff` path run on that
container (with `ch` not starting at 13, and one loop iteration allowed per
byte of the container) ends and outputs exactly the input. -/
theorem roundtrip (Q : PriorityQueue) (hQ : Q.Lawful) (P : Platform) (g : Indet) (fuel : Nat)
    (input container : List Nat)
    (hbytes : ∀ b ∈ input, b < 256) (hno13 : ∀ b ∈ input, b ≠ eofChar)
    (hno0 : ∀ b ∈ input, b ≠ 0) (hlen : input.length < 2147483647)
    (hw : Q.encode P input = .written container)
    (h8 : (Q.contentState P input).encodString.length ≤ 8)
    (hgt : 8 < (Q.contentState P input).encodString.length + (Q.eofString P input).length)
    (hle : (Q.contentState P input).encodString.length + (Q.eofString P input).length ≤ 16)
    (hch : g.ch ≠ eofChar) (hfuel : container.length ≤ fuel) :
    Q.decode P g fuel container = some (.output input) := by
  have h := Q.decode_of_encode hQ P g fuel input container [] hbytes hlen hw h8 hgt hle hch hfuel
  have h1 : input.takeWhile (fun b => decide (b ≠ eofChar)) = input := by
    rw [List.takeWhile_eq_self_iff]
    intro b hb
    simpa using hno13 b hb
  have h2 : input.filter (fun b => decide (b ≠ 0)) = input := by
    rw [List.filter_eq_self]
    intro b hb
    simpa using hno0 b hb
  rw [List.append_nil, h1, h2] at h
  exact h

set_option maxRecDepth 10000 in
/-- C1 amended, at the input of 27 bytes `a` and `bb`, in which no two nodes
of equal count meet, with the queue of `pqPush`: the pending string at the
end is `1110101`, the codeword of 13 is `00`, and the container decodes to
the input. -/
theorem roundtrip_witness :
    listQueue.encode x86_64 (List.replicate 27 97 ++ [98, 98]) =
      .written [21, 196, 4, 0, 3, 0, 0, 0, 13, 1, 0, 0, 0, 97, 27, 0, 0, 0, 98, 2, 0, 0, 0,
        255, 255, 255, 234, 0] ∧
    (listQueue.contentState x86_64 (List.replicate 27 97 ++ [98, 98])).encodString =
      ['1', '1', '1', '0', '1', '0', '1'] ∧
    listQueue.eofString x86_64 (List.replicate 27 97 ++ [98, 98]) = ['0', '0'] ∧
    listQueue.decode x86_64 ⟨[], [], 0, [], 0⟩ 28
      [21, 196, 4, 0, 3, 0, 0, 0, 13, 1, 0, 0, 0, 97, 27, 0, 0, 0, 98, 2, 0, 0, 0,
        255, 255, 255, 234, 0] = some (.output (List.replicate 27 97 ++ [98, 98])) :=
  ⟨by decide, by decide, by decide,
    roundtrip listQueue listQueue_lawful x86_64 ⟨[], [], 0, [], 0⟩ 28
      (List.replicate 27 97 ++ [98, 98]) _
      (by decide) (by decide) (by decide) (by decide) (by decide) (by decide) (by decide)
      (by decide) (by decide) (by decide)⟩

/-! ## C2 -/

set_option maxRecDepth 10000 in
/-- C2 fails at the input of 25 bytes `a`, for which a container is written:
the bitstream of the codewords is 25 times `1` (the codeword of `a`) then `0`
(the codeword of 13), whose MSB-first grouping is `FF FF FF 80`, while the
payload written after the frequency entries is `FF FF FF 00`. -/
theorem payload_fails_a25 :
    encode x86_64 (List.replicate 25 97) =
      .written (headerBytes x86_64 (buildCharMap x86_64 (List.replicate 25 97)) ++
        [255, 255, 255, 0]) ∧
    (packAll x86_64 (List.replicate 25 97)).out = [255, 255, 255, 0] ∧
    specBitstream x86_64 (List.replicate 25 97) = List.replicate 25 '1' ++ ['0'] ∧
    specPack (specBitstream x86_64 (List.replicate 25 97)) = [255, 255, 255, 128] := by
  decide

/-! ## C3 -/

/-- C3. Unpacker: let `T` be a prefix-free Codeword->Symbol table of binary
codewords in which the sentinel 13 has the non-empty codeword `cw 13`, and
`syms` non-sentinel symbols with codewords `cw s` in `T`. On a payload that
starts with the MSB-first packing of `cw s1 ++ ... ++ cw sn ++ cw 13` with
zero padding, whatever bytes `extra` follow, the decode loop, entered with
`ch` other than the sentinel and allowed one iteration per packed byte, ends
and has emitted exactly `syms`: it stops at the sentinel, and neither the
padding nor the bytes after it are interpreted. -/
theorem unpack_emits_symbols (T : List (List Char × Nat)) (cw : Nat → List Char)
    (syms : List Nat) (ch fuel : Nat) (extra : List Nat)
    (hpf : ∀ w1 ∈ T.map Prod.fst, ∀ w2 ∈ T.map Prod.fst, w1 <+: w2 → w1 = w2)
    (hbin : ∀ w ∈ T.map Prod.fst, ∀ b ∈ w, b = '0' ∨ b = '1')
    (heof : tblFind T (cw eofChar) = some eofChar) (hne : cw eofChar ≠ [])
    (hsyms : ∀ s ∈ syms, s ≠ eofChar ∧ tblFind T (cw s) = some s)
    (hch : ch ≠ eofChar)
    (hfuel : (specPack (syms.flatMap cw ++ cw eofChar)).length ≤ fuel) :
    unpack T ch fuel ⟨specPack (syms.flatMap cw ++ cw eofChar) ++ extra, true⟩ = some syms := by
  have hbits : ∀ b ∈ syms.flatMap cw ++ cw eofChar, b = '0' ∨ b = '1' := by
    intro b hb
    rw [List.mem_append, List.mem_flatMap] at hb
    rcases hb with ⟨s, hs, hb⟩ | hb
    · exact hbin _ (List.mem_map_of_mem Prod.fst (tblFind_mem (hsyms s hs).2)) b hb
    · exact hbin _ (List.mem_map_of_mem Prod.fst (tblFind_mem heof)) b hb
  obtain ⟨pad, hpad⟩ := bits_specPackAux (syms.flatMap cw ++ cw eofChar).length
    (syms.flatMap cw ++ cw eofChar) (Nat.le_refl _) hbits
  exact unpack_of_bits T cw syms ch fuel _ extra pad hpf heof hne hsyms hch hpad hfuel

/-- C3 at the table `0 -> 13`, `1 -> 'a'` and the symbols `aaa`: the payload
is the byte `E0` (bits `1110`, then padding), followed here by a byte `FF`
that is never read. -/
theorem unpack_emits_symbols_witness :
    specPack ([97, 97, 97].flatMap (fun s => if s = 13 then ['0'] else ['1']) ++ ['0']) = [224] ∧
    unpack [(['0'], 13), (['1'], 97)] 0 1 ⟨[224] ++ [255], true⟩ = some [97, 97, 97] :=
  ⟨by decide,
    unpack_emits_symbols [(['0'], 13), (['1'], 97)] (fun s => if s = 13 then ['0'] else ['1'])
      [97, 97, 97] 0 1 [255] (by decide) (by decide) (by decide) (by decide) (by decide)
      (by decide) (by decide)⟩

/-! ## C4 -/

set_option maxRecDepth 10000 in
/-- C4 as stated fails at the input of 21 bytes `a`: the computed size is 21,
which is not smaller than the input length 21, and the container is written. -/
theorem guard_writes_at_equal_size :
    numByteComp x86_64 (List.replicate 21 97) = 21 ∧
    (List.replicate 21 97).length = 21 ∧
    ¬ numByteComp x86_64 (List.replicate 21 97) < (List.replicate 21 97).length ∧
    encode x86_64 (List.replicate 21 97) =
      .written [21, 196, 4, 0, 2, 0, 0, 0, 13, 1, 0, 0, 0, 97, 21, 0, 0, 0, 255, 255, 0] := by
  decide

/-- C4, amended. Compression guard threshold: for every input, encode writes a
container if and only if the size it computed (`numByteComp`) is smaller than
or equal to the input length (`numByteOrig`); whenever the computed size is
strictly greater than the input length, compression is abandoned and nothing
is written. -/
theorem guard_threshold (P : Platform) (input : List Nat) :
    ((∃ bytes, encode P input = .written bytes) ↔ numByteComp P input ≤ input.length) ∧
    (input.length < numByteComp P input ↔ encode P input = .abandoned) := by
  unfold encode
  by_cases h : numByteComp P input > input.length
  · rw [if_pos h]
    refine ⟨⟨?_, ?_⟩, ⟨fun _ => rfl, fun _ => h⟩⟩
    · rintro ⟨bytes, hb⟩
      cases hb
    · intro hle
      omega
  · rw [if_neg h]
    refine ⟨⟨fun _ => by omega, fun _ => ⟨_, rfl⟩⟩, ⟨fun hlt => absurd hlt h, ?_⟩⟩
    intro hb
    cases hb

/-! ## C5 -/

set_option maxRecDepth 10000 in
/-- C5 fails at the input of 24 bytes `a`: the size computed before writing is
21 (8 + 2 * 5 + 3), and the container then written has 22 bytes, the byte
that carries the codeword of 13 not having been counted. -/
theorem guard_size_off_a24 :
    numByteComp x86_64 (List.replicate 24 97) = 21 ∧
    encode x86_64 (List.replicate 24 97) =
      .written [21, 196, 4, 0, 2, 0, 0, 0, 13, 1, 0, 0, 0, 97, 24, 0, 0, 0, 255, 255, 255, 0] ∧
    ([21, 196, 4, 0, 2, 0, 0, 0, 13, 1, 0, 0, 0, 97, 24, 0, 0, 0, 255, 255, 255, 0] :
      List Nat).length = 22 := by
  decide

/-! ## C6 -/

/-- C6. Header validation: for every container whose first 4 bytes, read as a
native 4-byte integer, are not 312341, the `-unhuff` path ends with the
not-encoded outcome, in which the destination is never opened or written. -/
theorem decode_rejects_bad_magic (P : Platform) (g : Indet) (fuel : Nat) (container : List Nat)
    (hlen : 4 ≤ container.length) (hmagic : bytesInt P (container.take 4) ≠ magicNum) :
    decode P g fuel container = some .notEncoded := by
  unfold decode
  rw [IStream.read_good _ _ _ hlen]
  exact if_pos hmagic

/-- C6 at a file that starts with the integer 312340 instead of 312341. -/
theorem decode_rejects_bad_magic_witness :
    4 ≤ ([20, 196, 4, 0, 2, 0, 0, 0, 13, 1, 0, 0, 0, 97, 25, 0, 0, 0, 255] : List Nat).length ∧
    bytesInt x86_64 (([20, 196, 4, 0, 2, 0, 0, 0, 13, 1, 0, 0, 0, 97, 25, 0, 0, 0, 255] :
      List Nat).take 4) = 312340 ∧
    decode x86_64 ⟨[], [], 0, [], 0⟩ 5
      [20, 196, 4, 0, 2, 0, 0, 0, 13, 1, 0, 0, 0, 97, 25, 0, 0, 0, 255] = some .notEncoded :=
  ⟨by decide, by decide,
    decode_rejects_bad_magic x86_64 ⟨[], [], 0, [], 0⟩ 5
      [20, 196, 4, 0, 2, 0, 0, 0, 13, 1, 0, 0, 0, 97, 25, 0, 0, 0, 255] (by decide) (by decide)⟩

/-! ## C7 -/

/-- C7. Prefix-free: for every frequency table, in the Symbol->Codeword table
that `encodeData` derives from the tree built for it, the codeword of a symbol
is never the beginning of the codeword of a different symbol. -/
theorem encodeTable_prefix_free (charMap : CharMap) (c1 c2 : Nat) (w1 w2 : List Char)
    (h1 : tblFind (encodeData (buildTree charMap) [] []) c1 = some w1)
    (h2 : tblFind (encodeData (buildTree charMap) [] []) c2 = some w2)
    (hne : c1 ≠ c2) : ¬ w1 <+: w2 := by
  exact encode_not_isPrefix charMap c1 c2 w1 w2 h1 h2 hne

/-- C7 at the table of the input `aabbbb`: the codeword `01` of `a` is not the
beginning of the codeword `1` of `b`. -/
theorem encodeTable_prefix_free_witness :
    tblFind (encodeData (buildTree (buildCharMap x86_64 [97, 97, 98, 98, 98, 98])) [] []) 97
      = some ['0', '1'] ∧
    tblFind (encodeData (buildTree (buildCharMap x86_64 [97, 97, 98, 98, 98, 98])) [] []) 98
      = some ['1'] ∧
    ¬ (['0', '1'] : List Char) <+: ['1'] :=
  ⟨by decide, by decide,
    encodeTable_prefix_free (buildCharMap x86_64 [97, 97, 98, 98, 98, 98]) 97 98 _ _
      (by decide) (by decide) (by decide)⟩

/-! ## C8 -/

/-- C8 as stated fails: the table of the input of five NUL bytes has the two
entries 0 and 13, and `encodeData` derives no codeword for the symbol 0. -/
theorem encodeTable_misses_nul :
    buildCharMap x86_64 [0, 0, 0, 0, 0] = [(0, 5), (13, 1)] ∧
    tblFind (encodeData (buildTree (buildCharMap x86_64 [0, 0, 0, 0, 0])) [] []) 0 = none := by
  decide

/-- C8, amended. For every frequency table, the Symbol->Codeword table derived
from its tree has an entry for every symbol of the frequency table other than
the byte 0, and distinct symbols receive distinct codewords. -/
theorem encodeTable_entries (charMap : CharMap) :
    (∀ c ∈ charMap.map Prod.fst, c ≠ 0 →
      ∃ w, tblFind (encodeData (buildTree charMap) [] []) c = some w) ∧
    (∀ c1 c2 w1 w2, tblFind (encodeData (buildTree charMap) [] []) c1 = some w1 →
      tblFind (encodeData (buildTree charMap) [] []) c2 = some w2 → c1 ≠ c2 → w1 ≠ w2) := by
  refine ⟨fun c hc hc0 => encode_entry_of_key charMap c hc hc0, ?_⟩
  intro c1 c2 w1 w2 h1 h2 hne heq
  exact encode_not_isPrefix charMap c1 c2 w1 w2 h1 h2 hne (heq ▸ List.prefix_refl _)

/-! ## C9 -/

/-- C9 as stated fails: for the empty input the table has the single entry 13,
the tree is a single leaf, and the codeword derived for 13 is empty. -/
theorem encodeTable_empty_input :
    encodeTableOf x86_64 [] = [(13, [])] ∧
    tblFind (encodeTableOf x86_64 []) 13 = some [] ∧
    ¬ 1 ≤ ([] : List Char).length := by
  decide

/-- C9, amended. For every input that holds at least one byte other than 13,
every codeword in the table that `encodeData` derives has length at least 1. -/
theorem encodeTable_codeword_nonempty (P : Platform) (input : List Nat) (b : Nat)
    (hb : b ∈ input) (hne : b ≠ eofChar) (c : Nat) (w : List Char)
    (h : tblFind (encodeTableOf P input) c = some w) : 1 ≤ w.length := by
  exact encode_codeword_ne_nil _ (two_le_length_buildCharMap P input b hb hne) c w h

/-- C9 amended, at the input `aa`: the codeword of `a` is `1`. -/
theorem encodeTable_codeword_nonempty_witness :
    (97 : Nat) ∈ [97, 97] ∧ (97 : Nat) ≠ eofChar ∧
    tblFind (encodeTableOf x86_64 [97, 97]) 97 = some ['1'] ∧
    1 ≤ (['1'] : List Char).length :=
  ⟨by decide, by decide, by decide,
    encodeTable_codeword_nonempty x86_64 [97, 97] 97 (by decide) (by decide) 97 _ (by decide)⟩

/-! ## C10 -/

/-- C10. Both directions agree: for every tree built from a frequency table
(a map: no key twice), `encodeTable[c] = w` if and only if `dencodeTable[w] = c`. -/
theorem tables_inverse (charMap : CharMap) (hnd : (charMap.map Prod.fst).Nodup)
    (c : Nat) (w : List Char) :
    tblFind (encodeData (buildTree charMap) [] []) c = some w ↔
      tblFind (dencodeData (buildTree charMap) [] []) w = some c := by
  exact encode_iff_dencode charMap hnd c w

/-- C10 at the table of the input `aabbbb`: `a` has the codeword `01`, and `01`
decodes to `a`. -/
theorem tables_inverse_witness :
    ((buildCharMap x86_64 [97, 97, 98, 98, 98, 98]).map Prod.fst).Nodup ∧
    (tblFind (encodeData (buildTree (buildCharMap x86_64 [97, 97, 98, 98, 98, 98])) [] []) 97
        = some ['0', '1'] ↔
      tblFind (dencodeData (buildTree (buildCharMap x86_64 [97, 97, 98, 98, 98, 98])) [] [])
        ['0', '1'] = some 97) ∧
    tblFind (dencodeData (buildTree (buildCharMap x86_64 [97, 97, 98, 98, 98, 98])) [] [])
        ['0', '1'] = some 97 :=
  ⟨by decide,
    tables_inverse (buildCharMap x86_64 [97, 97, 98, 98, 98, 98]) (by decide) 97 ['0', '1'],
    by decide⟩

/-! ## C11 -/

/-- C11. Frequency table: for every input of bytes, the table built by encode
has as keys exactly the byte values occurring in the input together with the
sentinel 13, each exactly once; every byte value of the input other than 13
maps to its number of occurrences in the input; 13 maps to 1 when it does not
occur in the input (and to its number of occurrences when it does); and
every count is strictly positive. -/
theorem charMap_spec (P : Platform) (input : List Nat) (hbytes : ∀ b ∈ input, b < 256) :
    (∀ x, x ∈ (buildCharMap P input).map Prod.fst ↔ x = eofChar ∨ x ∈ input) ∧
    ((buildCharMap P input).map Prod.fst).Nodup ∧
    (∀ b ∈ input, b ≠ eofChar →
      tblFind (buildCharMap P input) b = some (input.count b : Int)) ∧
    (eofChar ∉ input → tblFind (buildCharMap P input) eofChar = some 1) ∧
    (eofChar ∈ input →
      tblFind (buildCharMap P input) eofChar = some (input.count eofChar : Int)) ∧
    (∀ e ∈ buildCharMap P input, 0 < e.2) := by
  refine ⟨mem_keys_buildCharMap P input,
    nodup_keys_of_sorted P _ (sorted_buildCharMap P input hbytes), ?_, ?_, ?_, ?_⟩
  · intro b hb hne
    unfold buildCharMap
    rw [tblFind_mapInsert_ne P _ eofChar 1 b hne]
    exact tblFind_scan P input b hb
  · intro h13
    unfold buildCharMap
    exact tblFind_mapInsert_absent P _ eofChar 1 (tblFind_scan_absent P input eofChar h13)
  · intro h13
    unfold buildCharMap
    rw [mapInsert_of_mem P _ eofChar 1
      (sorted_foldl_countChar P input [] List.Pairwise.nil (by simp) hbytes)
      ((mem_keys_foldl_countChar P input [] eofChar).2 (Or.inl h13))]
    exact tblFind_scan P input eofChar h13
  · intro e he
    have := (count_bounds_buildCharMap P input e he).1
    omega

/-- C11 at the input `abca` followed by the byte 200: the table, in the order
of signed `char`, is `{200: 1, 13: 1, 'a': 2, 'b': 1, 'c': 1}`. -/
theorem charMap_spec_witness :
    (∀ b ∈ ([97, 98, 99, 97, 200] : List Nat), b < 256) ∧
    buildCharMap x86_64 [97, 98, 99, 97, 200] = [(200, 1), (13, 1), (97, 2), (98, 1), (99, 1)] ∧
    tblFind (buildCharMap x86_64 [97, 98, 99, 97, 200]) 97 = some 2 ∧
    tblFind (buildCharMap x86_64 [97, 98, 99, 97, 200]) eofChar = some 1 :=
  ⟨by decide, by decide,
    (charMap_spec x86_64 [97, 98, 99, 97, 200] (by decide)).2.2.1 97 (by decide) (by decide),
    (charMap_spec x86_64 [97, 98, 99, 97, 200] (by decide)).2.2.2.1 (by decide)⟩

/-! ## C12 -/

set_option maxRecDepth 10000 in
/-- C12 as stated fails on x86-64 at the input of 27 bytes `a` and two bytes
200, for which a container is written: `char` is signed there, so the entry
of the byte 200 comes first, before those of 13 and of `a`. -/
theorem entries_not_ascending :
    encode x86_64 (List.replicate 27 97 ++ [200, 200]) =
      .written [21, 196, 4, 0, 3, 0, 0, 0, 200, 2, 0, 0, 0, 13, 1, 0, 0, 0, 97, 27, 0, 0, 0,
        255, 255, 255, 234, 0] ∧
    (buildCharMap x86_64 (List.replicate 27 97 ++ [200, 200])).map Prod.fst = [200, 13, 97] ∧
    ¬ (200 : Nat) < 13 := by
  decide

/-- C12, amended. Container layout: for every input of bytes, shorter than
2^31 - 1, for which encode writes a container, the output is the 4-byte
integer 312341, then the 4-byte integer N equal to the number of
frequency-table entries, then N entries of 5 bytes each (1 symbol byte
followed by its 4-byte count) in ascending order of the symbols as values of
the type `char`, which is ascending byte order when `char` is unsigned or
every byte of the input is below 128, then the payload bytes; so the payload
starts at offset 8 + 5N. -/
theorem container_layout (P : Platform) (input container : List Nat)
    (hbytes : ∀ b ∈ input, b < 256) (hlen : input.length < 2147483647)
    (hw : encode P input = .written container) :
    container = intBytes P magicNum ++ intBytes P ((buildCharMap P input).length : Int) ++
      (buildCharMap P input).flatMap (fun kv => kv.1 :: intBytes P kv.2) ++
      (packAll P input).out ∧
    (intBytes P magicNum).length = 4 ∧ bytesInt P (intBytes P magicNum) = 312341 ∧
    (intBytes P ((buildCharMap P input).length : Int)).length = 4 ∧
    bytesInt P (intBytes P ((buildCharMap P input).length : Int)) =
      ((buildCharMap P input).length : Int) ∧
    (∀ kv ∈ buildCharMap P input, (kv.1 :: intBytes P kv.2).length = 5 ∧ kv.1 < 256 ∧
      bytesInt P (intBytes P kv.2) = kv.2) ∧
    ((buildCharMap P input).flatMap (fun kv => kv.1 :: intBytes P kv.2)).length =
      5 * (buildCharMap P input).length ∧
    (buildCharMap P input).Pairwise (fun a b => charVal P a.1 < charVal P b.1) ∧
    ((P.charSigned = false ∨ ∀ b ∈ input, b < 128) →
      (buildCharMap P input).Pairwise (fun a b => a.1 < b.1)) ∧
    container.drop (8 + 5 * (buildCharMap P input).length) = (packAll P input).out := by
  have hcont := encode_written P input container hw
  have hsorted := sorted_buildCharMap P input hbytes
  have hrange := count_range_buildCharMap P input hlen
  have hN := length_buildCharMap_le P input
  refine ⟨hcont, intBytes_length P _, bytesInt_intBytes P _ (by decide) (by decide),
    intBytes_length P _, bytesInt_intBytes P _ (by omega) (by omega), ?_, length_entries P _,
    hsorted, ?_, ?_⟩
  · intro kv hkv
    refine ⟨?_, keys_lt_buildCharMap P input hbytes kv hkv,
      bytesInt_intBytes P _ (hrange kv hkv).1 (hrange kv hkv).2⟩
    rw [List.length_cons, intBytes_length]
  · intro hP
    refine hsorted.imp_of_mem ?_
    intro a b ha hb hab
    have hkey : ∀ e ∈ buildCharMap P input, P.charSigned = false ∨ e.1 < 128 := by
      intro e he
      rcases hP with h | h
      · exact Or.inl h
      · rcases (mem_keys_buildCharMap P input e.1).1 (List.mem_map_of_mem Prod.fst he) with h' | h'
        · right
          rw [h']
          decide
        · exact Or.inr (h e.1 h')
    rw [charVal_of_lt P a.1 (hkey a ha), charVal_of_lt P b.1 (hkey b hb)] at hab
    exact_mod_cast hab
  · rw [hcont, ← length_headerBytes P, List.drop_left]

set_option maxRecDepth 10000 in
/-- C12 amended, at the input of 27 bytes `a` and `bb` on x86-64: N is 3, the
entries are those of 13, `a` and `b`, and the payload starts at offset 23. -/
theorem container_layout_witness :
    encode x86_64 (List.replicate 27 97 ++ [98, 98]) =
      .written ([21, 196, 4, 0] ++ [3, 0, 0, 0] ++
        [13, 1, 0, 0, 0, 97, 27, 0, 0, 0, 98, 2, 0, 0, 0] ++ [255, 255, 255, 234, 0]) ∧
    ([21, 196, 4, 0, 3, 0, 0, 0, 13, 1, 0, 0, 0, 97, 27, 0, 0, 0, 98, 2, 0, 0, 0,
        255, 255, 255, 234, 0] : List Nat).drop
      (8 + 5 * (buildCharMap x86_64 (List.replicate 27 97 ++ [98, 98])).length) =
      (packAll x86_64 (List.replicate 27 97 ++ [98, 98])).out :=
  ⟨by decide,
    (container_layout x86_64 (List.replicate 27 97 ++ [98, 98])
      [21, 196, 4, 0, 3, 0, 0, 0, 13, 1, 0, 0, 0, 97, 27, 0, 0, 0, 98, 2, 0, 0, 0,
        255, 255, 255, 234, 0] (by decide) (by decide) (by decide)).2.2.2.2.2.2.2.2.2⟩

/-! ## C13 -/

/-- C13. Decoder reproduces the encoder's tree: for every input of bytes,
shorter than 2^31 - 1, for which encode writes a container, the frequency
table decode parses from that container equals the table encode built (same
symbols, same counts, same order), the stream is then positioned at the
payload, and the tree decode builds from the table is the tree encode built. -/
theorem decode_rebuilds_tree (P : Platform) (g : Indet) (input container : List Nat)
    (hbytes : ∀ b ∈ input, b < 256) (hlen : input.length < 2147483647)
    (hw : encode P input = .written container) :
    bytesInt P (IStream.read ⟨container, true⟩ 4 g.firstNum).1 = magicNum ∧
    decodeCharMap P g container = buildCharMap P input ∧
    (readCharMap P g (IStream.read ⟨container, true⟩ 4 g.firstNum).2).2 =
      ⟨(packAll P input).out, true⟩ ∧
    buildTree (decodeCharMap P g container) = buildTree (buildCharMap P input) := by
  have hcont := encode_written P input container hw
  have hN := length_buildCharMap_le P input
  have hread := readCharMap_headerBytes P g (buildCharMap P input) (packAll P input).out
    (sorted_buildCharMap P input hbytes) (by omega) (count_range_buildCharMap P input hlen)
  have hmap : decodeCharMap P g container = buildCharMap P input := by
    unfold decodeCharMap
    rw [hcont, hread]
  refine ⟨?_, hmap, ?_, by rw [hmap]⟩
  · rw [hcont]
    unfold headerBytes
    simp only [List.append_assoc]
    rw [IStream.read_good _ _ _ (by simp [intBytes_length])]
    simp only [List.take_left' (intBytes_length P magicNum)]
    exact bytesInt_intBytes P magicNum (by decide) (by decide)
  · rw [hcont, hread]

set_option maxRecDepth 10000 in
/-- C13 at the input of 27 bytes `a` and `bb` on x86-64: the table read back is
`{13: 1, 'a': 27, 'b': 2}`. -/
theorem decode_rebuilds_tree_witness :
    buildCharMap x86_64 (List.replicate 27 97 ++ [98, 98]) = [(13, 1), (97, 27), (98, 2)] ∧
    decodeCharMap x86_64 ⟨[], [], 0, [], 0⟩
      [21, 196, 4, 0, 3, 0, 0, 0, 13, 1, 0, 0, 0, 97, 27, 0, 0, 0, 98, 2, 0, 0, 0,
        255, 255, 255, 234, 0] = buildCharMap x86_64 (List.replicate 27 97 ++ [98, 98]) :=
  ⟨by decide,
    (decode_rebuilds_tree x86_64 ⟨[], [], 0, [], 0⟩ (List.replicate 27 97 ++ [98, 98])
      [21, 196, 4, 0, 3, 0, 0, 0, 13, 1, 0, 0, 0, 97, 27, 0, 0, 0, 98, 2, 0, 0, 0,
        255, 255, 255, 234, 0] (by decide) (by decide) (by decide)).2.1⟩

/-! ## C14 -/

/-- C14. Sentinel is never decoded content: for every container, whatever its
payload, no byte that the `-unhuff` path has emitted after any number of
loop iterations equals the sentinel value 13; when the loop ends, the output
is what has been emitted, so that it holds no byte 13 either. -/
theorem sentinel_never_emitted (P : Platform) (g : Indet) (fuel : Nat) (container : List Nat) :
    eofChar ∉ emitted P g fuel container ∧
    ∀ bytes, decode P g fuel container = some (.output bytes) →
      bytes = emitted P g fuel container ∧ eofChar ∉ bytes := by
  have hem : eofChar ∉ emitted P g fuel container := by
    unfold emitted
    simp only []
    split
    · simp
    · exact unpackRun_no_eof _ _ _ _ _ (by simp)
  refine ⟨hem, ?_⟩
  intro bytes hdec
  have heq : bytes = emitted P g fuel container := by
    unfold decode at hdec
    unfold emitted
    simp only [] at hdec ⊢
    split
    · rename_i hm
      rw [if_pos hm] at hdec
      cases hdec
    · rename_i hm
      rw [if_neg hm] at hdec
      unfold unpack at hdec
      simp only [] at hdec
      cases hres : unpackLoop (dencodeData (buildTree
          (readCharMap P g (IStream.read ⟨container, true⟩ 4 g.firstNum).2).1) [] []) fuel
          ((readCharMap P g (IStream.read ⟨container, true⟩ 4 g.firstNum).2).2.read 1 [0]).2
          (((readCharMap P g (IStream.read ⟨container, true⟩ 4 g.firstNum).2).2.read 1 [0]).1.headD
            0) ⟨g.ch, [], []⟩ with
      | none =>
        rw [hres] at hdec
        cases hdec
      | some out =>
        rw [hres] at hdec
        rw [unpackLoop_eq_run _ _ _ _ _ _ hres]
        exact (DecodeResult.output.inj (Option.some.inj hdec)).symm
  exact ⟨heq, heq ▸ hem⟩

/-! ## C15 -/

/-- C15. Inputs too short to shrink are abandoned: for every input of fewer
than 13 bytes, encode abandons compression and writes no container. -/
theorem short_input_abandoned (P : Platform) (input : List Nat) (h : input.length < 13) :
    encode P input = .abandoned := by
  have hne := buildCharMap_ne_nil P input
  have hpos : 0 < (buildCharMap P input).length := List.length_pos.2 hne
  have hcomp : 13 ≤ numByteComp P input := by
    unfold numByteComp
    omega
  unfold encode
  simp only []
  rw [if_pos (by omega)]

/-- C15 at the 4-byte input `aaaa`: the table is `{13: 1, 'a': 4}`, the two
codewords have length 1, the computed size is 19, and compression is abandoned. -/
theorem short_input_abandoned_witness :
    ([97, 97, 97, 97] : List Nat).length < 13 ∧
    buildCharMap x86_64 [97, 97, 97, 97] = [(13, 1), (97, 4)] ∧
    encodeTableOf x86_64 [97, 97, 97, 97] = [(13, ['0']), (97, ['1'])] ∧
    numByteComp x86_64 [97, 97, 97, 97] = 19 ∧
    encode x86_64 [97, 97, 97, 97] = .abandoned :=
  ⟨by decide, by decide, by decide, by decide,
    short_input_abandoned x86_64 [97, 97, 97, 97] (by decide)⟩

/-! ## C16 -/

set_option maxRecDepth 10000 in
/-- C16 as stated fails, at inputs for which a container is written. For the
input of 13 bytes 13 the table has the single entry 13, whose codeword is
empty: the loop never finds it and runs for ever. For the input `xx`, 20
bytes `a` and 22 bytes `b`, the last four bits and the codeword of 13 are
replaced by a zero byte (the defect of C2): past the end of the file the loop
reads that byte again and again, emitting `b` for ever. -/
theorem decode_diverges :
    (encode x86_64 (List.replicate 13 13) =
        .written [21, 196, 4, 0, 1, 0, 0, 0, 13, 13, 0, 0, 0, 0] ∧
      ∀ fuel, decode x86_64 ⟨[], [], 0, [], 0⟩ fuel
        [21, 196, 4, 0, 1, 0, 0, 0, 13, 13, 0, 0, 0, 0] = none) ∧
    (encode x86_64 ([120, 120] ++ List.replicate 20 97 ++ List.replicate 22 98) =
        .written [21, 196, 4, 0, 4, 0, 0, 0, 13, 1, 0, 0, 0, 97, 20, 0, 0, 0, 98, 22, 0, 0, 0,
          120, 2, 0, 0, 0, 183, 255, 255, 255, 255, 252, 0, 0, 0] ∧
      ∀ fuel, decode x86_64 ⟨[], [], 0, [], 0⟩ fuel
        [21, 196, 4, 0, 4, 0, 0, 0, 13, 1, 0, 0, 0, 97, 20, 0, 0, 0, 98, 22, 0, 0, 0,
          120, 2, 0, 0, 0, 183, 255, 255, 255, 255, 252, 0, 0, 0] = none) := by
  refine ⟨⟨by decide, ?_⟩, ⟨by decide, ?_⟩⟩
  · intro fuel
    rw [decode_encode x86_64 _ fuel (List.replicate 13 13) _ (by decide) (by decide) (by decide)]
    have hT : dencodeData (buildTree (buildCharMap x86_64 (List.replicate 13 13))) [] [] =
        [([], 13)] := by decide
    rw [hT]
    unfold unpack
    rw [unpackLoop_never [([], 13)] _ fuel _ _ _ (by decide)]
    · rfl
    · intro w hw
      cases w with
      | nil => exact absurd rfl hw
      | cons c rest => simp [tblFind]
  · intro fuel
    rw [decode_encode x86_64 _ fuel ([120, 120] ++ List.replicate 20 97 ++ List.replicate 22 98) _
      (by decide) (by decide) (by decide)]
    have hT : dencodeData (buildTree (buildCharMap x86_64
        ([120, 120] ++ List.replicate 20 97 ++ List.replicate 22 98))) [] [] =
        [(['0'], 98), (['1', '0', '0'], 13), (['1', '0', '1'], 120), (['1', '1'], 97)] := by
      decide
    have hP : (packAll x86_64 ([120, 120] ++ List.replicate 20 97 ++ List.replicate 22 98)).out =
        [183, 255, 255, 255, 255, 252, 0, 0, 0] := by decide
    rw [hT, hP]
    unfold unpack
    rw [IStream.read_good _ _ _ (by decide)]
    simp only [List.take_succ_cons, List.take_zero, List.drop_succ_cons, List.drop_zero,
      List.headD_cons]
    have hsteady : ∀ (fuel : Nat) (out : List Nat),
        unpackLoop [(['0'], 98), (['1', '0', '0'], 13), (['1', '0', '1'], 120), (['1', '1'], 97)]
          fuel ⟨[], false⟩ 0 ⟨98, [], out⟩ = none := by
      intro fuel
      induction fuel with
      | zero => intro out; rfl
      | succ fuel ih =>
        intro out
        have hb : byteToString 0 = ['0', '0', '0', '0', '0', '0', '0', '0'] := by decide
        have hs : scanBits
            [(['0'], 98), (['1', '0', '0'], 13), (['1', '0', '1'], 120), (['1', '1'], 97)]
            ['0', '0', '0', '0', '0', '0', '0', '0'] ⟨98, [], out⟩ =
            ⟨98, [], out ++ [98, 98, 98, 98, 98, 98, 98, 98]⟩ := by
          simp [scanBits, tblFind, eofChar]
        rw [unpackLoop_succ, hb, hs]
        simp only [eofChar, IStream.read]
        exact ih _
    have hrun : unpackRun
        [(['0'], 98), (['1', '0', '0'], 13), (['1', '0', '1'], 120), (['1', '1'], 97)] 9
        ⟨[255, 255, 255, 255, 252, 0, 0, 0], true⟩ 183 ⟨0, [], []⟩ =
        (⟨[], false⟩, 0, ⟨98, [],
          [120, 120] ++ List.replicate 20 97 ++ List.replicate 26 98⟩) := by decide
    have hdiv := unpackLoop_diverges
      [(['0'], 98), (['1', '0', '0'], 13), (['1', '0', '1'], 120), (['1', '1'], 97)] 9
      ⟨[255, 255, 255, 255, 252, 0, 0, 0], true⟩ 183 ⟨0, [], []⟩
      (by rw [hrun]; decide) (by rw [hrun]; exact fun fuel => hsteady fuel _) fuel
    rw [hdiv]
    rfl

/-- C16, amended. Decode terminates on encoder output, whatever the order in
which the queue hands out nodes of equal count: for every input of bytes,
shorter than 2^31 - 1, for which encode writes a container, and at the end of
whose content loop the pending string `encodString` (line 398) has at most 8
characters and, together with the codeword of 13, more than 8 and at most 16,
the unpacking loop run on that container (with `ch` not starting at 13)
reaches the sentinel and terminates within one iteration per byte of the
container; it reads nothing past the end of the payload (bytes appended to
the container change nothing), and its output is the bytes of the input
before the first 13, without the bytes 0. -/
theorem decode_terminates (Q : PriorityQueue) (hQ : Q.Lawful) (P : Platform) (g : Indet)
    (fuel : Nat) (input container extra : List Nat)
    (hbytes : ∀ b ∈ input, b < 256) (hlen : input.length < 2147483647)
    (hw : Q.encode P input = .written container)
    (h8 : (Q.contentState P input).encodString.length ≤ 8)
    (hgt : 8 < (Q.contentState P input).encodString.length + (Q.eofString P input).length)
    (hle : (Q.contentState P input).encodString.length + (Q.eofString P input).length ≤ 16)
    (hch : g.ch ≠ eofChar) (hfuel : container.length ≤ fuel) :
    Q.decode P g fuel (container ++ extra) =
      some (.output ((input.takeWhile (fun b => decide (b ≠ eofChar))).filter
        (fun b => decide (b ≠ 0)))) :=
  Q.decode_of_encode hQ P g fuel input container extra hbytes hlen hw h8 hgt hle hch hfuel

set_option maxRecDepth 10000 in
/-- C16 amended, at the input of 12 bytes `a`, the byte 13, `bb` and 13 bytes
`a` on x86-64, in which no two nodes of equal count meet, with the queue of
`pqPush`: the pending string at the end is `1111111`, the codeword of 13 is
`00`, and the loop ends with the 12 bytes before the 13, whatever follows the
container (here a byte `FF`). -/
theorem decode_terminates_witness :
    (listQueue.contentState x86_64
      (List.replicate 12 97 ++ [13, 98, 98] ++ List.replicate 13 97)).encodString
      = ['1', '1', '1', '1', '1', '1', '1'] ∧
    listQueue.eofString x86_64 (List.replicate 12 97 ++ [13, 98, 98] ++ List.replicate 13 97) =
      ['0', '0'] ∧
    listQueue.decode x86_64 ⟨[], [], 0, [], 0⟩ 28
      ([21, 196, 4, 0, 3, 0, 0, 0, 13, 1, 0, 0, 0, 97, 25, 0, 0, 0, 98, 2, 0, 0, 0,
        255, 241, 127, 254, 0] ++ [255]) = some (.output
        (((List.replicate 12 97 ++ [13, 98, 98] ++ List.replicate 13 97).takeWhile
          (fun b => decide (b ≠ eofChar))).filter (fun b => decide (b ≠ 0)))) ∧
    ((List.replicate 12 97 ++ [13, 98, 98] ++ List.replicate 13 97).takeWhile
      (fun b => decide (b ≠ eofChar))).filter (fun b => decide (b ≠ 0)) = List.replicate 12 97 :=
  ⟨by decide, by decide,
    decode_terminates listQueue listQueue_lawful x86_64 ⟨[], [], 0, [], 0⟩ 28
      (List.replicate 12 97 ++ [13, 98, 98] ++ List.replicate 13 97) _ [255]
      (by decide) (by decide) (by decide) (by decide) (by decide) (by decide) (by decide)
      (by decide), by decide⟩

/-! ## C17 -/

set_option maxRecDepth 10000 in
/-- C17 fails at the input of 31 bytes `a`, for which a container is written:
after three calls with `11111111`, the last call of `convertToByte` has for
argument the 1-character string that holds the character of code 8 (line 401),
so that the call indexes positions 2 to 7 outside its argument. -/
theorem convertToByte_short_argument :
    encode x86_64 (List.replicate 31 97) =
      .written [21, 196, 4, 0, 2, 0, 0, 0, 13, 1, 0, 0, 0, 97, 31, 0, 0, 0, 255, 255, 255, 0] ∧
    (packAll x86_64 (List.replicate 31 97)).calls =
      [['1', '1', '1', '1', '1', '1', '1', '1'], ['1', '1', '1', '1', '1', '1', '1', '1'],
        ['1', '1', '1', '1', '1', '1', '1', '1'], [Char.ofNat 8]] ∧
    ([Char.ofNat 8] : List Char).length = 1 ∧
    ¬ (Char.ofNat 8 = '0' ∨ Char.ofNat 8 = '1') := by
  decide

/-! ## C18 -/

/-- C18. Tree shape: for every frequency table with N >= 1 entries, the tree
built from it has exactly N leaves, one per table entry and carrying that
entry's symbol and count, and exactly N - 1 internal nodes, each with exactly
two children (and no symbol, and the weight of its two children together). -/
theorem tree_shape (charMap : CharMap) (hne : charMap ≠ []) :
    (leafList (buildTree charMap)).Perm charMap ∧
    (leafList (buildTree charMap)).length = charMap.length ∧
    (internalNodes (buildTree charMap)).length = charMap.length - 1 ∧
    ∀ n ∈ internalNodes (buildTree charMap), n.left ≠ .null ∧ n.right ≠ .null ∧ n.c = 0 ∧
      n.count = n.left.count + n.right.count := by
  obtain ⟨hp, hperm, _⟩ := buildTree_spec charMap hne
  obtain ⟨h1, h2⟩ := internalNodes_spec hp
  have hlen := hperm.length_eq
  exact ⟨hperm, hlen, by omega, h2⟩

/-- C18 at the table of the input `aaaa`: two leaves, one internal node. -/
theorem tree_shape_witness :
    buildCharMap x86_64 [97, 97, 97, 97] ≠ [] ∧
    leafList (buildTree (buildCharMap x86_64 [97, 97, 97, 97])) = [(13, 1), (97, 4)] ∧
    (leafList (buildTree (buildCharMap x86_64 [97, 97, 97, 97]))).length = 2 ∧
    (internalNodes (buildTree (buildCharMap x86_64 [97, 97, 97, 97]))).length = 2 - 1 :=
  ⟨by decide, by decide,
    (tree_shape (buildCharMap x86_64 [97, 97, 97, 97]) (by decide)).2.1,
    (tree_shape (buildCharMap x86_64 [97, 97, 97, 97]) (by decide)).2.2.1⟩

/-! ## C19 -/

/-- C19. Merge step, whatever the order in which the queue hands out nodes of
equal count: for every frequency table whose counts are not negative and add
up to less than 2^31 (so that no sum of line 70 leaves the range of `int`),
the tree-building loop makes one iteration per node of the queue but one,
each on the queue the iteration before has left (two nodes removed, their
parent inserted), and the tree built is the node made in the last iteration;
in every iteration, the two nodes removed from the queue (`top`, then `top`
after `pop`) have weights no greater than the weight of every node left in
the queue, and the node reinserted has weight equal to the sum of the two
removed weights, which is below 2^31; consequently the weight of the root is
the sum of all counts in the frequency table. -/
theorem merge_step (Q : PriorityQueue) (hQ : Q.Lawful) (charMap : CharMap)
    (hpos : ∀ kv ∈ charMap, 0 ≤ kv.2) (hsum : (charMap.map Prod.snd).sum < 2147483648) :
    (Q.mergeTrace (Q.pushLeaves charMap [] .null).1.length
      (Q.pushLeaves charMap [] .null).1).length = charMap.length - 1 ∧
    (Q.mergeTrace (Q.pushLeaves charMap [] .null).1.length
      (Q.pushLeaves charMap [] .null).1).Chain'
      (fun q q' => q' = Q.push (Q.pop (Q.pop q)) (node.new (Q.top q) (Q.top (Q.pop q)))) ∧
    Q.buildTree charMap =
      ((Q.mergeTrace (Q.pushLeaves charMap [] .null).1.length
        (Q.pushLeaves charMap [] .null).1).getLast?).elim (Q.pushLeaves charMap [] .null).2
        (fun q => node.new (Q.top q) (Q.top (Q.pop q))) ∧
    (∀ q ∈ Q.mergeTrace (Q.pushLeaves charMap [] .null).1.length
        (Q.pushLeaves charMap [] .null).1,
      (Q.top q).count ≤ (Q.top (Q.pop q)).count ∧
      (∀ x ∈ Q.pop (Q.pop q),
        (Q.top q).count ≤ x.count ∧ (Q.top (Q.pop q)).count ≤ x.count) ∧
      (node.new (Q.top q) (Q.top (Q.pop q))).count =
        (Q.top q).count + (Q.top (Q.pop q)).count ∧
      0 ≤ (Q.top q).count ∧ 0 ≤ (Q.top (Q.pop q)).count ∧
      (Q.top q).count + (Q.top (Q.pop q)).count < 2147483648) ∧
    (charMap ≠ [] → (Q.buildTree charMap).count = (charMap.map Prod.snd).sum) := by
  obtain ⟨_, hlen, hleaf, hreach, hcounts, _⟩ := Q.pushLeaves_queue hQ charMap [] .null
  have hall : ∀ t ∈ (Q.pushLeaves charMap [] .null).1, Proper t ∧ 0 ≤ t.count := by
    intro t ht
    rcases hleaf t ht with h | ⟨c, count, h⟩
    · cases h
    · refine ⟨h ▸ Proper.leaf c count, ?_⟩
      have hm : t.count ∈ (Q.pushLeaves charMap [] .null).1.map node.count :=
        List.mem_map_of_mem _ ht
      have hm' := hcounts.mem_iff.1 hm
      simp only [List.map_nil, List.nil_append, List.mem_map] at hm'
      obtain ⟨kv, hkv, hkc⟩ := hm'
      rw [← hkc]
      exact hpos kv hkv
  refine ⟨?_, (Q.mergeTrace_chain _ _).1, Q.mergeLoop_eq_trace _ _ _, ?_, ?_⟩
  · rw [Q.length_mergeTrace hQ _ _ (le_refl _), hlen]
    simp
  · intro q hq
    obtain ⟨hr, hp, h2, hs⟩ := Q.mergeTrace_spec hQ _ _
      (hreach PriorityQueue.Reachable.empty) hall q hq
    obtain ⟨hperm, _, _⟩ := hQ.take_two q h2
    obtain ⟨hm1, hm2⟩ := hQ.take_two_min q hr h2
    have h1 := hp (Q.top q) (hperm.mem_iff.1 (by simp))
    have h2' := hp (Q.top (Q.pop q)) (hperm.mem_iff.1 (by simp))
    have hrest : 0 ≤ ((Q.pop (Q.pop q)).map node.count).sum :=
      sum_nonneg_of_counts _ (fun t ht => (hp t (hperm.mem_iff.1 (by simp [ht]))).2)
    have htotal : (q.map node.count).sum = (charMap.map Prod.snd).sum := by
      rw [hs, hcounts.sum_eq]
      simp
    have hsplit : (q.map node.count).sum = (Q.top q).count + ((Q.top (Q.pop q)).count +
        ((Q.pop (Q.pop q)).map node.count).sum) := by
      rw [← (hperm.map node.count).sum_eq]
      simp
    exact ⟨hm1, hm2, count_node_new h1.1 h2'.1, h1.2, h2'.2, by omega⟩
  · intro hne
    obtain ⟨hp, hperm, _⟩ := Q.buildTree_tree hQ charMap hne
    rw [count_eq_sum hp]
    exact (hperm.map Prod.snd).sum_eq

set_option maxRecDepth 10000 in
/-- C19 at the table `{13: 1, 'a': 4, 'b': 2}` of the input `aaaabb`, with the
queue of `pqPush`: two iterations, on the queues of weights 1, 2, 4 and 3, 4,
and a root of weight 7. -/
theorem merge_step_witness :
    (∀ kv ∈ ([(13, 1), (97, 4), (98, 2)] : CharMap), 0 ≤ kv.2) ∧
    (([(13, 1), (97, 4), (98, 2)] : CharMap).map Prod.snd).sum < 2147483648 ∧
    (listQueue.mergeTrace 3 (listQueue.pushLeaves [(13, 1), (97, 4), (98, 2)] [] .null).1).map
      (fun q => q.map node.count) = [[1, 2, 4], [3, 4]] ∧
    (listQueue.buildTree [(13, 1), (97, 4), (98, 2)]).count = 7 ∧
    (listQueue.mergeTrace (listQueue.pushLeaves [(13, 1), (97, 4), (98, 2)] [] .null).1.length
      (listQueue.pushLeaves [(13, 1), (97, 4), (98, 2)] [] .null).1).length = 3 - 1 :=
  ⟨by decide, by decide, by decide, by decide,
    (merge_step listQueue listQueue_lawful [(13, 1), (97, 4), (98, 2)] (by decide)
      (by decide)).1⟩

/-! ## C20 -/

/-- C20. Bit/byte conversions are MSB-first mutual inverses: for every byte
`b`, `byteToString b` is the 8-character `'0'`/`'1'` string of the bits of `b`,
most significant bit first, and `convertToByte (byteToString b) = b`; and for
every 8-character string `s` over `'0'`/`'1'`,
`byteToString (convertToByte s) = s`. -/
theorem conversions_inverse :
    (∀ b, b < 256 → byteToString b = specBits b ∧ (byteToString b).length = 8 ∧
      (∀ c ∈ byteToString b, c = '0' ∨ c = '1') ∧ convertToByte (byteToString b) = b) ∧
    (∀ s : List Char, s.length = 8 → (∀ c ∈ s, c = '0' ∨ c = '1') →
      byteToString (convertToByte s) = s) := by
  refine ⟨?_, fun s hlen hs => byteToString_convertToByte s hlen hs⟩
  intro b hb
  obtain ⟨h1, h2⟩ := byteToString_spec_all b hb
  refine ⟨h1, ?_, ?_, h2⟩
  · rw [h1]
    simp [specBits]
  · rw [h1]
    intro c hc
    simp only [specBits, List.mem_map] at hc
    obtain ⟨k, _, hk⟩ := hc
    split at hk
    · exact Or.inr hk.symm
    · exact Or.inl hk.symm

/-! ## C21 -/

/-- C21. Optimality, whatever the order in which the queue hands out nodes of
equal count: for every frequency table (a map: no symbol stands twice) whose
counts are not negative and add up to less than 2^31, with at least two
entries or fewer, the leaves of the tree built from it are exactly the
symbols of the table, no count of a node of the tree leaves the range of
`int` (the sums of line 70 are exact), the depth of a leaf is the length of
the codeword of its symbol, and the tree minimises the weighted path length
(the sum, over the symbols of the table, of count times leaf depth) among
all binary trees whose leaves are exactly the symbols of the table, whatever
the number of children of their other nodes and whatever the fields `count`
of their nodes. -/
theorem tree_optimal (Q : PriorityQueue) (hQ : Q.Lawful) (charMap : CharMap)
    (hnd : (charMap.map Prod.fst).Nodup) (hpos : ∀ kv ∈ charMap, 0 ≤ kv.2)
    (hsum : (charMap.map Prod.snd).sum < 2147483648) :
    ((leafList (Q.buildTree charMap)).map Prod.fst).Perm (charMap.map Prod.fst) ∧
    (∀ n ∈ internalNodes (Q.buildTree charMap), 0 ≤ n.count ∧ n.count < 2147483648) ∧
    (∀ c w, tblFind (encodeData (Q.buildTree charMap) [] []) c = some w →
      depthOf (Q.buildTree charMap) c = w.length) ∧
    ∀ t : node, ((leafList t).map Prod.fst).Perm (charMap.map Prod.fst) →
      weightedPathLength charMap (Q.buildTree charMap) ≤ weightedPathLength charMap t := by
  by_cases hne : charMap = []
  · subst hne
    have h0 : Q.buildTree [] = .null := rfl
    rw [h0]
    exact ⟨by simp [leafList], by simp [internalNodes],
      by simp [encodeData, tblFind], fun t _ => by simp [weightedPathLength]⟩
  · obtain ⟨hp, hperm, _⟩ := Q.buildTree_tree hQ charMap hne
    refine ⟨hperm.map Prod.fst, ?_, depthOf_eq_length_of_tree hp charMap hperm hnd, ?_⟩
    · obtain ⟨_, h2⟩ := internalNodes_count_le hp
        (fun kv hkv => hpos kv (hperm.mem_iff.1 hkv))
      have hroot : (Q.buildTree charMap).count = (charMap.map Prod.snd).sum := by
        rw [count_eq_sum hp]
        exact (hperm.map Prod.snd).sum_eq
      intro n hn
      have := h2 n hn
      omega
    · intro t ht
      rw [weightedPathLength_of_leaves charMap hnd _ hperm]
      exact Q.buildTree_le hQ charMap t hnd hpos ht hne

set_option maxRecDepth 10000 in
/-- C21 at the table `{13: 1, 'a': 4, 'b': 2}` of the input `aaaabb`, with the
queue of `pqPush`: the tree built has 13 and `b` at depth 2 and `a` at depth
1, weighted path length 10; the tree with `a` and 13 at depth 2 and `b` at
depth 1 has 12. -/
theorem tree_optimal_witness :
    buildCharMap x86_64 [97, 97, 97, 97, 98, 98] = [(13, 1), (97, 4), (98, 2)] ∧
    leafDepths (listQueue.buildTree [(13, 1), (97, 4), (98, 2)]) 0 =
      [(13, 2), (98, 2), (97, 1)] ∧
    weightedPathLength [(13, 1), (97, 4), (98, 2)]
      (listQueue.buildTree [(13, 1), (97, 4), (98, 2)]) = 10 ∧
    weightedPathLength [(13, 1), (97, 4), (98, 2)]
      (node.new (node.new (newLeaf 97 4) (newLeaf 13 1)) (newLeaf 98 2)) = 12 ∧
    weightedPathLength [(13, 1), (97, 4), (98, 2)]
        (listQueue.buildTree [(13, 1), (97, 4), (98, 2)]) ≤
      weightedPathLength [(13, 1), (97, 4), (98, 2)]
        (node.new (node.new (newLeaf 97 4) (newLeaf 13 1)) (newLeaf 98 2)) :=
  ⟨by decide, by decide, by decide, by decide,
    (tree_optimal listQueue listQueue_lawful [(13, 1), (97, 4), (98, 2)] (by decide) (by decide)
      (by decide)).2.2.2
      (node.new (node.new (newLeaf 97 4) (newLeaf 13 1)) (newLeaf 98 2)) (by decide)⟩

end Huffman
